import Mathlib

/-!
Verification development for the `FunctionGraph` class of `theano/gof/fg.py`.

The graph is embedded shallowly: Python objects become `Nat` identifiers,
mutable per-object attributes (`clients`, `inputs`, `fgraph`) become function
fields of an explicit state record, Python `set`s become duplicate-free lists,
and exceptions become an error component threaded through every operation.
Observer dispatch is modelled as an event trace: each `execute_callbacks` call
appends one event, `on_import` / `on_prune` / `on_change_input` in source
order.  Observers are passive in this model (a callback that itself mutates
the graph or raises is the documented hazard outside the contract); the
keyword-retry logic of `execute_callbacks` is modelled separately.

Immutable structure (variable owners, node output lists, types, constant
flags, operator metadata) lives in an `Env` record; everything the Python
code mutates lives in `FGState`.
-/

set_option maxRecDepth 4000

/-- Value of a Python `fgraph` attribute as far as the checks in fg.py can
distinguish it: attribute absent (or `None`, for variables), equal to this
graph, or some other graph. -/
inductive FgRef
  | unset
  | mine
  | foreign
deriving DecidableEq, Repr

/-- A consumer in a client entry: either the sentinel string `'output'` or an
apply node. -/
inductive Cons
  | out
  | node (n : Nat)
deriving DecidableEq, Repr

/-- A client site `(consumer, index)`. -/
abbrev Site := Cons × Nat

/-- Observer lifecycle events, in the order `execute_callbacks` dispatches
them. -/
inductive Event
  | onImport (n : Nat)
  | onPrune (n : Nat)
  | onChangeInput (c : Cons) (i : Nat) (r newR : Nat)
deriving DecidableEq, Repr

/-- Python exceptions raised by the code, by kind: graph-ownership `Exception`,
`TypeError`, `MissingInputError`, `AssertionError`, `ValueError` (also used for
a propagating `on_attach` error), `IndexError`, `AttributeError`, the bad
view/destroy-map `Exception`, and exhaustion of the recursion fuel the
embedding gives the external traversal and the prune recursion. -/
inductive PyErr
  | ownErr
  | typeErr
  | missingInput
  | assertFail
  | valueErr
  | indexErr
  | attrErr
  | badMap
  | fuelErr
deriving DecidableEq, Repr

/-- Behaviour of a feature's `on_attach` method: normal return, raising
`toolbox.AlreadyThere`, or raising any other exception. -/
inductive AttachB
  | attachOk
  | already
  | raises
deriving DecidableEq, Repr

/-- A feature (observer) as far as `extend` / `remove_feature` can see it.
`fid` stands for Python object identity (default `__eq__`). -/
structure Feat where
  fid : Nat
  hasAttach : Bool
  attachB : AttachB
deriving DecidableEq, Repr

/-- Immutable structure surrounding the graph: variable owners and types,
constant flags, node output lists, the initial (pre-graph) node input lists,
operator metadata validity, and the recursion fuel given to the modelled
external traversal. -/
structure Env where
  owner : Nat → Option Nat
  vtype : Nat → Nat
  isConst : Nat → Bool
  nOutputs : Nat → List Nat
  nInputsInit : Nat → List Nat
  viewMapBad : Nat → Bool
  destroyMapBad : Nat → Bool
  fuel : Nat

/-- The mutable state of one `FunctionGraph`: the `inputs` / `outputs` lists,
the cached node and variable sets, per-variable client lists, per-node input
lists (`node.inputs` is mutated in place by `change_input`), per-variable and
per-node `fgraph` attributes, and the `_features` list. -/
structure FGState where
  inputs : List Nat
  outputs : List Nat
  nodes : List Nat
  vars : List Nat
  clients : Nat → List Site
  nInputs : Nat → List Nat
  vFg : Nat → FgRef
  nFg : Nat → FgRef
  feats : List Feat

/-- Result of running an operation: final state, emitted observer events, and
either a value or the exception that aborted the operation. -/
structure Res (α : Type) where
  st : FGState
  tr : List Event
  val : Except PyErr α

instance {ε α : Type} [DecidableEq ε] [DecidableEq α] : DecidableEq (Except ε α) := fun x y =>
  match x, y with
  | .ok a, .ok b =>
    if h : a = b then .isTrue (by rw [h]) else .isFalse (fun hc => h (Except.ok.inj hc))
  | .error a, .error b =>
    if h : a = b then .isTrue (by rw [h]) else .isFalse (fun hc => h (Except.error.inj hc))
  | .ok _, .error _ => .isFalse (fun hc => Except.noConfusion hc)
  | .error _, .ok _ => .isFalse (fun hc => Except.noConfusion hc)

/-- Point update of a function-valued field. -/
def upd {α : Type} (f : Nat → α) (k : Nat) (a : α) : Nat → α :=
  fun x => if x = k then a else f x

/-- Python `set.add` on a list representation. -/
def addUniq (l : List Nat) (a : Nat) : List Nat := if a ∈ l then l else l ++ [a]

/-- Python `set.remove` / `set.difference_update` on a list representation
(an element occurs at most once in a set, so removal drops every copy). -/
def setRemove (l : List Nat) (a : Nat) : List Nat := l.filter fun x => x ≠ a

/-- Successful unit result. -/
def Res.ok0 (st : FGState) : Res Unit := ⟨st, [], .ok ()⟩

/-- Successful result with a value. -/
def Res.okv {α : Type} (st : FGState) (a : α) : Res α := ⟨st, [], .ok a⟩

/-- Raised exception. -/
def Res.err {α : Type} (st : FGState) (e : PyErr) : Res α := ⟨st, [], .error e⟩

/-- Dispatch one observer event (an `execute_callbacks` call). -/
def Res.emit (st : FGState) (e : Event) : Res Unit := ⟨st, [e], .ok ()⟩

/-- Sequencing with exception propagation and trace accumulation. -/
def Res.seq {α β : Type} (x : Res α) (f : α → FGState → Res β) : Res β :=
  match x.val with
  | .error e => ⟨x.st, x.tr, .error e⟩
  | .ok a => let y := f a x.st; ⟨y.st, x.tr ++ y.tr, y.val⟩

@[simp] theorem Res.seq_okv {α β : Type} (st : FGState) (a : α) (f : α → FGState → Res β) :
    Res.seq (Res.okv st a) f = ⟨(f a st).st, (f a st).tr, (f a st).val⟩ := by
  simp [Res.seq, Res.okv]

@[simp] theorem Res.seq_ok0 {β : Type} (st : FGState) (f : Unit → FGState → Res β) :
    Res.seq (Res.ok0 st) f = ⟨(f () st).st, (f () st).tr, (f () st).val⟩ := by
  simp [Res.seq, Res.ok0]

@[simp] theorem Res.seq_err {α β : Type} (st : FGState) (e : PyErr) (f : α → FGState → Res β) :
    Res.seq (Res.err st e) f = Res.err st e := by
  simp [Res.seq, Res.err]

@[simp] theorem Res.seq_emit {β : Type} (st : FGState) (ev : Event) (f : Unit → FGState → Res β) :
    Res.seq (Res.emit st ev) f
      = ⟨(f () st).st, ev :: (f () st).tr, (f () st).val⟩ := by
  simp [Res.seq, Res.emit]

/-- `__setup_r__`: claim the variable for this graph and reset its client
list.  Raises when the variable is owned by another graph. -/
def setupR (st : FGState) (r : Nat) : Res Unit :=
  if st.vFg r = .foreign then Res.err st .ownErr
  else Res.ok0 { st with vFg := upd st.vFg r .mine, clients := upd st.clients r [] }

/-- `__setup_node__`: claim the node for this graph after validating its
operator metadata. -/
def setupNode (env : Env) (st : FGState) (n : Nat) : Res Unit :=
  if st.nFg n = .foreign then Res.err st .ownErr
  else if env.viewMapBad n then Res.err st .badMap
  else if env.destroyMapBad n then Res.err st .badMap
  else Res.ok0 { st with nFg := upd st.nFg n .mine }

/-- `__add_clients__`: append client entries, asserting none is already
present. -/
def addClients (st : FGState) (r : Nat) (newCs : List Site) : Res Unit :=
  if newCs.any (fun e => (st.clients r).contains e) then Res.err st .assertFail
  else Res.ok0 { st with clients := upd st.clients r (st.clients r ++ newCs) }

/-- The entry-removal loop of `__remove_clients__`: `list.remove` raises
`ValueError` on a missing entry, and the code asserts the entry does not
remain (client entries are unique). -/
def removeEntries (st : FGState) (r : Nat) : List Site → Res Unit
  | [] => Res.ok0 st
  | e :: rest =>
    if e ∈ st.clients r then
      if e ∈ (st.clients r).erase e then
        Res.err { st with clients := upd st.clients r ((st.clients r).erase e) } .assertFail
      else removeEntries { st with clients := upd st.clients r ((st.clients r).erase e) } r rest
    else Res.err st .valueErr

/-- Owners to prune for `__prune_r__`'s first loop
(`set(r.owner for r in variables if r.owner is not None)`). -/
def ownersOf (env : Env) (vs : List Nat) : List Nat := (vs.filterMap env.owner).dedup

/-- Second loop of `__prune_r__`: drop each variable whose client list is
empty from the variable set. -/
def pruneRVars (st : FGState) : List Nat → FGState
  | [] => st
  | v :: vs =>
    pruneRVars
      (if st.clients v = [] ∧ v ∈ st.vars then { st with vars := setRemove st.vars v } else st) vs

/-- Call shapes of the mutually recursive prune family: `__remove_clients__`,
`__prune_r__` (its owner loop separated out), `__prune__`, and `__prune__`'s
input loop.  The family is defined as a single function with structural
recursion on an explicit fuel so that its applications reduce definitionally;
the fuel supplied at the entry points is generous and exhaustion surfaces as
the artificial `fuelErr`. -/
inductive PCall
  | rmc (r : Nat) (entries : List Site) (pr : Bool)
  | prr (vs : List Nat)
  | prOwn (ms : List Nat)
  | prNode (n : Nat)
  | prIns (n : Nat) (vs : List Nat) (i : Nat)

/-- The prune family.  `rmc` is `__remove_clients__` (returning the
prune-candidate flag), `prr` is `__prune_r__`, `prOwn` its owner loop,
`prNode` is `__prune__`, and `prIns` is `__prune__`'s input loop with
`__remove_clients__`'s default `prune = True`.  Calls that return no value
in Python return `false` here. -/
def pruneFam (env : Env) : Nat → FGState → PCall → Res Bool
  | 0, st, _ => Res.err st .fuelErr
  | fuel + 1, st, .rmc r entries pr =>
    Res.seq (removeEntries st r entries) fun _ st1 =>
      if st1.clients r = [] then
        if pr then Res.seq (pruneFam env fuel st1 (.prr [r])) (fun _ st2 => Res.okv st2 false)
        else Res.okv st1 true
      else Res.okv st1 false
  | fuel + 1, st, .prr vs =>
    Res.seq (pruneFam env fuel st (.prOwn (ownersOf env vs))) fun _ st1 =>
      Res.okv (pruneRVars st1 vs) false
  | _ + 1, st, .prOwn [] => Res.okv st false
  | fuel + 1, st, .prOwn (m :: rest) =>
    Res.seq (pruneFam env fuel st (.prNode m)) fun _ st1 =>
      pruneFam env fuel st1 (.prOwn rest)
  | fuel + 1, st, .prNode n =>
    if n ∉ st.nodes then Res.err st .ownErr
    else if st.nFg n ≠ .mine then Res.err st .assertFail
    else if (env.nOutputs n).any fun w => !(st.clients w).isEmpty || st.outputs.contains w then
      Res.okv st false
    else
      Res.seq
        (Res.emit
          { st with nodes := setRemove st.nodes n,
                    vars := st.vars.filter fun v => !(env.nOutputs n).contains v }
          (.onPrune n))
        fun _ st2 => pruneFam env fuel st2 (.prIns n (st2.nInputs n) 0)
  | _ + 1, st, .prIns _ [] _ => Res.okv st false
  | fuel + 1, st, .prIns n (v :: rest) i =>
    Res.seq (pruneFam env fuel st (.rmc v [(Cons.node n, i)] true)) fun _ st1 =>
      pruneFam env fuel st1 (.prIns n rest (i + 1))

/-- Forget the returned flag. -/
def Res.toUnit (x : Res Bool) : Res Unit := ⟨x.st, x.tr, x.val.map fun _ => ()⟩

/-- `__remove_clients__(r, clients_to_remove, prune)`. -/
def removeClients (env : Env) (fuel : Nat) (st : FGState) (r : Nat) (entries : List Site)
    (pr : Bool) : Res Bool :=
  pruneFam env fuel st (.rmc r entries pr)

/-- `__prune_r__(variables)`. -/
def pruneR (env : Env) (fuel : Nat) (st : FGState) (vs : List Nat) : Res Unit :=
  (pruneFam env fuel st (.prr vs)).toUnit

/-- `__prune__(node)`. -/
def pruneNode (env : Env) (fuel : Nat) (st : FGState) (n : Nat) : Res Unit :=
  (pruneFam env fuel st (.prNode n)).toUnit

/-- Fuel handed to the prune family at its entry points; generous with
respect to the recursion depth the Python code can reach. -/
def pruneFuel (st : FGState) : Nat := 1000 + 1000 * st.nodes.length

/-- Call shapes of the depth-first search modelling the external traversal:
visit one variable, or fold over a list of variables. -/
inductive TCall
  | visit (v : Nat)
  | visitL (vs : List Nat)

/-- Modelled from the spec: the pure traversal utility `graph.io_toposort`
(the `graph` module is not part of this repository's sources).  Per the spec
it yields, for the given output frontier, the reachable new nodes in
topological order, stopping downward at the supplied known-variable frontier
(here the graph's current variable set, as `__import__` passes it).  This is
a depth-first search over owner edges: a variable in the frontier or without
an owner is a leaf; a node is marked in `seen` when first reached and emitted
to `acc` after all nodes reachable from its inputs (postorder), so ancestors
precede it.  `none` means the fuel ran out. -/
def topoGo (env : Env) : Nat → FGState → TCall → List Nat → List Nat →
    Option (List Nat × List Nat)
  | 0, _, _, _, _ => none
  | fuel + 1, st, .visit v, seen, acc =>
    if v ∈ st.vars then some (seen, acc)
    else
      match env.owner v with
      | none => some (seen, acc)
      | some m =>
        if m ∈ seen then some (seen, acc)
        else
          match topoGo env fuel st (.visitL (st.nInputs m)) (m :: seen) acc with
          | none => none
          | some (seen1, acc1) => some (seen1, acc1 ++ [m])
  | _ + 1, _, .visitL [], seen, acc => some (seen, acc)
  | fuel + 1, st, .visitL (v :: rest), seen, acc =>
    match topoGo env fuel st (.visit v) seen acc with
    | none => none
    | some (seen1, acc1) => topoGo env fuel st (.visitL rest) seen1 acc1

/-- Modelled from the spec: `graph.io_toposort(self.variables, node.outputs)`
as `__import__` calls it. -/
def ioToposort (env : Env) (st : FGState) (outs : List Nat) : Option (List Nat) :=
  (topoGo env env.fuel st (.visitL outs) [] []).map (·.2)

/-- The missing-input test of `__import_r__` / `__import__`: no owner, not a
constant, not a declared input. -/
def isMissing (env : Env) (st : FGState) (r : Nat) : Bool :=
  (env.owner r).isNone && !env.isConst r && !(st.inputs.contains r)

/-- Input-variable validation inside `__import__`'s check loop. -/
def importCheckInputs (env : Env) (st : FGState) : List Nat → Option PyErr
  | [] => none
  | r :: rest =>
    if st.vFg r = .foreign then some .ownErr
    else if isMissing env st r then some .missingInput
    else importCheckInputs env st rest

/-- The check loop of `__import__` over the new nodes: ownership of each node
and of each of its inputs, and the missing-input error. -/
def importCheckAll (env : Env) (st : FGState) : List Nat → Option PyErr
  | [] => none
  | nd :: rest =>
    if st.nFg nd = .foreign then some .ownErr
    else
      match importCheckInputs env st (st.nInputs nd) with
      | some e => some e
      | none => importCheckAll env st rest

/-- Output setup inside `__import__`'s install loop. -/
def installOutputs (st : FGState) : List Nat → Res Unit
  | [] => Res.ok0 st
  | w :: rest =>
    Res.seq (setupR st w) fun _ st1 =>
      installOutputs { st1 with vars := addUniq st1.vars w } rest

/-- One input of `__import__`'s install loop: set the variable up and add it
to the variable set unless it is already known. -/
def installInput1 (st : FGState) (w : Nat) : Res Unit :=
  if w ∈ st.vars then Res.ok0 st
  else Res.seq (setupR st w) fun _ s => Res.ok0 { s with vars := addUniq s.vars w }

/-- Input wiring inside `__import__`'s install loop: set up unknown inputs
and record the `(node, i)` client entries. -/
def installInputs (st : FGState) (nd : Nat) : List Nat → Nat → Res Unit
  | [], _ => Res.ok0 st
  | v :: rest, i =>
    Res.seq (installInput1 st v) fun _ st1 =>
      Res.seq (addClients st1 v [(Cons.node nd, i)]) fun _ st2 =>
        installInputs st2 nd rest (i + 1)

/-- Install one new node (`__import__`'s second loop body): assert it is new,
set it up, add it to the node set, install outputs and inputs, then dispatch
`on_import`. -/
def installNode (env : Env) (st : FGState) (nd : Nat) : Res Unit :=
  if nd ∈ st.nodes then Res.err st .assertFail
  else
    Res.seq (setupNode env st nd) fun _ st1 =>
      Res.seq (installOutputs { st1 with nodes := addUniq st1.nodes nd } (env.nOutputs nd))
        fun _ st2 =>
          Res.seq (installInputs st2 nd (st2.nInputs nd) 0) fun _ st3 =>
            if st3.nFg nd ≠ .mine then Res.err st3 .assertFail
            else Res.emit st3 (.onImport nd)

/-- Install loop over the new nodes in topological order. -/
def installAll (env : Env) (st : FGState) : List Nat → Res Unit
  | [] => Res.ok0 st
  | nd :: rest => Res.seq (installNode env st nd) fun _ st1 => installAll env st1 rest

/-- `__import__(node)` with its default `check=True`: new nodes from the
external toposort, the validation pass, then the install pass. -/
def importApply (env : Env) (st : FGState) (nd : Nat) : Res Unit :=
  match ioToposort env st (env.nOutputs nd) with
  | none => Res.err st .fuelErr
  | some newNodes =>
    match importCheckAll env st newNodes with
    | some e => Res.err st e
    | none => installAll env st newNodes

/-- Owner loop of `__import_r__`, threading the `r_owner_done` set (seeded
with the node set at entry). -/
def importOwners (env : Env) (st : FGState) (done : List Nat) : List Nat → Res Unit
  | [] => Res.ok0 st
  | v :: rest =>
    match env.owner v with
    | none => importOwners env st done rest
    | some nd =>
      if nd ∈ done then importOwners env st done rest
      else Res.seq (importApply env st nd) fun _ st1 => importOwners env st1 (nd :: done) rest

/-- Second loop of `__import_r__`: missing-input check, claim the variable
unless it already belongs to this graph, and add it to the variable set. -/
def importVarsFinish (env : Env) (st : FGState) : List Nat → Res Unit
  | [] => Res.ok0 st
  | v :: rest =>
    if isMissing env st v then Res.err st .missingInput
    else
      Res.seq (if st.vFg v = .mine then Res.ok0 st else setupR st v) fun _ st1 =>
        importVarsFinish env { st1 with vars := addUniq st1.vars v } rest

/-- `__import_r__(variables)`. -/
def importVars (env : Env) (st : FGState) (vs : List Nat) : Res Unit :=
  Res.seq (importOwners env st st.nodes vs) fun _ st1 => importVarsFinish env st1 vs

/-- Read the slot a client site refers to (`self.outputs[i]` or
`node.inputs[i]`). -/
def slotGet (st : FGState) (c : Cons) (i : Nat) : Option Nat :=
  match c with
  | .out => st.outputs[i]?
  | .node n => (st.nInputs n)[i]?

/-- The tail of `change_input` after the slot write and the import of the
replacement: record the new client entry, remove the old one with pruning
deferred, dispatch `on_change_input`, then run the deferred prune if the old
variable became a candidate. -/
def changeInputTail (env : Env) (st : FGState) (c : Cons) (i : Nat) (r newR : Nat) : Res Unit :=
  Res.seq (addClients st newR [(c, i)]) fun _ st2 =>
    Res.seq (removeClients env (pruneFuel st2) st2 r [(c, i)] false)
      fun pr st3 =>
        Res.seq (Res.emit st3 (.onChangeInput c i r newR)) fun _ st4 =>
          if pr then pruneR env (pruneFuel st4) st4 [r] else Res.ok0 st4

/-- Common tail of `change_input` after the slot has been written: fast path
when the slot already held `new_r`, otherwise import the replacement and run
`changeInputTail`. -/
def changeInputCore (env : Env) (st : FGState) (c : Cons) (i : Nat) (r newR : Nat) : Res Unit :=
  if r = newR then Res.ok0 st
  else
    Res.seq (importVars env st [newR]) fun _ st1 => changeInputTail env st1 c i r newR

/-- `change_input(node, i, new_r)`: type check against the current occupant,
write the slot, then the common tail. -/
def change_input (env : Env) (st : FGState) (c : Cons) (i : Nat) (newR : Nat) : Res Unit :=
  match c with
  | .out =>
    match st.outputs[i]? with
    | none => Res.err st .indexErr
    | some r =>
      if env.vtype r ≠ env.vtype newR then Res.err st .typeErr
      else changeInputCore env { st with outputs := st.outputs.set i newR } .out i r newR
  | .node n =>
    if st.nFg n ≠ .mine then Res.err st .ownErr
    else
      match (st.nInputs n)[i]? with
      | none => Res.err st .indexErr
      | some r =>
        if env.vtype r ≠ env.vtype newR then Res.err st .typeErr
        else
          changeInputCore env
            { st with nInputs := upd st.nInputs n ((st.nInputs n).set i newR) }
            (.node n) i r newR

/-- The client loop of `replace`, over a snapshot of `r.clients`, with the
source's assertion that each site's slot still holds `r`. -/
def replaceLoop (env : Env) (st : FGState) (r newR : Nat) : List Site → Res Unit
  | [] => Res.ok0 st
  | (c, i) :: rest =>
    if slotGet st c i = some r then
      Res.seq (change_input env st c i newR) fun _ st1 => replaceLoop env st1 r newR rest
    else Res.err st .assertFail

/-- `replace(r, new_r)`: ownership and type validation, the silent return
when `r` is not in the variable set, then `change_input` on every site of a
snapshot of `r.clients`. -/
def replace (env : Env) (st : FGState) (r newR : Nat) : Res Unit :=
  if st.vFg r ≠ .mine then Res.err st .ownErr
  else if env.vtype r ≠ env.vtype newR then Res.err st .typeErr
  else if r ∉ st.vars then Res.ok0 st
  else replaceLoop env st r newR (st.clients r)

/-- `extend(feature)`: a no-op for an already-registered feature; otherwise
run `on_attach` if present (`AlreadyThere` silently aborts, any other raise
propagates) and append the feature. -/
def extendFeat (st : FGState) (f : Feat) : Res Unit :=
  if f ∈ st.feats then Res.ok0 st
  else if !f.hasAttach then Res.ok0 { st with feats := st.feats ++ [f] }
  else
    match f.attachB with
    | .attachOk => Res.ok0 { st with feats := st.feats ++ [f] }
    | .already => Res.ok0 st
    | .raises => Res.err st .valueErr

/-- The constructor's feature loop. -/
def extendAll (st : FGState) : List Feat → Res Unit
  | [] => Res.ok0 st
  | f :: rest => Res.seq (extendFeat st f) fun _ st1 => extendAll st1 rest

/-- One step of the feature list built by `extend`: a feature already
registered is skipped, a feature whose `on_attach` raises `AlreadyThere` is
skipped, otherwise the feature is appended (the `raises` arm is unreachable
on a successful run and returns the list unchanged). -/
def featAcc (acc : List Feat) (f : Feat) : List Feat :=
  if f ∈ acc then acc
  else if !f.hasAttach then acc ++ [f]
  else
    match f.attachB with
    | .attachOk => acc ++ [f]
    | .already => acc
    | .raises => acc

/-- The constructor's input loop: reject inputs that have an owner, then set
each up and add it to the variable set. -/
def initInputs (env : Env) (st : FGState) : List Nat → Res Unit
  | [] => Res.ok0 st
  | v :: rest =>
    if (env.owner v).isSome then Res.err st .valueErr
    else
      Res.seq (setupR st v) fun _ st1 =>
        initInputs env { st1 with vars := addUniq st1.vars v } rest

/-- The constructor's final loop: `output.clients.append(('output', i))`
(a direct append, without `__add_clients__`'s assertion). -/
def appendOutputClients (st : FGState) : List Nat → Nat → FGState
  | [], _ => st
  | v :: rest, i =>
    appendOutputClients
      { st with clients := upd st.clients v (st.clients v ++ [(Cons.out, i)]) } rest (i + 1)

/-- Modelled from the spec: `toolbox.ReplaceValidate` (the `toolbox` module is
not part of this repository's sources).  Per the spec's observer protocol a
freshly created observer's `on_attach` succeeds on a fresh graph, so the
automatically attached instance registers normally. -/
def replaceValidateFeat (fid : Nat) : Feat := ⟨fid, true, .attachOk⟩

/-- `FunctionGraph.__init__(inputs, outputs, features)`: empty membership
sets, the feature loop followed by the automatic `ReplaceValidate` (passed
here as `rv`), the input loop, `__import_r__(outputs)`, and the output-client
loop. -/
def mkFG (env : Env) (inputs outputs : List Nat) (features : List Feat) (rv : Feat) :
    Res Unit :=
  let st0 : FGState :=
    { inputs := inputs, outputs := outputs, nodes := [], vars := [],
      clients := fun _ => [], nInputs := env.nInputsInit,
      vFg := fun _ => .unset, nFg := fun _ => .unset, feats := [] }
  Res.seq (extendAll st0 features) fun _ st1 =>
    Res.seq (extendFeat st1 rv) fun _ st2 =>
      Res.seq (initInputs env st2 inputs) fun _ st3 =>
        Res.seq (importVars env st3 outputs) fun _ st4 =>
          Res.ok0 (appendOutputClients st4 outputs 0)

/-! ### The `execute_callbacks` keyword-compatibility hack

`execute_callbacks('on_change_input', ..., reason=reason)` catches a
`TypeError` whose message is exactly
`on_change_input() got an unexpected keyword argument 'reason'` when exactly
one keyword argument was passed, and retries the callback without the keyword
argument; any other exception propagates.  Messages are modelled as an
enumeration since only that one exact string is compared. -/

/-- The `TypeError` messages the dispatcher can distinguish: the exact
unexpected-`reason`-keyword message, or any other message. -/
inductive TEMsg
  | unexpectedReasonKw
  | otherMsg (k : Nat)
deriving DecidableEq, Repr

/-- Exceptions a callback can raise: a `TypeError` with some message, or an
exception of any other class. -/
inductive CbErr
  | typeError (m : TEMsg)
  | otherExc (k : Nat)
deriving DecidableEq, Repr

/-- An observer as the `on_change_input` dispatcher sees it: whether
`getattr(feature, 'on_change_input')` succeeds, and the callback's behaviour
when invoked with or without the `reason` keyword argument. -/
structure CbFeat where
  hasCb : Bool
  call : Bool → Except CbErr Unit

/-- One iteration of `execute_callbacks` for `on_change_input`:
`kwargsLen` is `len(kwargs)`. -/
def dispatchOne (f : CbFeat) (kwargsLen : Nat) : Except CbErr Unit :=
  if !f.hasCb then .ok ()
  else
    match f.call true with
    | .ok _ => .ok ()
    | .error e =>
      if e = .typeError .unexpectedReasonKw ∧ kwargsLen = 1 then f.call false
      else .error e

/-- `execute_callbacks('on_change_input', ...)` over the feature list. -/
def execute_callbacks (fs : List CbFeat) (kwargsLen : Nat) : Except CbErr Unit :=
  match fs with
  | [] => .ok ()
  | f :: rest =>
    match dispatchOne f kwargsLen with
    | .ok _ => execute_callbacks rest kwargsLen
    | .error e => .error e

/-! ### Concrete example graphs used by counterexamples and witnesses -/

/-- A small concrete environment: input variables `0`, `1`; variable `2` is
the output of node `10` (inputs `[0,1]`), variable `3` of node `11` (inputs
`[0,1]`), variable `4` of node `12` (input `[0]`); variable `5` is a
constant.  All variables share one type except variable `6`, whose type
differs. -/
def exEnv1 : Env where
  owner := fun v => if v = 2 then some 10 else if v = 3 then some 11 else
    if v = 4 then some 12 else none
  vtype := fun v => if v = 6 then 1 else 0
  isConst := fun v => v = 5
  nOutputs := fun n => if n = 10 then [2] else if n = 11 then [3] else
    if n = 12 then [4] else []
  nInputsInit := fun n => if n = 10 then [0, 1] else if n = 11 then [0, 1] else
    if n = 12 then [0] else []
  viewMapBad := fun _ => false
  destroyMapBad := fun _ => false
  fuel := 100

/-- The graph `FunctionGraph([x], [x])` over `exEnv1` (with `x` the variable
`0`): one declared input that is also the sole output. -/
def exSt1 : FGState := (mkFG exEnv1 [0] [0] [] (replaceValidateFeat 90)).st

/-- A feature with no `on_attach` method, used by the observer-list
theorems. -/
def exFeatA : Feat := ⟨1, false, .attachOk⟩

/-- An observer whose `on_change_input` rejects exactly the `reason` keyword
argument and succeeds without it. -/
def exCb : CbFeat :=
  ⟨true, fun b => if b then .error (.typeError .unexpectedReasonKw) else .ok ()⟩

/-- A hand-built state over `exEnv1` in which variable `2` carries this
graph's `fgraph` attribute without being a member of the variable set, as
`replace`'s silent path requires. -/
def exStA : FGState where
  inputs := [0]
  outputs := [0]
  nodes := []
  vars := [0]
  clients := fun _ => []
  nInputs := exEnv1.nInputsInit
  vFg := fun v => if v = 0 then .mine else if v = 2 then .mine else .unset
  nFg := fun _ => .unset
  feats := []

/-- A hand-built state over `exEnv1` with node `10` installed but dead: its
output `2` has no clients and is not a graph output, so `__prune__` fires. -/
def exStB : FGState where
  inputs := [0, 1]
  outputs := []
  nodes := [10]
  vars := [0, 1, 2]
  clients := fun v => if v = 0 then [(Cons.node 10, 0)] else
    if v = 1 then [(Cons.node 10, 1)] else []
  nInputs := exEnv1.nInputsInit
  vFg := fun v => if v ≤ 2 then .mine else .unset
  nFg := fun n => if n = 10 then .mine else .unset
  feats := []

/-! ## Helper lemmas -/

@[simp] theorem upd_same {α : Type} (f : Nat → α) (k : Nat) (a : α) : upd f k a k = a := by
  simp [upd]

theorem upd_other {α : Type} (f : Nat → α) (k x : Nat) (a : α) (h : x ≠ k) :
    upd f k a x = f x := by
  simp [upd, h]

theorem upd_self {α : Type} (f : Nat → α) (k : Nat) : upd f k (f k) = f := by
  funext x
  by_cases h : x = k
  · subst h; simp [upd]
  · simp [upd, h]

theorem list_set_same {α : Type} (l : List α) (i : Nat) (a : α) (h : l[i]? = some a) :
    l.set i a = l := by
  induction l generalizing i with
  | nil => simp at h
  | cons x xs ih =>
    cases i with
    | zero => simp at h; simp [h]
    | succ j => simp at h; simp [ih j h]

/-! ## Claim C5: type mismatch in `change_input` -/

/-- C5: for every `change_input(consumer, i, new_r)` on a consumer that
belongs to this graph, when the type of the current occupant of the slot
differs from `new_r`'s type, a `TypeError` is raised, the state is returned
exactly as it was, and no observer event is dispatched. -/
theorem change_input_type_mismatch (env : Env) (st : FGState) (c : Cons) (i : Nat)
    (newR r : Nat)
    (hocc : slotGet st c i = some r)
    (hty : env.vtype r ≠ env.vtype newR)
    (hc : ∀ n, c = .node n → st.nFg n = .mine) :
    change_input env st c i newR = Res.err st .typeErr := by
  cases c with
  | out =>
    simp only [slotGet] at hocc
    simp [change_input, hocc, hty]
  | node n =>
    have hn := hc n rfl
    simp only [slotGet] at hocc
    simp [change_input, hn, hocc, hty]

/-- Witness for C5 at a concrete mismatched replacement. -/
theorem change_input_type_mismatch_witness :
    slotGet exSt1 Cons.out 0 = some 0 ∧
    change_input exEnv1 exSt1 Cons.out 0 6 = Res.err exSt1 .typeErr :=
  ⟨by decide,
    change_input_type_mismatch exEnv1 exSt1 Cons.out 0 6 0 (by decide) (by decide)
      (fun n h => Cons.noConfusion h)⟩

/-! ## Claim C6: `replace` on a variable outside the variable set -/

/-- C6: `replace(r, new_r)` with `r` owned by this graph and of equal type
but not in the variable set returns normally with the state exactly as it
was and no observer events. -/
theorem replace_silent_noop (env : Env) (st : FGState) (r newR : Nat)
    (h1 : st.vFg r = .mine)
    (h2 : env.vtype r = env.vtype newR)
    (h3 : r ∉ st.vars) :
    replace env st r newR = Res.ok0 st := by
  simp [replace, h1, h2, h3]

/-- Witness for C6: variable `2` is set up for the graph but not a member of
the variable set. -/
theorem replace_silent_noop_witness :
    exStA.vFg 2 = .mine ∧ 2 ∉ exStA.vars ∧
    replace exEnv1 exStA 2 0 = Res.ok0 exStA :=
  ⟨by decide, by decide,
    replace_silent_noop exEnv1 exStA 2 0 (by decide) (by decide) (by decide)⟩

/-! ## Claim C7: `change_input` fast path -/

/-- C7: when the consumer slot already holds `new_r`, `change_input` returns
with the state exactly as before (the slot write writes back the same value)
and dispatches no observer events. -/
theorem change_input_fast_path (env : Env) (st : FGState) (c : Cons) (i : Nat) (newR : Nat)
    (hocc : slotGet st c i = some newR)
    (hc : ∀ n, c = .node n → st.nFg n = .mine) :
    change_input env st c i newR = Res.ok0 st := by
  cases c with
  | out =>
    simp only [slotGet] at hocc
    simp [change_input, hocc, changeInputCore, list_set_same _ _ _ hocc]
  | node n =>
    have hn := hc n rfl
    simp only [slotGet] at hocc
    simp [change_input, hn, hocc, changeInputCore, list_set_same _ _ _ hocc, upd_self]

/-- Witness for C7 at the output slot of the example graph. -/
theorem change_input_fast_path_witness :
    slotGet exSt1 Cons.out 0 = some 0 ∧
    change_input exEnv1 exSt1 Cons.out 0 0 = Res.ok0 exSt1 :=
  ⟨by decide,
    change_input_fast_path exEnv1 exSt1 Cons.out 0 0 (by decide)
      (fun n h => Cons.noConfusion h)⟩

/-! ## Claim C8: the `reason` keyword compatibility hack -/

/-- C8: when an `on_change_input` callback raises the `TypeError` whose
message is exactly the unexpected-`reason`-keyword message, the dispatcher
retries that observer without the keyword argument, so the dispatch result is
the result of the retried call (in particular the first error does not
propagate, and a retry that returns normally makes the whole dispatch
succeed); a `TypeError` with any other message, or an exception of another
class, propagates to the caller. -/
theorem execute_callbacks_reason_retry (f : CbFeat) (h : f.hasCb = true) :
    (f.call true = .error (.typeError .unexpectedReasonKw) →
      execute_callbacks [f] 1 = f.call false) ∧
    (∀ e, f.call true = .error e → e ≠ .typeError .unexpectedReasonKw →
      execute_callbacks [f] 1 = .error e) := by
  constructor
  · intro hr
    have hd : dispatchOne f 1 = f.call false := by
      simp [dispatchOne, h, hr]
    show execute_callbacks [f] 1 = f.call false
    simp only [execute_callbacks, hd]
    cases hc : f.call false with
    | ok a => cases a; rfl
    | error e => rfl
  · intro e he hne
    have hd : dispatchOne f 1 = .error e := by
      simp [dispatchOne, h, he, hne]
    simp [execute_callbacks, hd]

/-- Witness for C8: an observer that rejects exactly the `reason` keyword is
retried and the dispatch succeeds. -/
theorem execute_callbacks_reason_retry_witness :
    exCb.call true = .error (.typeError .unexpectedReasonKw) ∧
    execute_callbacks [exCb] 1 = .ok () :=
  ⟨rfl, ((execute_callbacks_reason_retry exCb rfl).1 rfl).trans rfl⟩

/-! ## Generic lemmas for `Res.seq` -/

theorem Res.seq_pres_prop {α β : Type} (P : FGState → Prop) (x : Res α)
    (f : α → FGState → Res β) (hx : P x.st) (hf : ∀ a st, P st → P (f a st).st) :
    P (Res.seq x f).st := by
  unfold Res.seq
  cases x.val with
  | error e => exact hx
  | ok a => exact hf a x.st hx

theorem Res.seq_tr_all (Q : Event → Prop) {α β : Type} (x : Res α)
    (f : α → FGState → Res β) (hx : ∀ e ∈ x.tr, Q e)
    (hf : ∀ a st e, e ∈ (f a st).tr → Q e) :
    ∀ e ∈ (Res.seq x f).tr, Q e := by
  unfold Res.seq
  cases x.val with
  | error er => exact hx
  | ok a =>
    intro e he
    rcases List.mem_append.mp he with h | h
    · exact hx e h
    · exact hf a x.st e h

theorem Res.seq_tr_nil {α β : Type} (x : Res α) (f : α → FGState → Res β)
    (hx : x.tr = []) (hf : ∀ a st, (f a st).tr = []) : (Res.seq x f).tr = [] := by
  unfold Res.seq
  cases x.val with
  | error er => exact hx
  | ok a => simp [hx, hf]

theorem Res.seq_val_err {α β : Type} {x : Res α} {e : PyErr} (f : α → FGState → Res β)
    (hx : x.val = .error e) : (Res.seq x f).val = .error e := by
  unfold Res.seq; rw [hx]

theorem Res.seq_st_err {α β : Type} {x : Res α} {e : PyErr} (f : α → FGState → Res β)
    (hx : x.val = .error e) : (Res.seq x f).st = x.st := by
  unfold Res.seq; rw [hx]

theorem Res.seq_tr_err {α β : Type} {x : Res α} {e : PyErr} (f : α → FGState → Res β)
    (hx : x.val = .error e) : (Res.seq x f).tr = x.tr := by
  unfold Res.seq; rw [hx]

theorem Res.seq_val_ok {α β : Type} {x : Res α} {a : α} (f : α → FGState → Res β)
    (hx : x.val = .ok a) : (Res.seq x f).val = (f a x.st).val := by
  unfold Res.seq; rw [hx]

theorem Res.seq_st_ok {α β : Type} {x : Res α} {a : α} (f : α → FGState → Res β)
    (hx : x.val = .ok a) : (Res.seq x f).st = (f a x.st).st := by
  unfold Res.seq; rw [hx]

theorem Res.seq_tr_ok {α β : Type} {x : Res α} {a : α} (f : α → FGState → Res β)
    (hx : x.val = .ok a) : (Res.seq x f).tr = x.tr ++ (f a x.st).tr := by
  unfold Res.seq; rw [hx]

/-! ## Claim C10: constructor rejects inputs with owners -/

theorem extendFeat_nodes (st : FGState) (f : Feat) : (extendFeat st f).st.nodes = st.nodes := by
  unfold extendFeat
  split_ifs <;> first
    | rfl
    | (cases f.attachB <;> rfl)

theorem extendFeat_tr (st : FGState) (f : Feat) : (extendFeat st f).tr = [] := by
  unfold extendFeat
  split_ifs <;> first
    | rfl
    | (cases f.attachB <;> rfl)

theorem extendAll_nodes (fs : List Feat) (st : FGState) :
    (extendAll st fs).st.nodes = st.nodes := by
  induction fs generalizing st with
  | nil => rfl
  | cons f rest ih =>
    unfold extendAll
    exact Res.seq_pres_prop (fun s => s.nodes = st.nodes) _ _ (extendFeat_nodes st f)
      (fun a s hs => (ih s).trans hs)

theorem extendAll_tr (fs : List Feat) (st : FGState) : (extendAll st fs).tr = [] := by
  induction fs generalizing st with
  | nil => rfl
  | cons f rest ih =>
    exact Res.seq_tr_nil _ _ (extendFeat_tr st f) (fun a s => ih s)

theorem setupR_nodes (st : FGState) (r : Nat) : (setupR st r).st.nodes = st.nodes := by
  unfold setupR
  split_ifs <;> rfl

theorem setupR_tr (st : FGState) (r : Nat) : (setupR st r).tr = [] := by
  unfold setupR
  split_ifs <;> rfl

theorem initInputs_nodes (env : Env) (l : List Nat) (st : FGState) :
    (initInputs env st l).st.nodes = st.nodes := by
  induction l generalizing st with
  | nil => rfl
  | cons v rest ih =>
    unfold initInputs
    split_ifs
    · rfl
    · exact Res.seq_pres_prop (fun s => s.nodes = st.nodes) _ _ (setupR_nodes st v)
        (fun a s hs => (ih _).trans hs)

theorem initInputs_tr (env : Env) (l : List Nat) (st : FGState) :
    (initInputs env st l).tr = [] := by
  induction l generalizing st with
  | nil => rfl
  | cons v rest ih =>
    unfold initInputs
    split_ifs
    · rfl
    · exact Res.seq_tr_nil _ _ (setupR_tr st v) (fun a s => ih _)

theorem initInputs_owned_err (env : Env) (l : List Nat) (st : FGState) (v : Nat)
    (hv : v ∈ l) (ho : (env.owner v).isSome) :
    ∃ e, (initInputs env st l).val = .error e := by
  induction l generalizing st with
  | nil => cases hv
  | cons w rest ih =>
    unfold initInputs
    split_ifs with h
    · exact ⟨.valueErr, rfl⟩
    · rcases List.mem_cons.mp hv with heq | hmem
      · subst heq; exact absurd ho (by simp [h])
      · cases hval : (setupR st w).val with
        | error e => exact ⟨e, Res.seq_val_err _ hval⟩
        | ok a =>
          rcases ih { (setupR st w).st with vars := addUniq (setupR st w).st.vars w } hmem
            with ⟨e, he⟩
          exact ⟨e, by rw [Res.seq_val_ok _ hval]; exact he⟩

/-- C10: constructing a `FunctionGraph` whose declared input list contains a
variable with an owner raises an error before importing any output subgraph:
the node set of the returned state is empty and no observer event (in
particular no `on_import`) was dispatched. -/
theorem mkFG_owned_input_err (env : Env) (inputs outputs : List Nat)
    (features : List Feat) (rv : Feat) (v : Nat)
    (hv : v ∈ inputs) (ho : (env.owner v).isSome) :
    (∃ e, (mkFG env inputs outputs features rv).val = .error e) ∧
    (mkFG env inputs outputs features rv).st.nodes = [] ∧
    (mkFG env inputs outputs features rv).tr = [] := by
  unfold mkFG
  simp only
  refine ⟨?_, ?_, ?_⟩
  · cases hval : (extendAll _ features).val with
    | error e => exact ⟨e, Res.seq_val_err _ hval⟩
    | ok a =>
      rw [Res.seq_val_ok _ hval]
      cases hval2 : (extendFeat _ rv).val with
      | error e => exact ⟨e, Res.seq_val_err _ hval2⟩
      | ok b =>
        rw [Res.seq_val_ok _ hval2]
        rcases initInputs_owned_err env inputs _ v hv ho with ⟨e, he⟩
        exact ⟨e, Res.seq_val_err _ he⟩
  · cases hval : (extendAll _ features).val with
    | error e => rw [Res.seq_st_err _ hval]; exact extendAll_nodes features _
    | ok a =>
      rw [Res.seq_st_ok _ hval]
      cases hval2 : (extendFeat _ rv).val with
      | error e =>
        rw [Res.seq_st_err _ hval2]
        exact (extendFeat_nodes _ rv).trans (extendAll_nodes features _)
      | ok b =>
        rw [Res.seq_st_ok _ hval2]
        rcases initInputs_owned_err env inputs _ v hv ho with ⟨e, he⟩
        rw [Res.seq_st_err _ he]
        exact (initInputs_nodes env inputs _).trans
          ((extendFeat_nodes _ rv).trans (extendAll_nodes features _))
  · cases hval : (extendAll _ features).val with
    | error e => rw [Res.seq_tr_err _ hval]; exact extendAll_tr features _
    | ok a =>
      rw [Res.seq_tr_ok _ hval, extendAll_tr features _]
      cases hval2 : (extendFeat _ rv).val with
      | error e =>
        rw [Res.seq_tr_err _ hval2]
        simp [extendFeat_tr]
      | ok b =>
        rw [Res.seq_tr_ok _ hval2]
        rcases initInputs_owned_err env inputs _ v hv ho with ⟨e, he⟩
        rw [Res.seq_tr_err _ he]
        simp [extendFeat_tr, initInputs_tr]

/-- Witness for C10: constructing with input `2`, which node `10` owns. -/
theorem mkFG_owned_input_err_witness :
    2 ∈ [2] ∧ (exEnv1.owner 2).isSome = true ∧
    ((∃ e, (mkFG exEnv1 [2] [2] [] (replaceValidateFeat 90)).val = .error e) ∧
      (mkFG exEnv1 [2] [2] [] (replaceValidateFeat 90)).st.nodes = [] ∧
      (mkFG exEnv1 [2] [2] [] (replaceValidateFeat 90)).tr = []) :=
  ⟨by decide, by decide,
    mkFG_owned_input_err exEnv1 [2] [2] [] (replaceValidateFeat 90) 2 (by decide) (by decide)⟩

/-! ## Claim C1, counterexample

`replace(x, neg(x))` on the graph `([x], [x])` succeeds, yet afterwards the
imported node `12` (the owner of the replacement) is an in-graph consumer
whose input slot `0` still references `x`: the claim that *no* consumer site
references `r` after a successful `replace` fails whenever the replacement's
subgraph consumes `r`.  (This is the scenario behind the commented-out
"clients left after replace" warning in the source.) -/

/-- C1 fails as stated: after a successful `replace(r, new_r)` with
`new_r ≠ r`, `r` owned by this graph, equal types, and `r` in the variable
set, the consumer site `(node 12, 0)` still references `r = 0`. -/
theorem replace_clients_left_counterexample :
    exSt1.vFg 0 = .mine ∧ exEnv1.vtype 0 = exEnv1.vtype 4 ∧ 0 ∈ exSt1.vars ∧
    (replace exEnv1 exSt1 0 4).val = .ok () ∧ (4 : Nat) ≠ 0 ∧
    12 ∈ (replace exEnv1 exSt1 0 4).st.nodes ∧
    ((replace exEnv1 exSt1 0 4).st.nInputs 12)[0]? = some 0 ∧
    (Cons.node 12, 0) ∈ (replace exEnv1 exSt1 0 4).st.clients 0 := by
  decide

/-! ## Claim C2, counterexample

On `([x], [x])`, `replace(x, c)` with `c` a constant of the same type leaves
`x` clientless, and `__prune_r__` then removes `x` from the variable set with
no declared-input check: a declared input does *not* stay in the variable set
when its client list empties. -/

/-- C2 fails as stated: `x = 0` is a declared input consumed at the output
site, the replacement succeeds, and `x` is removed from the variable set. -/
theorem input_pruned_counterexample :
    0 ∈ exSt1.inputs ∧ exSt1.clients 0 ≠ [] ∧ 0 ∈ exSt1.vars ∧
    exEnv1.vtype 0 = exEnv1.vtype 5 ∧
    (replace exEnv1 exSt1 0 5).val = .ok () ∧
    0 ∉ (replace exEnv1 exSt1 0 5).st.vars := by
  decide

/-! ## Claim C9, counterexample

`extend` deduplicates: supplying the same feature object twice yields a
`_features` list with a single copy, so the observer list is not "the
supplied features in order followed by `ReplaceValidate`". -/

/-- C9 fails as stated: constructing with the duplicate feature list
`[f, f]` yields `[f, ReplaceValidate]`, not `[f, f, ReplaceValidate]`. -/
theorem feature_list_counterexample :
    (mkFG exEnv1 [0] [0] [exFeatA, exFeatA] (replaceValidateFeat 90)).val = .ok () ∧
    (mkFG exEnv1 [0] [0] [exFeatA, exFeatA] (replaceValidateFeat 90)).st.feats
      = [exFeatA, replaceValidateFeat 90] ∧
    (mkFG exEnv1 [0] [0] [exFeatA, exFeatA] (replaceValidateFeat 90)).st.feats
      ≠ [exFeatA, exFeatA] ++ [replaceValidateFeat 90] := by
  decide

/-! ## Trace lemmas for C3 (observer event order in `change_input`) -/

theorem setupNode_tr (env : Env) (st : FGState) (n : Nat) : (setupNode env st n).tr = [] := by
  unfold setupNode
  split_ifs <;> rfl

theorem addClients_tr (st : FGState) (r : Nat) (cs : List Site) :
    (addClients st r cs).tr = [] := by
  unfold addClients
  split_ifs <;> rfl

theorem removeEntries_tr (st : FGState) (r : Nat) (es : List Site) :
    (removeEntries st r es).tr = [] := by
  induction es generalizing st with
  | nil => rfl
  | cons e rest ih =>
    unfold removeEntries
    split_ifs <;> first | rfl | exact ih _

theorem installOutputs_tr (st : FGState) (ws : List Nat) : (installOutputs st ws).tr = [] := by
  induction ws generalizing st with
  | nil => rfl
  | cons w rest ih =>
    exact Res.seq_tr_nil _ _ (setupR_tr st w) (fun a s => ih _)

theorem installInput1_tr (st : FGState) (w : Nat) : (installInput1 st w).tr = [] := by
  unfold installInput1
  split_ifs
  · rfl
  · exact Res.seq_tr_nil _ _ (setupR_tr st w) (fun a s => rfl)

theorem installInputs_tr (st : FGState) (nd : Nat) (vs : List Nat) (i : Nat) :
    (installInputs st nd vs i).tr = [] := by
  induction vs generalizing st i with
  | nil => rfl
  | cons v rest ih =>
    refine Res.seq_tr_nil _ _ (installInput1_tr st v) ?_
    intro a s
    exact Res.seq_tr_nil _ _ (addClients_tr s v _) (fun b s2 => ih _ _)

/-- Every event `installNode` emits is an `on_import`. -/
theorem installNode_tr_imports (env : Env) (st : FGState) (nd : Nat) :
    ∀ e ∈ (installNode env st nd).tr, ∃ m, e = .onImport m := by
  unfold installNode
  split_ifs
  · intro e he; cases he
  · refine Res.seq_tr_all _ _ _ (by simp [setupNode_tr]) ?_
    intro a s
    refine Res.seq_tr_all _ _ _ (by simp [installOutputs_tr]) ?_
    intro b s2
    refine Res.seq_tr_all _ _ _ (by simp [installInputs_tr]) ?_
    intro c s3 e he
    split_ifs at he
    · cases he
    · rcases List.mem_singleton.mp he with rfl
      exact ⟨nd, rfl⟩

theorem installAll_tr_imports (env : Env) (nds : List Nat) (st : FGState) :
    ∀ e ∈ (installAll env st nds).tr, ∃ m, e = .onImport m := by
  induction nds generalizing st with
  | nil => intro e he; cases he
  | cons nd rest ih =>
    exact Res.seq_tr_all _ _ _ (installNode_tr_imports env st nd) (fun a s => ih s)

theorem importApply_tr_imports (env : Env) (st : FGState) (nd : Nat) :
    ∀ e ∈ (importApply env st nd).tr, ∃ m, e = .onImport m := by
  unfold importApply
  cases hio : ioToposort env st (env.nOutputs nd) with
  | none => simp only [hio]; intro e he; cases he
  | some newNodes =>
    simp only [hio]
    cases hchk : importCheckAll env st newNodes with
    | some er => simp only [hchk]; intro e he; cases he
    | none => simp only [hchk]; exact installAll_tr_imports env newNodes st

theorem importOwners_tr_imports (env : Env) (vs : List Nat) (st : FGState) (done : List Nat) :
    ∀ e ∈ (importOwners env st done vs).tr, ∃ m, e = .onImport m := by
  induction vs generalizing st done with
  | nil => intro e he; cases he
  | cons v rest ih =>
    unfold importOwners
    cases env.owner v with
    | none => exact ih st done
    | some nd =>
      dsimp only
      split_ifs
      · exact ih st done
      · exact Res.seq_tr_all _ _ _ (importApply_tr_imports env st nd) (fun a s => ih s _)

theorem importVarsFinish_tr (env : Env) (vs : List Nat) (st : FGState) :
    (importVarsFinish env st vs).tr = [] := by
  induction vs generalizing st with
  | nil => rfl
  | cons v rest ih =>
    unfold importVarsFinish
    split_ifs with h1 h2
    · rfl
    · exact Res.seq_tr_nil _ _ rfl (fun a s => ih _)
    · exact Res.seq_tr_nil _ _ (setupR_tr st v) (fun a s => ih _)

theorem importVars_tr_imports (env : Env) (st : FGState) (vs : List Nat) :
    ∀ e ∈ (importVars env st vs).tr, ∃ m, e = .onImport m := by
  unfold importVars
  refine Res.seq_tr_all _ _ _ (importOwners_tr_imports env vs st st.nodes) ?_
  intro a s e he
  rw [importVarsFinish_tr] at he
  cases he

/-- Every event the prune family emits is an `on_prune`. -/
theorem pruneFam_tr_prunes (env : Env) :
    ∀ fuel st pc, ∀ e ∈ (pruneFam env fuel st pc).tr, ∃ m, e = .onPrune m := by
  intro fuel
  induction fuel with
  | zero => intro st pc e he; cases he
  | succ fuel ih =>
    intro st pc
    cases pc with
    | rmc r entries pr =>
      show ∀ e ∈ (Res.seq (removeEntries st r entries) _).tr, _
      refine Res.seq_tr_all _ _ _ (by simp [removeEntries_tr]) ?_
      intro a s e he
      split_ifs at he
      · refine Res.seq_tr_all _ _ _ (ih s _) (fun b s2 e2 he2 => by cases he2) e he
      · cases he
      · cases he
    | prr vs =>
      show ∀ e ∈ (Res.seq (pruneFam env fuel st (.prOwn (ownersOf env vs))) _).tr, _
      refine Res.seq_tr_all _ _ _ (ih st _) ?_
      intro a s e he
      cases he
    | prOwn ms =>
      cases ms with
      | nil => intro e he; cases he
      | cons m rest =>
        show ∀ e ∈ (Res.seq (pruneFam env fuel st (.prNode m)) _).tr, _
        exact Res.seq_tr_all _ _ _ (ih st _) (fun a s => ih s _)
    | prNode n =>
      show ∀ e ∈ (pruneFam env (fuel + 1) st (.prNode n)).tr, _
      unfold pruneFam
      split_ifs <;> intro e he
      all_goals try (cases he; done)
      all_goals
        rcases List.mem_cons.mp (by simpa [Res.seq, Res.emit] using he) with h | h
      all_goals first
        | exact ⟨n, h⟩
        | exact ih _ _ e h
    | prIns n vs i =>
      cases vs with
      | nil => intro e he; cases he
      | cons v rest =>
        show ∀ e ∈ (Res.seq (pruneFam env fuel st (.rmc v [(Cons.node n, i)] true)) _).tr, _
        exact Res.seq_tr_all _ _ _ (ih st _) (fun a s => ih s _)

theorem removeClients_false_tr (env : Env) (fuel : Nat) (st : FGState) (r : Nat)
    (es : List Site) : (removeClients env fuel st r es false).tr = [] := by
  cases fuel with
  | zero => rfl
  | succ fuel =>
    show (Res.seq (removeEntries st r es) _).tr = []
    refine Res.seq_tr_nil _ _ (removeEntries_tr st r es) ?_
    intro a s
    split_ifs <;> first | rfl | contradiction

/-- Event order of a successful `changeInputTail`: the `on_change_input`
event first, then only `on_prune` events. -/
theorem changeInputTail_event_order (env : Env) (st : FGState) (c : Cons) (i : Nat)
    (r newR : Nat) (hok : (changeInputTail env st c i r newR).val = .ok ()) :
    ∃ post, (changeInputTail env st c i r newR).tr = Event.onChangeInput c i r newR :: post ∧
      ∀ e ∈ post, ∃ m, e = .onPrune m := by
  unfold changeInputTail at hok ⊢
  cases h1 : (addClients st newR [(c, i)]).val with
  | error e => rw [Res.seq_val_err _ h1] at hok; cases hok
  | ok a =>
    rw [Res.seq_tr_ok _ h1, addClients_tr _ _ _]
    cases h2 : (removeClients env (pruneFuel (addClients st newR [(c, i)]).st)
        (addClients st newR [(c, i)]).st r [(c, i)] false).val with
    | error e =>
      rw [Res.seq_val_ok _ h1, Res.seq_val_err _ h2] at hok
      cases hok
    | ok pr =>
      rw [List.nil_append, Res.seq_tr_ok _ h2, removeClients_false_tr, List.nil_append]
      rw [Res.seq_tr_ok _ (rfl : (Res.emit _ (Event.onChangeInput c i r newR)).val = .ok ())]
      refine ⟨_, rfl, ?_⟩
      intro e he
      simp only [Res.emit] at he
      split_ifs at he
      · exact pruneFam_tr_prunes env _ _ _ e (by simpa [Res.toUnit, pruneR] using he)
      · cases he

/-- Event order of a successful, non-fast-path `changeInputCore`: `on_import`
events, then the `on_change_input` event, then `on_prune` events. -/
theorem changeInputCore_event_order (env : Env) (st : FGState) (c : Cons) (i : Nat)
    (r newR : Nat) (hok : (changeInputCore env st c i r newR).val = .ok ())
    (hne : r ≠ newR) :
    ∃ pre post,
      (changeInputCore env st c i r newR).tr = pre ++ Event.onChangeInput c i r newR :: post ∧
      (∀ e ∈ pre, ∃ m, e = .onImport m) ∧ (∀ e ∈ post, ∃ m, e = .onPrune m) := by
  unfold changeInputCore at hok ⊢
  rw [if_neg hne] at hok ⊢
  cases h1 : (importVars env st [newR]).val with
  | error e => rw [Res.seq_val_err _ h1] at hok; cases hok
  | ok a =>
    rw [Res.seq_val_ok _ h1] at hok
    rw [Res.seq_tr_ok _ h1]
    rcases changeInputTail_event_order env _ c i r newR hok with ⟨post, hpost, hprunes⟩
    exact ⟨(importVars env st [newR]).tr, post, by rw [hpost],
      importVars_tr_imports env st [newR], hprunes⟩

/-- C3: for every successful `change_input` that mutates the graph (the slot
does not already hold `new_r`), the event trace consists of the `on_import`
events for newly imported nodes, then the single `on_change_input` event for
the edited slot, then the `on_prune` events of the consequent prune. -/
theorem change_input_event_order (env : Env) (st : FGState) (c : Cons) (i : Nat) (newR : Nat)
    (hok : (change_input env st c i newR).val = .ok ())
    (hch : slotGet st c i ≠ some newR) :
    ∃ r pre post,
      (change_input env st c i newR).tr = pre ++ Event.onChangeInput c i r newR :: post ∧
      (∀ e ∈ pre, ∃ m, e = .onImport m) ∧ (∀ e ∈ post, ∃ m, e = .onPrune m) := by
  cases c with
  | out =>
    simp only [slotGet] at hch
    unfold change_input at hok ⊢
    dsimp only at hok ⊢
    revert hok
    cases hocc : st.outputs[i]? with
    | none => intro hok; dsimp only [Res.err] at hok; cases hok
    | some r =>
      intro hok
      dsimp only at hok ⊢
      rw [hocc] at hch
      have hne : r ≠ newR := fun hr => hch (by rw [hr])
      split_ifs at hok ⊢ with hty
      · cases hok
      · rcases changeInputCore_event_order env _ .out i r newR hok hne
          with ⟨pre, post, htr, him, hpr⟩
        exact ⟨r, pre, post, htr, him, hpr⟩
  | node n =>
    simp only [slotGet] at hch
    unfold change_input at hok ⊢
    dsimp only at hok ⊢
    split_ifs at hok ⊢ with hfg
    · cases hok
    · revert hok
      cases hocc : (st.nInputs n)[i]? with
      | none => intro hok; dsimp only [Res.err] at hok; cases hok
      | some r =>
        intro hok
        dsimp only at hok ⊢
        rw [hocc] at hch
        have hne : r ≠ newR := fun hr => hch (by rw [hr])
        split_ifs at hok ⊢ with hty
        · cases hok
        · rcases changeInputCore_event_order env _ (.node n) i r newR hok hne
            with ⟨pre, post, htr, him, hpr⟩
          exact ⟨r, pre, post, htr, him, hpr⟩
/-- Witness for C3 at the concrete mutation `change_input('output', 0, neg(x))`
on the example graph. -/
theorem change_input_event_order_witness :
    (change_input exEnv1 exSt1 Cons.out 0 4).val = .ok () ∧
    slotGet exSt1 Cons.out 0 ≠ some 4 ∧
    ∃ r pre post,
      (change_input exEnv1 exSt1 Cons.out 0 4).tr
        = pre ++ Event.onChangeInput Cons.out 0 r 4 :: post ∧
      (∀ e ∈ pre, ∃ m, e = .onImport m) ∧ (∀ e ∈ post, ∃ m, e = .onPrune m) :=
  ⟨by decide, by decide,
    change_input_event_order exEnv1 exSt1 Cons.out 0 4 (by decide) (by decide)⟩

/-! ## Helper lemmas for the prune family (C4) -/

theorem Res.seq_inv {α β : Type} {x : Res α} {f : α → FGState → Res β} {b : β}
    (h : (Res.seq x f).val = .ok b) :
    ∃ a, x.val = .ok a ∧ (f a x.st).val = .ok b ∧
      (Res.seq x f).st = (f a x.st).st := by
  cases hx : x.val with
  | error e => rw [Res.seq_val_err _ hx] at h; cases h
  | ok a => exact ⟨a, rfl, by rw [Res.seq_val_ok _ hx] at h; exact h, Res.seq_st_ok _ hx⟩

theorem mem_setRemove {l : List Nat} {a x : Nat} :
    x ∈ setRemove l a ↔ x ∈ l ∧ x ≠ a := by
  simp [setRemove]

theorem not_mem_setRemove_self (l : List Nat) (a : Nat) : a ∉ setRemove l a := by
  simp [mem_setRemove]

/-- `pruneRVars` changes only the variable set. -/
theorem pruneRVars_clients (vs : List Nat) (st : FGState) :
    (pruneRVars st vs).clients = st.clients := by
  induction vs generalizing st with
  | nil => rfl
  | cons v rest ih =>
    unfold pruneRVars
    split_ifs <;> exact ih _

theorem pruneRVars_nodes (vs : List Nat) (st : FGState) :
    (pruneRVars st vs).nodes = st.nodes := by
  induction vs generalizing st with
  | nil => rfl
  | cons v rest ih =>
    unfold pruneRVars
    split_ifs <;> exact ih _

theorem pruneRVars_nInputs (vs : List Nat) (st : FGState) :
    (pruneRVars st vs).nInputs = st.nInputs := by
  induction vs generalizing st with
  | nil => rfl
  | cons v rest ih =>
    unfold pruneRVars
    split_ifs <;> exact ih _

theorem pruneRVars_outputs (vs : List Nat) (st : FGState) :
    (pruneRVars st vs).outputs = st.outputs := by
  induction vs generalizing st with
  | nil => rfl
  | cons v rest ih =>
    unfold pruneRVars
    split_ifs <;> exact ih _

theorem pruneRVars_vars_shrink (vs : List Nat) (st : FGState) (v : Nat)
    (h : v ∈ (pruneRVars st vs).vars) : v ∈ st.vars := by
  induction vs generalizing st with
  | nil => exact h
  | cons w rest ih =>
    unfold pruneRVars at h
    split_ifs at h
    · rcases mem_setRemove.mp (ih _ h) with ⟨h1, _⟩
      exact h1
    · exact ih _ h

/-- `removeEntries` changes only `r`'s client list, by erasing entries. -/
theorem removeEntries_clients_shrink (es : List Site) (st : FGState) (r : Nat) (v : Nat)
    (e : Site) (h : e ∈ (removeEntries st r es).st.clients v) : e ∈ st.clients v := by
  induction es generalizing st with
  | nil => exact h
  | cons e0 rest ih =>
    unfold removeEntries at h
    split_ifs at h
    · by_cases hv : v = r
      · subst hv
        simp only [Res.err, upd_same] at h
        exact List.mem_of_mem_erase h
      · simp only [Res.err] at h
        rwa [upd_other _ _ _ _ hv] at h
    · have h2 := ih _ h
      by_cases hv : v = r
      · subst hv
        rw [show ({ st with clients := upd st.clients v ((st.clients v).erase e0) } :
            FGState).clients v = (st.clients v).erase e0 by simp [upd]] at h2
        exact List.mem_of_mem_erase h2
      · rwa [show ({ st with clients := upd st.clients r ((st.clients r).erase e0) } :
            FGState).clients v = st.clients v by simp [upd, hv]] at h2
    · exact h

theorem removeEntries_nodes (es : List Site) (st : FGState) (r : Nat) :
    (removeEntries st r es).st.nodes = st.nodes := by
  induction es generalizing st with
  | nil => rfl
  | cons e0 rest ih =>
    unfold removeEntries
    split_ifs <;> first | rfl | exact ih _

theorem removeEntries_vars (es : List Site) (st : FGState) (r : Nat) :
    (removeEntries st r es).st.vars = st.vars := by
  induction es generalizing st with
  | nil => rfl
  | cons e0 rest ih =>
    unfold removeEntries
    split_ifs <;> first | rfl | exact ih _

theorem removeEntries_nInputs (es : List Site) (st : FGState) (r : Nat) :
    (removeEntries st r es).st.nInputs = st.nInputs := by
  induction es generalizing st with
  | nil => rfl
  | cons e0 rest ih =>
    unfold removeEntries
    split_ifs <;> first | rfl | exact ih _

theorem removeEntries_outputs (es : List Site) (st : FGState) (r : Nat) :
    (removeEntries st r es).st.outputs = st.outputs := by
  induction es generalizing st with
  | nil => rfl
  | cons e0 rest ih =>
    unfold removeEntries
    split_ifs <;> first | rfl | exact ih _

/-- `removeEntries` touches no client list other than `r`'s. -/
theorem removeEntries_clients_other (es : List Site) (st : FGState) (r v : Nat)
    (hv : v ≠ r) : (removeEntries st r es).st.clients v = st.clients v := by
  induction es generalizing st with
  | nil => rfl
  | cons e0 rest ih =>
    unfold removeEntries
    split_ifs
    · simp only [Res.err]
      exact upd_other _ _ _ _ hv
    · rw [ih _]
      simp [upd, hv]
    · rfl

/-- A successful `removeEntries` leaves none of the removed entries in `r`'s
client list. -/
theorem removeEntries_removes (es : List Site) (st : FGState) (r : Nat)
    (hok : (removeEntries st r es).val = .ok ()) :
    ∀ e ∈ es, e ∉ (removeEntries st r es).st.clients r := by
  induction es generalizing st with
  | nil => intro e he; cases he
  | cons e0 rest ih =>
    intro e he
    unfold removeEntries at hok ⊢
    split_ifs at hok ⊢ with h1 h2
    · cases hok
    · rcases List.mem_cons.mp he with rfl | hmem
      · intro hcon
        have h3 := removeEntries_clients_shrink rest _ r r e hcon
        rw [show ({ st with clients := upd st.clients r ((st.clients r).erase e) } :
            FGState).clients r = (st.clients r).erase e by simp [upd]] at h3
        exact h2 h3
      · exact ih _ hok e hmem
    · cases hok

/-- The prune family only shrinks the graph: client lists, node set, and
variable set lose elements only, and every other field is untouched. -/
def Shrinks (st st' : FGState) : Prop :=
  (∀ v e, e ∈ st'.clients v → e ∈ st.clients v) ∧
  (∀ m, m ∈ st'.nodes → m ∈ st.nodes) ∧
  (∀ v, v ∈ st'.vars → v ∈ st.vars) ∧
  st'.nInputs = st.nInputs ∧ st'.outputs = st.outputs ∧
  st'.vFg = st.vFg ∧ st'.nFg = st.nFg ∧ st'.feats = st.feats ∧ st'.inputs = st.inputs

theorem Shrinks_refl (st : FGState) : Shrinks st st :=
  ⟨fun _ _ h => h, fun _ h => h, fun _ h => h, rfl, rfl, rfl, rfl, rfl, rfl⟩

theorem Shrinks_trans {s1 s2 s3 : FGState} (h12 : Shrinks s1 s2) (h23 : Shrinks s2 s3) :
    Shrinks s1 s3 := by
  obtain ⟨a1, b1, c1, d1, e1, f1, g1, i1, j1⟩ := h12
  obtain ⟨a2, b2, c2, d2, e2, f2, g2, i2, j2⟩ := h23
  exact ⟨fun v e h => a1 v e (a2 v e h), fun m h => b1 m (b2 m h), fun v h => c1 v (c2 v h),
    d2.trans d1, e2.trans e1, f2.trans f1, g2.trans g1, i2.trans i1, j2.trans j1⟩

theorem Res.seq_st_cases {α β : Type} (x : Res α) (f : α → FGState → Res β) :
    (Res.seq x f).st = x.st ∨ ∃ a, x.val = .ok a ∧ (Res.seq x f).st = (f a x.st).st := by
  cases hx : x.val with
  | error e => exact Or.inl (Res.seq_st_err _ hx)
  | ok a => exact Or.inr ⟨a, rfl, Res.seq_st_ok _ hx⟩

theorem removeEntries_shrinks (es : List Site) (st : FGState) (r : Nat) :
    Shrinks st (removeEntries st r es).st := by
  refine ⟨fun v e h => removeEntries_clients_shrink es st r v e h, ?_, ?_, ?_, ?_, ?_, ?_, ?_, ?_⟩
    <;> (induction es generalizing st with
      | nil => first | (intro _ h; exact h) | rfl
      | cons e0 rest ih =>
          unfold removeEntries
          split_ifs <;> first | (intro _ h; exact h) | rfl | exact ih _)

theorem pruneRVars_shrinks (vs : List Nat) (st : FGState) :
    Shrinks st (pruneRVars st vs) := by
  refine ⟨?_, ?_, fun v h => pruneRVars_vars_shrink vs st v h, ?_, ?_, ?_, ?_, ?_, ?_⟩
    <;> (induction vs generalizing st with
      | nil => first | (intro _ _ h; exact h) | (intro _ h; exact h) | rfl
      | cons w rest ih =>
          unfold pruneRVars
          split_ifs <;> first | exact ih _)

/-- Master shrink lemma for the prune family. -/
theorem pruneFam_shrinks (env : Env) :
    ∀ fuel st pc, Shrinks st (pruneFam env fuel st pc).st := by
  intro fuel
  induction fuel with
  | zero => intro st pc; exact Shrinks_refl st
  | succ fuel ih =>
    intro st pc
    cases pc with
    | rmc r entries pr =>
      show Shrinks st (Res.seq (removeEntries st r entries) _).st
      rcases Res.seq_st_cases (removeEntries st r entries) _ with h | ⟨a, ha, h⟩
      · rw [h]; exact removeEntries_shrinks entries st r
      · rw [h]
        refine Shrinks_trans (removeEntries_shrinks entries st r) ?_
        split_ifs
        · rcases Res.seq_st_cases (pruneFam env fuel _ (.prr [r])) _ with h2 | ⟨b, hb, h2⟩
          · rw [h2]; exact ih _ _
          · rw [h2]; exact ih _ _
        · exact Shrinks_refl _
        · exact Shrinks_refl _
    | prr vs =>
      show Shrinks st (Res.seq (pruneFam env fuel st (.prOwn (ownersOf env vs))) _).st
      rcases Res.seq_st_cases (pruneFam env fuel st (.prOwn (ownersOf env vs))) _
        with h | ⟨a, ha, h⟩
      · rw [h]; exact ih _ _
      · rw [h]
        exact Shrinks_trans (ih _ _) (pruneRVars_shrinks vs _)
    | prOwn ms =>
      cases ms with
      | nil => exact Shrinks_refl st
      | cons m rest =>
        show Shrinks st (Res.seq (pruneFam env fuel st (.prNode m)) _).st
        rcases Res.seq_st_cases (pruneFam env fuel st (.prNode m)) _ with h | ⟨a, ha, h⟩
        · rw [h]; exact ih _ _
        · rw [h]; exact Shrinks_trans (ih _ _) (ih _ _)
    | prNode n =>
      show Shrinks st (pruneFam env (fuel + 1) st (.prNode n)).st
      unfold pruneFam
      by_cases h1 : n ∉ st.nodes
      · rw [if_pos h1]; exact Shrinks_refl st
      · rw [if_neg h1]
        by_cases h2 : st.nFg n ≠ .mine
        · rw [if_pos h2]; exact Shrinks_refl st
        · rw [if_neg h2]
          by_cases h3 : ((env.nOutputs n).any fun w =>
              !(st.clients w).isEmpty || st.outputs.contains w) = true
          · rw [if_pos h3]; exact Shrinks_refl st
          · rw [if_neg h3]
            have hstep : Shrinks st (Res.emit
                { st with nodes := setRemove st.nodes n,
                          vars := st.vars.filter fun v => !(env.nOutputs n).contains v }
                (Event.onPrune n)).st :=
              ⟨fun v e hh => hh, fun m hm => (mem_setRemove.mp hm).1,
                fun v hv => (List.mem_filter.mp hv).1, rfl, rfl, rfl, rfl, rfl, rfl⟩
            rcases Res.seq_st_cases (Res.emit _ (Event.onPrune n)) _ with h | ⟨a, ha, h⟩
            · rw [h]; exact hstep
            · rw [h]; exact Shrinks_trans hstep (ih _ _)
    | prIns n vs i =>
      cases vs with
      | nil => exact Shrinks_refl st
      | cons v rest =>
        show Shrinks st
          (Res.seq (pruneFam env fuel st (.rmc v [(Cons.node n, i)] true)) _).st
        rcases Res.seq_st_cases (pruneFam env fuel st (.rmc v [(Cons.node n, i)] true)) _
          with h | ⟨a, ha, h⟩
        · rw [h]; exact ih _ _
        · rw [h]; exact Shrinks_trans (ih _ _) (ih _ _)

/-- The state of a sequence whose continuation is a pure `okv` is the state
of its first component. -/
theorem Res.seq_okv_st {α β : Type} (x : Res α) (b : β) :
    (Res.seq x fun _ st2 => Res.okv st2 b).st = x.st := by
  rcases Res.seq_st_cases x (fun _ st2 => Res.okv st2 b) with h | ⟨a, _, h⟩ <;> rw [h] <;> rfl

/-- A successful `__remove_clients__` call leaves none of the removed entries
in `r`'s client list. -/
theorem pruneFam_rmc_removes (env : Env) (fuel : Nat) (st : FGState) (r : Nat)
    (es : List Site) (pr : Bool) (b : Bool)
    (hok : (pruneFam env fuel st (.rmc r es pr)).val = .ok b) :
    ∀ e ∈ es, e ∉ (pruneFam env fuel st (.rmc r es pr)).st.clients r := by
  cases fuel with
  | zero => cases hok
  | succ fuel =>
    intro e he
    have hseq : pruneFam env (fuel + 1) st (.rmc r es pr)
        = Res.seq (removeEntries st r es) fun _ st1 =>
            if st1.clients r = [] then
              if pr then
                Res.seq (pruneFam env fuel st1 (.prr [r])) (fun _ st2 => Res.okv st2 false)
              else Res.okv st1 true
            else Res.okv st1 false := rfl
    rw [hseq] at hok ⊢
    rcases Res.seq_inv hok with ⟨a, ha, hfok, hst⟩
    rw [hst]
    have ha0 : (removeEntries st r es).val = .ok () := by cases a; exact ha
    have hout : e ∉ (removeEntries st r es).st.clients r :=
      removeEntries_removes es st r ha0 e he
    by_cases hcl : (removeEntries st r es).st.clients r = []
    · rw [if_pos hcl]
      cases pr with
      | false =>
        simp only [Bool.false_eq_true, if_false]
        exact hout
      | true =>
        simp only [if_true]
        rw [Res.seq_okv_st]
        intro hcon
        exact hout ((pruneFam_shrinks env fuel _ _).1 r e hcon)
    · rw [if_neg hcl]
      exact hout

/-- After processing `__prune__`'s input loop, the pruned node's client
entries are gone from each input's client list. -/
theorem pruneFam_prIns_removes (env : Env) (n : Nat) :
    ∀ (vs : List Nat) (fuel : Nat) (st : FGState) (i : Nat) (b : Bool),
      (pruneFam env fuel st (.prIns n vs i)).val = .ok b →
      ∀ j v, vs[j]? = some v →
        (Cons.node n, i + j) ∉ (pruneFam env fuel st (.prIns n vs i)).st.clients v := by
  intro vs
  induction vs with
  | nil => intro fuel st i b hok j v hj; cases hj
  | cons v0 rest ih =>
    intro fuel st i b hok j v hj
    cases fuel with
    | zero => cases hok
    | succ fuel =>
      have hseq : pruneFam env (fuel + 1) st (.prIns n (v0 :: rest) i)
          = Res.seq (pruneFam env fuel st (.rmc v0 [(Cons.node n, i)] true)) fun _ st1 =>
              pruneFam env fuel st1 (.prIns n rest (i + 1)) := rfl
      rw [hseq] at hok ⊢
      rcases Res.seq_inv hok with ⟨a, ha, hfok, hst⟩
      rw [hst]
      cases j with
      | zero =>
        have hv : v = v0 := by
          simp at hj
          exact hj.symm
        subst hv
        have h1 : (Cons.node n, i) ∉
            (pruneFam env fuel st (.rmc v [(Cons.node n, i)] true)).st.clients v :=
          pruneFam_rmc_removes env fuel st v [(Cons.node n, i)] true a ha
            (Cons.node n, i) (List.mem_singleton.mpr rfl)
        rw [Nat.add_zero]
        intro hcon
        exact h1 ((pruneFam_shrinks env fuel _ _).1 v (Cons.node n, i) hcon)
      | succ j' =>
        have hj' : rest[j']? = some v := by simpa using hj
        have := ih fuel _ (i + 1) b hfok j' v hj'
        rwa [show i + 1 + j' = i + (j' + 1) by omega] at this

/-- Calls of the prune family in which every `__remove_clients__` call uses
`prune = True` (as inside `__prune__`). -/
def rmcTrue : PCall → Prop
  | .rmc _ _ pr => pr = true
  | _ => True

/-- Establishment: a successful `__remove_clients__(r, ·, prune=True)` leaves
a state in which `r` is out of the variable set whenever its client list is
empty. -/
theorem pruneFam_rmc_tidy (env : Env) (fuel : Nat) (st : FGState) (r : Nat)
    (es : List Site) (b : Bool)
    (hok : (pruneFam env fuel st (.rmc r es true)).val = .ok b) :
    (pruneFam env fuel st (.rmc r es true)).st.clients r = [] →
    r ∉ (pruneFam env fuel st (.rmc r es true)).st.vars := by
  cases fuel with
  | zero => cases hok
  | succ fuel =>
    have hseq : pruneFam env (fuel + 1) st (.rmc r es true)
        = Res.seq (removeEntries st r es) fun _ st1 =>
            if st1.clients r = [] then
              Res.seq (pruneFam env fuel st1 (.prr [r])) (fun _ st2 => Res.okv st2 false)
            else Res.okv st1 false := by
      show Res.seq _ _ = Res.seq _ _
      simp only [if_true]
    rw [hseq] at hok ⊢
    rcases Res.seq_inv hok with ⟨a, ha, hfok, hst⟩
    rw [hst] at *
    by_cases hcl : (removeEntries st r es).st.clients r = []
    · rw [if_pos hcl] at hfok ⊢
      rw [Res.seq_okv_st] at *
      intro _
      cases fuel with
      | zero =>
        rcases Res.seq_inv hfok with ⟨c, hc, _, _⟩
        cases hc
      | succ fuel' =>
        rcases Res.seq_inv hfok with ⟨c, hc, _, _⟩
        have hseq2 : pruneFam env (fuel' + 1) (removeEntries st r es).st (.prr [r])
            = Res.seq (pruneFam env fuel' (removeEntries st r es).st
                (.prOwn (ownersOf env [r]))) fun _ s1 =>
                Res.okv (pruneRVars s1 [r]) false := rfl
        rw [hseq2]
        rcases Res.seq_inv (by rw [← hseq2]; exact hc) with ⟨d, hd, _, hstp⟩
        rw [hstp]
        have hcl2 : (pruneFam env fuel' (removeEntries st r es).st
            (.prOwn (ownersOf env [r]))).st.clients r = [] :=
          List.eq_nil_iff_forall_not_mem.mpr fun e he =>
            List.eq_nil_iff_forall_not_mem.mp hcl e
              ((pruneFam_shrinks env fuel' _ _).1 r e he)
        show r ∉ (pruneRVars _ [r]).vars
        unfold pruneRVars
        split_ifs with hc2
        · show r ∉ (pruneRVars _ []).vars
          unfold pruneRVars
          exact not_mem_setRemove_self _ r
        · show r ∉ (pruneRVars _ []).vars
          unfold pruneRVars
          intro hcon
          exact hc2 ⟨hcl2, hcon⟩
    · rw [if_neg hcl] at hfok ⊢
      intro hcon
      exact absurd hcon hcl

/-- Preservation: a successful prune-family call whose
`__remove_clients__` sub-calls all prune (as inside `__prune__`) preserves
the property that a clientless variable is out of the variable set. -/
theorem pruneFam_tidy_pres (env : Env) :
    ∀ fuel st pc v b, rmcTrue pc → (pruneFam env fuel st pc).val = .ok b →
      (st.clients v = [] → v ∉ st.vars) →
      ((pruneFam env fuel st pc).st.clients v = [] →
        v ∉ (pruneFam env fuel st pc).st.vars) := by
  intro fuel
  induction fuel with
  | zero => intro st pc v b _ hok; cases hok
  | succ fuel ih =>
    intro st pc v b hrt hok htidy
    cases pc with
    | rmc r entries pr =>
      have hpr : pr = true := hrt
      subst hpr
      by_cases hv : v = r
      · subst hv
        exact pruneFam_rmc_tidy env (fuel + 1) st v entries b hok
      · have hseq : pruneFam env (fuel + 1) st (.rmc r entries true)
            = Res.seq (removeEntries st r entries) fun _ st1 =>
                if st1.clients r = [] then
                  Res.seq (pruneFam env fuel st1 (.prr [r])) (fun _ st2 => Res.okv st2 false)
                else Res.okv st1 false := by
          show Res.seq _ _ = Res.seq _ _
          simp only [if_true]
        rw [hseq] at hok ⊢
        rcases Res.seq_inv hok with ⟨a, ha, hfok, hst⟩
        rw [hst] at *
        have htidy1 : (removeEntries st r entries).st.clients v = [] →
            v ∉ (removeEntries st r entries).st.vars := by
          rw [removeEntries_clients_other entries st r v hv, removeEntries_vars]
          exact htidy
        by_cases hcl : (removeEntries st r entries).st.clients r = []
        · rw [if_pos hcl] at hfok ⊢
          rw [Res.seq_okv_st] at *
          rcases Res.seq_inv hfok with ⟨c, hc, _, _⟩
          exact ih _ (.prr [r]) v c trivial hc htidy1
        · rw [if_neg hcl] at hfok ⊢
          exact htidy1
    | prr vs =>
      have hseq : pruneFam env (fuel + 1) st (.prr vs)
          = Res.seq (pruneFam env fuel st (.prOwn (ownersOf env vs))) fun _ s1 =>
              Res.okv (pruneRVars s1 vs) false := rfl
      rw [hseq] at hok ⊢
      rcases Res.seq_inv hok with ⟨a, ha, hfok, hst⟩
      rw [hst]
      have h1 := ih st (.prOwn (ownersOf env vs)) v a trivial ha htidy
      show (pruneRVars _ vs).clients v = [] → v ∉ (pruneRVars _ vs).vars
      rw [pruneRVars_clients]
      intro hcl hcon
      exact h1 hcl (pruneRVars_vars_shrink vs _ v hcon)
    | prOwn ms =>
      cases ms with
      | nil => exact htidy
      | cons m rest =>
        have hseq : pruneFam env (fuel + 1) st (.prOwn (m :: rest))
            = Res.seq (pruneFam env fuel st (.prNode m)) fun _ st1 =>
                pruneFam env fuel st1 (.prOwn rest) := rfl
        rw [hseq] at hok ⊢
        rcases Res.seq_inv hok with ⟨a, ha, hfok, hst⟩
        rw [hst]
        exact ih _ (.prOwn rest) v b trivial hfok (ih st (.prNode m) v a trivial ha htidy)
    | prNode n =>
      have hun : pruneFam env (fuel + 1) st (.prNode n)
          = if n ∉ st.nodes then Res.err st .ownErr
            else if st.nFg n ≠ .mine then Res.err st .assertFail
            else if (env.nOutputs n).any fun w =>
                !(st.clients w).isEmpty || st.outputs.contains w then
              Res.okv st false
            else
              Res.seq
                (Res.emit
                  { st with nodes := setRemove st.nodes n,
                            vars := st.vars.filter fun v => !(env.nOutputs n).contains v }
                  (.onPrune n))
                fun _ st2 => pruneFam env fuel st2 (.prIns n (st2.nInputs n) 0) := rfl
      rw [hun] at hok ⊢
      by_cases h1 : n ∉ st.nodes
      · rw [if_pos h1] at hok; cases hok
      · rw [if_neg h1] at hok ⊢
        by_cases h2 : st.nFg n ≠ .mine
        · rw [if_pos h2] at hok; cases hok
        · rw [if_neg h2] at hok ⊢
          by_cases h3 : ((env.nOutputs n).any fun w =>
              !(st.clients w).isEmpty || st.outputs.contains w) = true
          · rw [if_pos h3]; exact htidy
          · rw [if_neg h3] at hok ⊢
            rcases Res.seq_inv hok with ⟨a, ha, hfok, hst⟩
            rw [hst]
            refine ih _ (.prIns n _ 0) v b trivial hfok ?_
            intro hcl hcon
            exact htidy hcl (List.mem_filter.mp hcon).1
    | prIns n vs i =>
      cases vs with
      | nil => exact htidy
      | cons v0 rest =>
        have hseq : pruneFam env (fuel + 1) st (.prIns n (v0 :: rest) i)
            = Res.seq (pruneFam env fuel st (.rmc v0 [(Cons.node n, i)] true)) fun _ st1 =>
                pruneFam env fuel st1 (.prIns n rest (i + 1)) := rfl
        rw [hseq] at hok ⊢
        rcases Res.seq_inv hok with ⟨a, ha, hfok, hst⟩
        rw [hst]
        exact ih _ (.prIns n rest (i + 1)) v b trivial hfok
          (ih st (.rmc v0 [(Cons.node n, i)] true) v a rfl ha htidy)

/-- After `__prune__`'s input loop, any processed input left clientless is
out of the variable set. -/
theorem pruneFam_prIns_tidy (env : Env) (n : Nat) :
    ∀ (vs : List Nat) (fuel : Nat) (st : FGState) (i : Nat) (b : Bool),
      (pruneFam env fuel st (.prIns n vs i)).val = .ok b →
      ∀ v ∈ vs,
        ((pruneFam env fuel st (.prIns n vs i)).st.clients v = [] →
          v ∉ (pruneFam env fuel st (.prIns n vs i)).st.vars) := by
  intro vs
  induction vs with
  | nil => intro fuel st i b hok v hv; cases hv
  | cons v0 rest ih =>
    intro fuel st i b hok v hv
    cases fuel with
    | zero => cases hok
    | succ fuel =>
      have hseq : pruneFam env (fuel + 1) st (.prIns n (v0 :: rest) i)
          = Res.seq (pruneFam env fuel st (.rmc v0 [(Cons.node n, i)] true)) fun _ st1 =>
              pruneFam env fuel st1 (.prIns n rest (i + 1)) := rfl
      rw [hseq] at hok ⊢
      rcases Res.seq_inv hok with ⟨a, ha, hfok, hst⟩
      rw [hst]
      rcases List.mem_cons.mp hv with rfl | hmem
      · exact pruneFam_tidy_pres env fuel _ (.prIns n rest (i + 1)) v b trivial hfok
          (pruneFam_rmc_tidy env fuel st v [(Cons.node n, i)] a ha)
      · exact ih fuel _ (i + 1) b hfok v hmem

theorem Res.toUnit_ok (x : Res Bool) : (Res.toUnit x).val = .ok () ↔ ∃ b, x.val = .ok b := by
  cases hx : x.val <;> simp [Res.toUnit, hx, Except.map]

theorem Res.toUnit_st (x : Res Bool) : (Res.toUnit x).st = x.st := rfl

theorem Res.toUnit_tr (x : Res Bool) : (Res.toUnit x).tr = x.tr := rfl

/-- Bridge between `__prune__`'s liveness test (as a boolean `any`) and its
propositional reading. -/
theorem prune_guard_iff (env : Env) (st : FGState) (n : Nat) :
    ((env.nOutputs n).any fun w => !(st.clients w).isEmpty || st.outputs.contains w) = true ↔
    ∃ w ∈ env.nOutputs n, st.clients w ≠ [] ∨ w ∈ st.outputs := by
  simp [List.any_eq_true, List.isEmpty_iff]

/-- C4: pruning a node of the graph is a strict no-op (same state, no
events) when one of its outputs is a graph output or has a client; otherwise
a successful prune removes the node from the node set, removes its outputs
from the variable set, dispatches `on_prune(node)` first (any further events
are the recursive prunes' `on_prune`s), removes each input site `(node, i)`
from the corresponding input variable's client list, and leaves no input
clientless yet still in the variable set (the recursive prune path removed
it). -/
theorem prune_semantics (env : Env) (st : FGState) (n : Nat) (fuel : Nat)
    (hn : n ∈ st.nodes) (hfg : st.nFg n = .mine) :
    ((∃ w ∈ env.nOutputs n, st.clients w ≠ [] ∨ w ∈ st.outputs) →
      pruneNode env (fuel + 1) st n = Res.ok0 st) ∧
    ((¬ ∃ w ∈ env.nOutputs n, st.clients w ≠ [] ∨ w ∈ st.outputs) →
      (pruneNode env (fuel + 1) st n).val = .ok () →
      n ∉ (pruneNode env (fuel + 1) st n).st.nodes ∧
      (∀ w ∈ env.nOutputs n, w ∉ (pruneNode env (fuel + 1) st n).st.vars) ∧
      (∃ tl, (pruneNode env (fuel + 1) st n).tr = Event.onPrune n :: tl ∧
        ∀ e ∈ tl, ∃ m, e = .onPrune m) ∧
      (∀ i v, (st.nInputs n)[i]? = some v →
        (Cons.node n, i) ∉ (pruneNode env (fuel + 1) st n).st.clients v) ∧
      (∀ v ∈ st.nInputs n, (pruneNode env (fuel + 1) st n).st.clients v = [] →
        v ∉ (pruneNode env (fuel + 1) st n).st.vars)) := by
  have hne1 : ¬(n ∉ st.nodes) := fun h => h hn
  have hne2 : ¬(st.nFg n ≠ .mine) := fun h => h hfg
  have hun : pruneFam env (fuel + 1) st (.prNode n)
      = if n ∉ st.nodes then Res.err st .ownErr
        else if st.nFg n ≠ .mine then Res.err st .assertFail
        else if (env.nOutputs n).any fun w =>
            !(st.clients w).isEmpty || st.outputs.contains w then
          Res.okv st false
        else
          Res.seq
            (Res.emit
              { st with nodes := setRemove st.nodes n,
                        vars := st.vars.filter fun v => !(env.nOutputs n).contains v }
              (.onPrune n))
            fun _ st2 => pruneFam env fuel st2 (.prIns n (st2.nInputs n) 0) := rfl
  constructor
  · intro hex
    unfold pruneNode
    rw [hun, if_neg hne1, if_neg hne2, if_pos ((prune_guard_iff env st n).mpr hex)]
    rfl
  · intro hnex hok
    have hb : ¬(((env.nOutputs n).any fun w =>
        !(st.clients w).isEmpty || st.outputs.contains w) = true) :=
      fun h => hnex ((prune_guard_iff env st n).mp h)
    unfold pruneNode at hok ⊢
    rw [hun, if_neg hne1, if_neg hne2, if_neg hb] at hok ⊢
    rw [Res.toUnit_ok] at hok
    obtain ⟨b, hokb⟩ := hok
    rcases Res.seq_inv hokb with ⟨a, _, hfok, hst⟩
    have hsh := pruneFam_shrinks env fuel
      { st with nodes := setRemove st.nodes n,
                vars := st.vars.filter fun v => !(env.nOutputs n).contains v }
      (.prIns n (st.nInputs n) 0)
    refine ⟨?_, ?_, ?_, ?_, ?_⟩
    · rw [Res.toUnit_st, hst]
      intro hcon
      exact not_mem_setRemove_self st.nodes n (hsh.2.1 n hcon)
    · intro w hw
      rw [Res.toUnit_st, hst]
      intro hcon
      have h2 := hsh.2.2.1 w hcon
      rcases List.mem_filter.mp h2 with ⟨_, h3⟩
      simp at h3
      exact h3 hw
    · rw [Res.toUnit_tr]
      refine ⟨(pruneFam env fuel _ (.prIns n (st.nInputs n) 0)).tr, rfl, ?_⟩
      intro e he
      exact pruneFam_tr_prunes env fuel _ _ e he
    · intro i v hiv
      rw [Res.toUnit_st, hst]
      have := pruneFam_prIns_removes env n (st.nInputs n) fuel
        { st with nodes := setRemove st.nodes n,
                  vars := st.vars.filter fun v => !(env.nOutputs n).contains v }
        0 b hfok i v hiv
      rwa [Nat.zero_add] at this
    · intro v hv
      rw [Res.toUnit_st, hst]
      exact pruneFam_prIns_tidy env n (st.nInputs n) fuel
        { st with nodes := setRemove st.nodes n,
                  vars := st.vars.filter fun v => !(env.nOutputs n).contains v }
        0 b hfok v hv

/-- Witness for C4 on the dead node `10` of `exStB`. -/
theorem prune_semantics_witness :
    10 ∈ exStB.nodes ∧ exStB.nFg 10 = .mine ∧
    (¬ ∃ w ∈ exEnv1.nOutputs 10, exStB.clients w ≠ [] ∨ w ∈ exStB.outputs) ∧
    (pruneNode exEnv1 10 exStB 10).val = .ok () ∧
    (10 ∉ (pruneNode exEnv1 10 exStB 10).st.nodes ∧
      (∀ w ∈ exEnv1.nOutputs 10, w ∉ (pruneNode exEnv1 10 exStB 10).st.vars) ∧
      (∃ tl, (pruneNode exEnv1 10 exStB 10).tr = Event.onPrune 10 :: tl ∧
        ∀ e ∈ tl, ∃ m, e = .onPrune m) ∧
      (∀ i v, (exStB.nInputs 10)[i]? = some v →
        (Cons.node 10, i) ∉ (pruneNode exEnv1 10 exStB 10).st.clients v) ∧
      (∀ v ∈ exStB.nInputs 10, (pruneNode exEnv1 10 exStB 10).st.clients v = [] →
        v ∉ (pruneNode exEnv1 10 exStB 10).st.vars)) :=
  ⟨by decide, by decide, by decide, by decide,
    (prune_semantics exEnv1 exStB 10 9 (by decide) (by decide)).2 (by decide) (by decide)⟩

/-! ## Preservation lemmas for the import family (C1, C2) -/

/-- What every import-family operation preserves: the slot structure
(`node.inputs`), the `outputs` and `inputs` lists, and the feature list are
untouched; the node set, variable set, and `fgraph`-ownership marks only
grow. -/
def ImpPres (st st' : FGState) : Prop :=
  st'.nInputs = st.nInputs ∧ st'.outputs = st.outputs ∧ st'.inputs = st.inputs ∧
  st'.feats = st.feats ∧
  (∀ m, m ∈ st.nodes → m ∈ st'.nodes) ∧ (∀ v, v ∈ st.vars → v ∈ st'.vars) ∧
  (∀ v, st.vFg v = .mine → st'.vFg v = .mine) ∧
  (∀ n, st.nFg n = .mine → st'.nFg n = .mine)

theorem ImpPres_refl (st : FGState) : ImpPres st st :=
  ⟨rfl, rfl, rfl, rfl, fun _ h => h, fun _ h => h, fun _ h => h, fun _ h => h⟩

theorem ImpPres_trans {s1 s2 s3 : FGState} (h12 : ImpPres s1 s2) (h23 : ImpPres s2 s3) :
    ImpPres s1 s3 := by
  obtain ⟨a1, b1, c1, d1, e1, f1, g1, i1⟩ := h12
  obtain ⟨a2, b2, c2, d2, e2, f2, g2, i2⟩ := h23
  exact ⟨a2.trans a1, b2.trans b1, c2.trans c1, d2.trans d1,
    fun m h => e2 m (e1 m h), fun v h => f2 v (f1 v h),
    fun v h => g2 v (g1 v h), fun n h => i2 n (i1 n h)⟩

theorem Res.seq_impPres {α β : Type} (x : Res α) (f : α → FGState → Res β) (base : FGState)
    (hx : ImpPres base x.st) (hf : ∀ a st, ImpPres st (f a st).st) :
    ImpPres base (Res.seq x f).st := by
  rcases Res.seq_st_cases x f with h | ⟨a, _, h⟩
  · rw [h]; exact hx
  · rw [h]; exact ImpPres_trans hx (hf a x.st)

theorem mem_addUniq (l : List Nat) (a x : Nat) (h : x ∈ l) : x ∈ addUniq l a := by
  unfold addUniq
  split_ifs
  · exact h
  · exact List.mem_append_left _ h

theorem mem_addUniq_self (l : List Nat) (a : Nat) : a ∈ addUniq l a := by
  unfold addUniq
  split_ifs with h
  · exact h
  · exact List.mem_append_right _ (List.mem_singleton.mpr rfl)

theorem setupR_impPres (st : FGState) (w : Nat) : ImpPres st (setupR st w).st := by
  unfold setupR
  split_ifs
  · exact ImpPres_refl st
  · refine ⟨rfl, rfl, rfl, rfl, fun m h => h, fun v h => h, ?_, fun n h => h⟩
    intro v h
    by_cases hv : v = w
    · subst hv; simp [Res.ok0, upd]
    · simpa [Res.ok0, upd, hv] using h

theorem setupNode_impPres (env : Env) (st : FGState) (nd : Nat) :
    ImpPres st (setupNode env st nd).st := by
  unfold setupNode
  split_ifs
  · exact ImpPres_refl st
  · exact ImpPres_refl st
  · exact ImpPres_refl st
  · refine ⟨rfl, rfl, rfl, rfl, fun m h => h, fun v h => h, fun v h => h, ?_⟩
    intro n h
    by_cases hn : n = nd
    · subst hn; simp [Res.ok0, upd]
    · simpa [Res.ok0, upd, hn] using h

theorem addClients_impPres (st : FGState) (w : Nat) (cs : List Site) :
    ImpPres st (addClients st w cs).st := by
  unfold addClients
  split_ifs
  · exact ImpPres_refl st
  · exact ⟨rfl, rfl, rfl, rfl, fun m h => h, fun v h => h, fun v h => h, fun n h => h⟩

theorem installOutputs_impPres (ws : List Nat) (st : FGState) :
    ImpPres st (installOutputs st ws).st := by
  induction ws generalizing st with
  | nil => exact ImpPres_refl st
  | cons w rest ih =>
    unfold installOutputs
    refine Res.seq_impPres _ _ st (setupR_impPres st w) ?_
    intro a s
    refine ImpPres_trans ?_ (ih _)
    exact ⟨rfl, rfl, rfl, rfl, fun m h => h, fun v h => mem_addUniq _ _ _ h,
      fun v h => h, fun n h => h⟩

theorem installInput1_impPres (st : FGState) (w : Nat) :
    ImpPres st (installInput1 st w).st := by
  unfold installInput1
  split_ifs
  · exact ImpPres_refl st
  · refine Res.seq_impPres _ _ st (setupR_impPres st w) ?_
    intro a s
    exact ⟨rfl, rfl, rfl, rfl, fun m h => h, fun v h => mem_addUniq _ _ _ h,
      fun v h => h, fun n h => h⟩

theorem installInputs_impPres (vs : List Nat) (st : FGState) (nd i : Nat) :
    ImpPres st (installInputs st nd vs i).st := by
  induction vs generalizing st i with
  | nil => exact ImpPres_refl st
  | cons w rest ih =>
    unfold installInputs
    refine Res.seq_impPres _ _ st (installInput1_impPres st w) ?_
    intro a s
    refine Res.seq_impPres _ _ s (addClients_impPres s w _) ?_
    intro b s2
    exact ih s2 _

theorem installNode_impPres (env : Env) (st : FGState) (nd : Nat) :
    ImpPres st (installNode env st nd).st := by
  unfold installNode
  split_ifs
  · exact ImpPres_refl st
  · refine Res.seq_impPres _ _ st (setupNode_impPres env st nd) ?_
    intro a s
    have hstep : ImpPres s ({ s with nodes := addUniq s.nodes nd } : FGState) :=
      ⟨rfl, rfl, rfl, rfl, fun m h => mem_addUniq _ _ _ h, fun v h => h,
        fun v h => h, fun n h => h⟩
    refine Res.seq_impPres _ _ s (ImpPres_trans hstep (installOutputs_impPres _ _)) ?_
    intro b s2
    refine Res.seq_impPres _ _ s2 (installInputs_impPres _ s2 nd 0) ?_
    intro c s3
    split_ifs
    · exact ImpPres_refl s3
    · exact ImpPres_refl s3

theorem installAll_impPres (env : Env) (nds : List Nat) (st : FGState) :
    ImpPres st (installAll env st nds).st := by
  induction nds generalizing st with
  | nil => exact ImpPres_refl st
  | cons nd rest ih =>
    exact Res.seq_impPres _ _ st (installNode_impPres env st nd) (fun a s => ih s)

theorem importApply_impPres (env : Env) (st : FGState) (nd : Nat) :
    ImpPres st (importApply env st nd).st := by
  unfold importApply
  cases hio : ioToposort env st (env.nOutputs nd) with
  | none => simp only [hio]; exact ImpPres_refl st
  | some newNodes =>
    simp only [hio]
    cases hchk : importCheckAll env st newNodes with
    | some er => simp only [hchk]; exact ImpPres_refl st
    | none => simp only [hchk]; exact installAll_impPres env newNodes st

theorem importOwners_impPres (env : Env) (vs : List Nat) (st : FGState) (done : List Nat) :
    ImpPres st (importOwners env st done vs).st := by
  induction vs generalizing st done with
  | nil => exact ImpPres_refl st
  | cons w rest ih =>
    unfold importOwners
    cases env.owner w with
    | none => exact ih st done
    | some nd =>
      dsimp only
      split_ifs
      · exact ih st done
      · exact Res.seq_impPres _ _ st (importApply_impPres env st nd) (fun a s => ih s _)

theorem importVarsFinish_impPres (env : Env) (vs : List Nat) (st : FGState) :
    ImpPres st (importVarsFinish env st vs).st := by
  induction vs generalizing st with
  | nil => exact ImpPres_refl st
  | cons w rest ih =>
    unfold importVarsFinish
    split_ifs
    · exact ImpPres_refl st
    · refine Res.seq_impPres _ _ st (ImpPres_refl st) ?_
      intro a s
      refine ImpPres_trans ?_ (ih _)
      exact ⟨rfl, rfl, rfl, rfl, fun m h => h, fun v h => mem_addUniq _ _ _ h,
        fun v h => h, fun n h => h⟩
    · refine Res.seq_impPres _ _ st (setupR_impPres st w) ?_
      intro a s
      refine ImpPres_trans ?_ (ih _)
      exact ⟨rfl, rfl, rfl, rfl, fun m h => h, fun v h => mem_addUniq _ _ _ h,
        fun v h => h, fun n h => h⟩

theorem importVars_impPres (env : Env) (st : FGState) (vs : List Nat) :
    ImpPres st (importVars env st vs).st := by
  unfold importVars
  exact Res.seq_impPres _ _ st (importOwners_impPres env vs st st.nodes)
    (fun a s => importVarsFinish_impPres env vs s)

/-- The facts about a variable `v` that protect its client list from the
`__setup_r__` reset during imports: `v` already carries this graph's
`fgraph` mark, is a member of the variable set, and its owner (if any) is
already in the node set. -/
def GuardP (env : Env) (st : FGState) (v : Nat) : Prop :=
  st.vFg v = .mine ∧ v ∈ st.vars ∧ (∀ m, env.owner v = some m → m ∈ st.nodes)

/-- Static owner coherence at `v`: `v` appears among a node's outputs only if
that node is `v`'s owner. -/
def EnvCoh (env : Env) (v : Nat) : Prop :=
  ∀ m, v ∈ env.nOutputs m → env.owner v = some m

theorem guard_transfer {env : Env} {st st' : FGState} {v : Nat}
    (hg : GuardP env st v) (hp : ImpPres st st') : GuardP env st' v :=
  ⟨hp.2.2.2.2.2.2.1 v hg.1, hp.2.2.2.2.2.1 v hg.2.1,
    fun m hm => hp.2.2.2.2.1 m (hg.2.2 m hm)⟩

theorem setupR_vkeep (st : FGState) (w v : Nat) (hw : w ≠ v) (e : Site)
    (he : e ∈ st.clients v) : e ∈ (setupR st w).st.clients v := by
  unfold setupR
  split_ifs
  · exact he
  · have hv : v ≠ w := fun h => hw h.symm
    simpa [Res.ok0, upd, hv] using he

theorem addClients_vkeep (st : FGState) (w v : Nat) (cs : List Site) (e : Site)
    (he : e ∈ st.clients v) : e ∈ (addClients st w cs).st.clients v := by
  unfold addClients
  split_ifs
  · exact he
  · by_cases hv : v = w
    · subst hv
      simp only [Res.ok0, upd_same]
      exact List.mem_append_left _ he
    · simpa [Res.ok0, upd, hv] using he

theorem installOutputs_vkeep (ws : List Nat) (st : FGState) (v : Nat) (hv : v ∉ ws)
    (e : Site) (he : e ∈ st.clients v) : e ∈ (installOutputs st ws).st.clients v := by
  induction ws generalizing st with
  | nil => exact he
  | cons w rest ih =>
    unfold installOutputs
    have hwv : w ≠ v := fun h => hv (h ▸ List.mem_cons_self w rest)
    have hvr : v ∉ rest := fun h => hv (List.mem_cons_of_mem w h)
    rcases Res.seq_st_cases (setupR st w) _ with h | ⟨a, _, h⟩
    · rw [h]; exact setupR_vkeep st w v hwv e he
    · rw [h]
      exact ih _ hvr (setupR_vkeep st w v hwv e he)

theorem installInput1_vkeep (st : FGState) (w v : Nat)
    (hguard : v ∈ st.vars ∨ w ≠ v) (e : Site) (he : e ∈ st.clients v) :
    e ∈ (installInput1 st w).st.clients v := by
  unfold installInput1
  split_ifs with hmem
  · exact he
  · have hwv : w ≠ v := by
      rcases hguard with hv | hwv
      · intro hh; subst hh; exact hmem hv
      · exact hwv
    rcases Res.seq_st_cases (setupR st w) _ with h | ⟨a, _, h⟩
    · rw [h]; exact setupR_vkeep st w v hwv e he
    · rw [h]; exact setupR_vkeep st w v hwv e he

theorem installInput1_vars (st : FGState) (w v : Nat) (hv : v ∈ st.vars) :
    v ∈ (installInput1 st w).st.vars :=
  (installInput1_impPres st w).2.2.2.2.2.1 v hv

theorem installInputs_vkeep (vs : List Nat) (st : FGState) (nd i v : Nat)
    (hv : v ∈ st.vars) (e : Site) (he : e ∈ st.clients v) :
    e ∈ (installInputs st nd vs i).st.clients v := by
  induction vs generalizing st i with
  | nil => exact he
  | cons w rest ih =>
    unfold installInputs
    have h1 : e ∈ (installInput1 st w).st.clients v :=
      installInput1_vkeep st w v (Or.inl hv) e he
    have hv1 : v ∈ (installInput1 st w).st.vars := installInput1_vars st w v hv
    rcases Res.seq_st_cases (installInput1 st w) _ with h | ⟨a, _, h⟩
    · rw [h]; exact h1
    · rw [h]
      have h2 : e ∈ (addClients (installInput1 st w).st w [(Cons.node nd, i)]).st.clients v :=
        addClients_vkeep _ w v _ e h1
      have hv2 : v ∈ (addClients (installInput1 st w).st w [(Cons.node nd, i)]).st.vars :=
        (addClients_impPres _ w _).2.2.2.2.2.1 v hv1
      rcases Res.seq_st_cases (addClients (installInput1 st w).st w [(Cons.node nd, i)]) _
        with h3 | ⟨b, _, h3⟩
      · rw [h3]; exact h2
      · rw [h3]
        exact ih _ (i + 1) hv2 h2

theorem setupNode_clients (env : Env) (st : FGState) (nd : Nat) :
    (setupNode env st nd).st.clients = st.clients := by
  unfold setupNode
  split_ifs <;> rfl

/-- Guarded client preservation bundled with the guard itself. -/
def VGuard (env : Env) (v : Nat) (e : Site) (st : FGState) : Prop :=
  GuardP env st v ∧ e ∈ st.clients v

theorem vg_installNode (env : Env) (nd v : Nat) (e : Site) (hc : EnvCoh env v)
    (st : FGState) (h : VGuard env v e st) : VGuard env v e (installNode env st nd).st := by
  obtain ⟨hg, he⟩ := h
  have himp := installNode_impPres env st nd
  refine ⟨guard_transfer hg himp, ?_⟩
  unfold installNode
  by_cases hmem : nd ∈ st.nodes
  · rw [if_pos hmem]; exact he
  · rw [if_neg hmem]
    have hout : v ∉ env.nOutputs nd := fun hvo => hmem (hg.2.2 nd (hc nd hvo))
    refine Res.seq_pres_prop (fun s => e ∈ s.clients v ∧ v ∈ s.vars) _ _
      ?_ ?_ |>.1
    · constructor
      · rw [setupNode_clients]; exact he
      · exact (setupNode_impPres env st nd).2.2.2.2.2.1 v hg.2.1
    · intro a s hs
      obtain ⟨hes, hvs⟩ := hs
      refine Res.seq_pres_prop (fun s2 => e ∈ s2.clients v ∧ v ∈ s2.vars) _ _ ?_ ?_
      · constructor
        · exact installOutputs_vkeep (env.nOutputs nd) _ v hout e hes
        · exact (installOutputs_impPres (env.nOutputs nd) _).2.2.2.2.2.1 v hvs
      · intro b s2 hs2
        obtain ⟨hes2, hvs2⟩ := hs2
        refine Res.seq_pres_prop (fun s3 => e ∈ s3.clients v ∧ v ∈ s3.vars) _ _ ?_ ?_
        · constructor
          · exact installInputs_vkeep _ s2 nd 0 v hvs2 e hes2
          · exact (installInputs_impPres _ s2 nd 0).2.2.2.2.2.1 v hvs2
        · intro c s3 hs3
          obtain ⟨hes3, hvs3⟩ := hs3
          split_ifs
          · exact ⟨hes3, hvs3⟩
          · exact ⟨hes3, hvs3⟩

theorem vg_installAll (env : Env) (nds : List Nat) (v : Nat) (e : Site) (hc : EnvCoh env v) :
    ∀ st : FGState, VGuard env v e st → VGuard env v e (installAll env st nds).st := by
  induction nds with
  | nil => intro st h; exact h
  | cons nd rest ih =>
    intro st h
    exact Res.seq_pres_prop (VGuard env v e) _ _ (vg_installNode env nd v e hc st h)
      (fun a s hs => ih s hs)

theorem vg_importApply (env : Env) (nd v : Nat) (e : Site) (hc : EnvCoh env v)
    (st : FGState) (h : VGuard env v e st) : VGuard env v e (importApply env st nd).st := by
  unfold importApply
  cases hio : ioToposort env st (env.nOutputs nd) with
  | none => simp only [hio]; exact h
  | some newNodes =>
    simp only [hio]
    cases hchk : importCheckAll env st newNodes with
    | some er => simp only [hchk]; exact h
    | none => simp only [hchk]; exact vg_installAll env newNodes v e hc st h

theorem vg_importOwners (env : Env) (vs : List Nat) (v : Nat) (e : Site) (hc : EnvCoh env v) :
    ∀ (st : FGState) (done : List Nat),
      VGuard env v e st → VGuard env v e (importOwners env st done vs).st := by
  induction vs with
  | nil => intro st done h; exact h
  | cons w rest ih =>
    intro st done h
    unfold importOwners
    cases env.owner w with
    | none => exact ih st done h
    | some nd =>
      dsimp only
      split_ifs
      · exact ih st done h
      · exact Res.seq_pres_prop (VGuard env v e) _ _ (vg_importApply env nd v e hc st h)
          (fun a s hs => ih s _ hs)

theorem vg_importVarsFinish (env : Env) (vs : List Nat) (v : Nat) (e : Site) :
    ∀ st : FGState, VGuard env v e st → VGuard env v e (importVarsFinish env st vs).st := by
  induction vs with
  | nil => intro st h; exact h
  | cons w rest ih =>
    intro st h
    unfold importVarsFinish
    split_ifs with h1 h2
    · exact h
    · refine Res.seq_pres_prop (VGuard env v e) _ _ h ?_
      intro a s hs
      refine ih _ ⟨guard_transfer hs.1 ?_, hs.2⟩
      exact ⟨rfl, rfl, rfl, rfl, fun m hm => hm, fun x hx => mem_addUniq _ _ _ hx,
        fun x hx => hx, fun n hn => hn⟩
    · have hwv : w ≠ v := fun hh => h2 (hh ▸ h.1.1)
      refine Res.seq_pres_prop (VGuard env v e) _ _
        ⟨guard_transfer h.1 (setupR_impPres st w), setupR_vkeep st w v hwv e h.2⟩ ?_
      intro a s hs
      refine ih _ ⟨guard_transfer hs.1 ?_, hs.2⟩
      exact ⟨rfl, rfl, rfl, rfl, fun m hm => hm, fun x hx => mem_addUniq _ _ _ hx,
        fun x hx => hx, fun n hn => hn⟩

/-- `__import_r__` preserves the client list of a guarded variable (it only
appends new entries). -/
theorem vg_importVars (env : Env) (vs : List Nat) (v : Nat) (e : Site) (hc : EnvCoh env v)
    (st : FGState) (h : VGuard env v e st) : VGuard env v e (importVars env st vs).st := by
  unfold importVars
  exact Res.seq_pres_prop (VGuard env v e) _ _ (vg_importOwners env vs v e hc st st.nodes h)
    (fun a s hs => vg_importVarsFinish env vs v e s hs)

/-- Inversion for a successful `change_input`: the occupant existed, the
types matched, and the call reduces to `changeInputCore` on the state with
the slot written. -/
theorem change_input_inv (env : Env) (st : FGState) (c : Cons) (i : Nat) (y : Nat)
    (hok : (change_input env st c i y).val = .ok ()) :
    ∃ r stW, slotGet st c i = some r ∧ env.vtype r = env.vtype y ∧
      change_input env st c i y = changeInputCore env stW c i r y ∧
      stW.clients = st.clients ∧ stW.vars = st.vars ∧ stW.vFg = st.vFg ∧
      stW.nFg = st.nFg ∧ stW.nodes = st.nodes ∧ stW.inputs = st.inputs ∧
      stW.feats = st.feats ∧
      (c = Cons.out → stW.outputs = st.outputs.set i y ∧ stW.nInputs = st.nInputs) ∧
      (∀ n, c = Cons.node n → stW.outputs = st.outputs ∧
        stW.nInputs = upd st.nInputs n ((st.nInputs n).set i y)) := by
  cases c with
  | out =>
    unfold change_input at hok ⊢
    dsimp only at hok ⊢
    revert hok
    cases hocc : st.outputs[i]? with
    | none => intro hok; dsimp only [Res.err] at hok; cases hok
    | some r =>
      intro hok
      dsimp only at hok ⊢
      split_ifs at hok ⊢ with hty
      · cases hok
      · push_neg at hty
        exact ⟨r, _, by simp [slotGet, hocc], hty, rfl, rfl, rfl, rfl, rfl, rfl, rfl, rfl,
          fun _ => ⟨rfl, rfl⟩, fun n hn => by cases hn⟩
  | node n =>
    unfold change_input at hok ⊢
    dsimp only at hok ⊢
    split_ifs at hok ⊢ with hfg
    · cases hok
    · revert hok
      cases hocc : (st.nInputs n)[i]? with
      | none => intro hok; dsimp only [Res.err] at hok; cases hok
      | some r =>
        intro hok
        dsimp only at hok ⊢
        split_ifs at hok ⊢ with hty
        · cases hok
        · push_neg at hty
          refine ⟨r, _, by simp [slotGet, hocc], hty, rfl, ?_⟩
          refine ⟨rfl, rfl, rfl, rfl, rfl, rfl, rfl, ?_, ?_⟩
          · intro hc; cases hc
          · intro n2 hn2; cases hn2; exact ⟨rfl, rfl⟩

theorem addClients_clients_other (st : FGState) (w v : Nat) (cs : List Site) (hv : v ≠ w) :
    (addClients st w cs).st.clients v = st.clients v := by
  unfold addClients
  split_ifs
  · rfl
  · simp [Res.ok0, upd, hv]

/-- Behaviour of `__remove_clients__` with a single entry and `prune=False`,
under success: the entry was present, the state is the erase, and the
returned flag says whether the list emptied. -/
theorem removeClients_false_single (env : Env) (fuel : Nat) (st : FGState) (r : Nat)
    (s : Site) (b : Bool)
    (hok : (removeClients env (fuel + 1) st r [s] false).val = .ok b) :
    s ∈ st.clients r ∧
    (removeClients env (fuel + 1) st r [s] false).st
      = { st with clients := upd st.clients r ((st.clients r).erase s) } ∧
    (b = true ↔ (st.clients r).erase s = []) := by
  have hseq : removeClients env (fuel + 1) st r [s] false
      = Res.seq (removeEntries st r [s]) fun _ st1 =>
          if st1.clients r = [] then
            if false then
              Res.seq (pruneFam env fuel st1 (.prr [r])) (fun _ st2 => Res.okv st2 false)
            else Res.okv st1 true
          else Res.okv st1 false := rfl
  rw [hseq] at hok ⊢
  by_cases h1 : s ∈ st.clients r
  · by_cases h2 : s ∈ (st.clients r).erase s
    · exfalso
      have hval : (removeEntries st r [s]).val = .error .assertFail := by
        unfold removeEntries
        rw [if_pos h1, if_pos h2]
        rfl
      rw [Res.seq_val_err _ hval] at hok
      cases hok
    · have hre2 : removeEntries st r [s]
          = Res.ok0 { st with clients := upd st.clients r ((st.clients r).erase s) } := by
        unfold removeEntries
        rw [if_pos h1, if_neg h2]
        rfl
      rw [hre2, Res.seq_ok0] at hok ⊢
      dsimp only at hok ⊢
      refine ⟨h1, ?_, ?_⟩
      · by_cases h3 : (st.clients r).erase s = []
        · rw [if_pos (by simpa [upd] using h3), if_neg Bool.false_ne_true]
          rfl
        · rw [if_neg (by simpa [upd] using h3)]
          rfl
      · by_cases h3 : (st.clients r).erase s = []
        · rw [if_pos (by simpa [upd] using h3), if_neg Bool.false_ne_true] at hok
          dsimp only [Res.okv] at hok
          cases hok
          simp [h3]
        · rw [if_neg (by simpa [upd] using h3)] at hok
          dsimp only [Res.okv] at hok
          cases hok
          simp [h3]
  · exfalso
    have hval : (removeEntries st r [s]).val = .error .valueErr := by
      unfold removeEntries
      rw [if_neg h1]
      rfl
    rw [Res.seq_val_err _ hval] at hok
    cases hok

/-- `pruneFuel` is always at least one. -/
theorem pruneFuel_succ1 (st : FGState) : ∃ k, pruneFuel st = k + 1 :=
  ⟨999 + 1000 * st.nodes.length, by unfold pruneFuel; omega⟩

/-- `pruneFuel` is always at least two. -/
theorem pruneFuel_succ2 (st : FGState) : ∃ k, pruneFuel st = k + 2 :=
  ⟨998 + 1000 * st.nodes.length, by unfold pruneFuel; omega⟩

/-- `__prune_r__` on a single variable is its second loop on that variable. -/
theorem pruneRVars_single (st : FGState) (x : Nat) :
    pruneRVars st [x]
      = if st.clients x = [] ∧ x ∈ st.vars then { st with vars := setRemove st.vars x }
        else st := rfl

/-- `__prune_r__([x])` for an ownerless `x` skips the owner loop entirely and
just drops `x` from the variable set when its client list is empty. -/
theorem pruneR_ownerless (env : Env) (k : Nat) (st : FGState) (x : Nat)
    (hown : env.owner x = none) :
    pruneR env (k + 2) st [x] = Res.ok0 (pruneRVars st [x]) := by
  have h0 : ownersOf env [x] = [] := by
    simp [ownersOf, List.filterMap, hown]
  unfold pruneR
  have h1 : pruneFam env (k + 2) st (.prr [x])
      = Res.seq (pruneFam env (k + 1) st (.prOwn (ownersOf env [x]))) fun _ st1 =>
          Res.okv (pruneRVars st1 [x]) false := rfl
  rw [h1, h0]
  have h2 : pruneFam env (k + 1) st (.prOwn []) = Res.okv st false := rfl
  rw [h2, Res.seq_okv]
  rfl

/-- `change_input` writing back the variable already in the slot returns the
state unchanged (the source's fast path after an identical slot write). -/
theorem change_input_self_eq (env : Env) (st : FGState) (c : Cons) (i : Nat) (x : Nat)
    (hs : slotGet st c i = some x)
    (hok : (change_input env st c i x).val = .ok ()) :
    change_input env st c i x = Res.ok0 st := by
  obtain ⟨r, stW, hsw, hty, hEq, hclW, hvarsW, hvFgW, hnFgW, hnodesW, hinpW, hfeatsW,
    houtW, hnodeW⟩ := change_input_inv env st c i x hok
  have hrx : x = r := (Option.some.inj (hsw.symm.trans hs)).symm
  subst hrx
  cases c with
  | out =>
    obtain ⟨ho, hni⟩ := houtW rfl
    obtain ⟨i1, o1, n1, v1, c1, ni1, vf1, nf1, f1⟩ := stW
    dsimp only at hclW hvarsW hvFgW hnFgW hnodesW hinpW hfeatsW ho hni
    subst hclW; subst hvarsW; subst hvFgW; subst hnFgW; subst hnodesW; subst hinpW
    subst hfeatsW; subst ho; subst hni
    rw [hEq]
    unfold changeInputCore
    rw [if_pos rfl]
    have hs' : st.outputs[i]? = some x := hs
    rw [list_set_same st.outputs i x hs']
  | node n =>
    obtain ⟨ho, hni⟩ := hnodeW n rfl
    obtain ⟨i1, o1, n1, v1, c1, ni1, vf1, nf1, f1⟩ := stW
    dsimp only at hclW hvarsW hvFgW hnFgW hnodesW hinpW hfeatsW ho hni
    subst hclW; subst hvarsW; subst hvFgW; subst hnFgW; subst hnodesW; subst hinpW
    subst hfeatsW; subst ho; subst hni
    rw [hEq]
    unfold changeInputCore
    rw [if_pos rfl]
    have hs' : (st.nInputs n)[i]? = some x := hs
    rw [list_set_same (st.nInputs n) i x hs', upd_self]

/-- A successful `replace(x, x)` run of the client loop leaves the state
untouched: every `change_input` takes the fast path. -/
theorem replaceLoop_self_st (env : Env) (x : Nat) (S : List Site) :
    ∀ st : FGState, (replaceLoop env st x x S).val = .ok () →
      (replaceLoop env st x x S).st = st := by
  induction S with
  | nil => intro st _; rfl
  | cons e S' ih =>
    obtain ⟨c, i⟩ := e
    intro st hok
    unfold replaceLoop at hok ⊢
    by_cases hs : slotGet st c i = some x
    · rw [if_pos hs] at hok ⊢
      obtain ⟨a1, hCI, hLoop, hstL⟩ := Res.seq_inv hok
      rw [hstL]
      have hci := change_input_self_eq env st c i x hs hCI
      rw [hci] at hLoop ⊢
      dsimp only [Res.ok0] at hLoop ⊢
      exact ih st hLoop
    · rw [if_neg hs] at hok
      dsimp only [Res.err] at hok
      cases hok

/-- Effect of `change_input`'s tail on a guarded variable `x` being replaced
by `y`: surviving client entries of `x` are exactly tracked, and either `x`'s
client list stays nonempty (with the guard intact) or it emptied and the
deferred `__prune_r__` removed `x` from the variable set. -/
theorem changeInputTail_guard (env : Env) (st1 : FGState) (c : Cons) (i : Nat) (x y : Nat)
    (hxy : x ≠ y) (hown : env.owner x = none) (hg1 : GuardP env st1 x)
    (hok : (changeInputTail env st1 c i x y).val = .ok ()) :
    (∀ e, e ∈ st1.clients x → e ≠ (c, i) →
      e ∈ (changeInputTail env st1 c i x y).st.clients x) ∧
    (((changeInputTail env st1 c i x y).st.clients x ≠ [] ∧
        GuardP env (changeInputTail env st1 c i x y).st x) ∨
      ((changeInputTail env st1 c i x y).st.clients x = [] ∧
        x ∉ (changeInputTail env st1 c i x y).st.vars)) := by
  unfold changeInputTail at hok ⊢
  obtain ⟨a1, hAdd, hok2, hst2⟩ := Res.seq_inv hok
  rw [hst2]
  try dsimp only at hok2
  try dsimp only
  obtain ⟨k, hk⟩ := pruneFuel_succ1 (addClients st1 y [(c, i)]).st
  rw [hk] at hok2 ⊢
  obtain ⟨pr, hRmc, hok3, hst3⟩ := Res.seq_inv hok2
  rw [hst3]
  try dsimp only at hok3
  try dsimp only
  rw [Res.seq_emit] at hok3 ⊢
  try dsimp only at hok3
  try dsimp only
  have hgA : GuardP env (addClients st1 y [(c, i)]).st x :=
    guard_transfer hg1 (addClients_impPres st1 y [(c, i)])
  have hclA : (addClients st1 y [(c, i)]).st.clients x = st1.clients x :=
    addClients_clients_other st1 y x [(c, i)] hxy
  obtain ⟨hmemA, hR3eq, hprIff⟩ :=
    removeClients_false_single env k (addClients st1 y [(c, i)]).st x (c, i) pr hRmc
  have hclR3 :
      (removeClients env (k + 1) (addClients st1 y [(c, i)]).st x [(c, i)] false).st.clients x
        = (st1.clients x).erase (c, i) := by
    rw [hR3eq]
    dsimp only
    rw [upd_same, hclA]
  have hgR3 :
      GuardP env
        (removeClients env (k + 1) (addClients st1 y [(c, i)]).st x [(c, i)] false).st x := by
    rw [hR3eq]; exact hgA
  cases pr with
  | false =>
    rw [if_neg Bool.false_ne_true]
    have hne : (st1.clients x).erase (c, i) ≠ [] := by
      intro hh
      have h0 : ((addClients st1 y [(c, i)]).st.clients x).erase (c, i) = [] := by
        rw [hclA]; exact hh
      exact Bool.false_ne_true (hprIff.mpr h0)
    have hne3 :
        (removeClients env (k + 1) (addClients st1 y [(c, i)]).st x [(c, i)] false).st.clients x
          ≠ [] := by
      rw [hclR3]; exact hne
    refine ⟨?_, Or.inl ⟨hne3, hgR3⟩⟩
    intro e he hne'
    have hmem2 :
        e ∈ (removeClients env (k + 1) (addClients st1 y [(c, i)]).st x
          [(c, i)] false).st.clients x := by
      rw [hclR3]; exact (List.mem_erase_of_ne hne').mpr he
    exact hmem2
  | true =>
    rw [if_pos rfl]
    have hclR3' :
        (removeClients env (k + 1) (addClients st1 y [(c, i)]).st x
          [(c, i)] false).st.clients x = [] := by
      have h0 : ((addClients st1 y [(c, i)]).st.clients x).erase (c, i) = [] := hprIff.mp rfl
      rw [hclA] at h0
      rw [hclR3]; exact h0
    have hAvac : ∀ e, e ∈ st1.clients x → e ≠ (c, i) → False := by
      intro e he hne'
      have h1 : e ∈ (st1.clients x).erase (c, i) := (List.mem_erase_of_ne hne').mpr he
      have h0 : (st1.clients x).erase (c, i) = [] := by rw [← hclR3]; exact hclR3'
      rw [h0] at h1
      exact List.not_mem_nil e h1
    obtain ⟨k2, hk2⟩ :=
      pruneFuel_succ2
        (removeClients env (k + 1) (addClients st1 y [(c, i)]).st x [(c, i)] false).st
    rw [hk2]
    rw [pruneR_ownerless env k2 _ x hown]
    rw [pruneRVars_single]
    by_cases hxv :
        x ∈ (removeClients env (k + 1) (addClients st1 y [(c, i)]).st x [(c, i)] false).st.vars
    · rw [if_pos ⟨hclR3', hxv⟩]
      refine ⟨fun e he hne' => (hAvac e he hne').elim, Or.inr ⟨?_, ?_⟩⟩
      · exact hclR3'
      · exact not_mem_setRemove_self _ x
    · rw [if_neg fun hh => hxv hh.2]
      exact ⟨fun e he hne' => (hAvac e he hne').elim, Or.inr ⟨hclR3', hxv⟩⟩

/-- One successful `change_input` step of `replace`'s client loop, seen from
the replaced variable `x`: entries other than the edited site survive, and
either the client list of `x` stays nonempty with the guard intact, or it
emptied and `x` left the variable set. -/
theorem change_input_guard_step (env : Env) (st : FGState) (c : Cons) (i : Nat) (x y : Nat)
    (hxy : x ≠ y) (hco : EnvCoh env x) (hown : env.owner x = none)
    (hslot : slotGet st c i = some x) (hg : GuardP env st x)
    (hok : (change_input env st c i y).val = .ok ()) :
    (∀ e, e ∈ st.clients x → e ≠ (c, i) → e ∈ (change_input env st c i y).st.clients x) ∧
    (((change_input env st c i y).st.clients x ≠ [] ∧
        GuardP env (change_input env st c i y).st x) ∨
      ((change_input env st c i y).st.clients x = [] ∧
        x ∉ (change_input env st c i y).st.vars)) := by
  obtain ⟨r, stW, hsw, hty, hEq, hclW, hvarsW, hvFgW, hnFgW, hnodesW, hinpW, hfeatsW,
    houtW, hnodeW⟩ := change_input_inv env st c i y hok
  have hrx : x = r := (Option.some.inj (hsw.symm.trans hslot)).symm
  subst hrx
  rw [hEq] at hok ⊢
  unfold changeInputCore at hok ⊢
  rw [if_neg hxy] at hok ⊢
  obtain ⟨a1, hImp, hTail, hstT⟩ := Res.seq_inv hok
  rw [hstT]
  try dsimp only at hTail
  try dsimp only
  have hgW : GuardP env stW x := by
    refine ⟨?_, ?_, ?_⟩
    · rw [hvFgW]; exact hg.1
    · rw [hvarsW]; exact hg.2.1
    · intro m hm; rw [hown] at hm; cases hm
  have hg1 : GuardP env (importVars env stW [y]).st x :=
    guard_transfer hgW (importVars_impPres env stW [y])
  have hkeep : ∀ e, e ∈ st.clients x → e ∈ (importVars env stW [y]).st.clients x := by
    intro e he
    exact (vg_importVars env [y] x e hco stW ⟨hgW, by rw [hclW]; exact he⟩).2
  obtain ⟨hA, hB⟩ :=
    changeInputTail_guard env (importVars env stW [y]).st c i x y hxy hown hg1 hTail
  exact ⟨fun e he hne => hA e (hkeep e he) hne, hB⟩

/-- The client loop of a successful `replace(x, y)` over a duplicate-free
snapshot of `x`'s guarded client entries either lands in a state where `x` is
in the variable set exactly when its client list is nonempty, or leaves the
state untouched. -/
theorem replaceLoop_guard (env : Env) (x y : Nat) (hxy : x ≠ y) (hco : EnvCoh env x)
    (hown : env.owner x = none) (S : List Site) :
    ∀ st : FGState, S.Nodup → GuardP env st x → (∀ e ∈ S, e ∈ st.clients x) →
      (replaceLoop env st x y S).val = .ok () →
      ((x ∈ (replaceLoop env st x y S).st.vars ↔ (replaceLoop env st x y S).st.clients x ≠ [])
        ∨ (replaceLoop env st x y S).st = st) := by
  induction S with
  | nil => intro st _ _ _ _; exact Or.inr rfl
  | cons e S' ih =>
    obtain ⟨c, i⟩ := e
    intro st hnd hg hmem hok
    unfold replaceLoop at hok ⊢
    by_cases hs : slotGet st c i = some x
    · rw [if_pos hs] at hok ⊢
      obtain ⟨a1, hCI, hLoop, hstL⟩ := Res.seq_inv hok
      rw [hstL]
      try dsimp only at hLoop
      try dsimp only
      obtain ⟨hA, hB⟩ := change_input_guard_step env st c i x y hxy hco hown hs hg hCI
      rcases hB with ⟨hne1, hg1⟩ | ⟨hcl1, hnv1⟩
      · have hmem1 : ∀ e2 ∈ S', e2 ∈ (change_input env st c i y).st.clients x := by
          intro e2 he2
          have hne2 : e2 ≠ (c, i) := by
            intro hh
            exact (List.nodup_cons.mp hnd).1 (hh ▸ he2)
          exact hA e2 (hmem e2 (List.mem_cons_of_mem _ he2)) hne2
        rcases ih (change_input env st c i y).st (List.nodup_cons.mp hnd).2 hg1 hmem1 hLoop
          with h | h
        · exact Or.inl h
        · left
          rw [h]
          exact ⟨fun _ => hne1, fun _ => hg1.2.1⟩
      · cases S' with
        | nil =>
          exact Or.inl ⟨fun hxv => absurd hxv hnv1, fun hcc => absurd hcl1 hcc⟩
        | cons e2 S'' =>
          exfalso
          have hne2 : e2 ≠ (c, i) := by
            intro hh
            exact (List.nodup_cons.mp hnd).1 (hh ▸ List.mem_cons_self e2 S'')
          have he2q : e2 ∈ (change_input env st c i y).st.clients x :=
            hA e2 (hmem e2 (List.mem_cons_of_mem _ (List.mem_cons_self e2 S''))) hne2
          rw [hcl1] at he2q
          exact List.not_mem_nil e2 he2q
    · rw [if_neg hs] at hok
      dsimp only [Res.err] at hok
      cases hok

/-- Variable `0` of the example environment is produced by no node. -/
theorem exEnvCoh0 : EnvCoh exEnv1 0 := by
  intro m hm
  exfalso
  revert hm
  show 0 ∈ (if m = 10 then [2] else if m = 11 then [3] else if m = 12 then [4]
    else ([] : List Nat)) → False
  split_ifs <;> decide

/-- C2, amended: for a graph whose invariants hold, a declared (ownerless)
input `x` with a duplicate-free client list that is consumed at some site is,
after a successful `replace(x, y)`, in the variable set exactly when its
client list is still nonempty — declared-input status does not keep it in the
variable set once its client list empties. -/
theorem input_vars_iff_clients (env : Env) (st : FGState) (x y : Nat)
    (hinp : x ∈ st.inputs) (hown : env.owner x = none) (hco : EnvCoh env x)
    (hx : x ∈ st.vars) (hcons : st.clients x ≠ []) (hnd : (st.clients x).Nodup)
    (hok : (replace env st x y).val = .ok ()) :
    x ∈ (replace env st x y).st.vars ↔ (replace env st x y).st.clients x ≠ [] := by
  unfold replace at hok ⊢
  by_cases h1 : st.vFg x ≠ .mine
  · rw [if_pos h1] at hok
    dsimp only [Res.err] at hok
    cases hok
  · rw [if_neg h1] at hok ⊢
    by_cases h2 : env.vtype x ≠ env.vtype y
    · rw [if_pos h2] at hok
      dsimp only [Res.err] at hok
      cases hok
    · rw [if_neg h2] at hok ⊢
      rw [if_neg (not_not_intro hx)] at hok ⊢
      push_neg at h1
      by_cases hxy : x = y
      · subst hxy
        rw [replaceLoop_self_st env x (st.clients x) st hok]
        exact ⟨fun _ => hcons, fun _ => hx⟩
      · rcases replaceLoop_guard env x y hxy hco hown (st.clients x) st hnd
          ⟨h1, hx, fun m hm => by rw [hown] at hm; cases hm⟩ (fun e he => he) hok with h | h
        · exact h
        · rw [h]
          exact ⟨fun _ => hcons, fun _ => hx⟩

theorem input_vars_iff_clients_witness :
    ((0 : Nat) ∈ exSt1.inputs ∧ exEnv1.owner 0 = none ∧ 0 ∈ exSt1.vars ∧
      exSt1.clients 0 ≠ [] ∧ (exSt1.clients 0).Nodup ∧
      (replace exEnv1 exSt1 0 5).val = .ok ()) ∧
    (0 ∈ (replace exEnv1 exSt1 0 5).st.vars ↔ (replace exEnv1 exSt1 0 5).st.clients 0 ≠ []) :=
  ⟨by decide,
   input_vars_iff_clients exEnv1 exSt1 0 5 (by decide) (by decide) exEnvCoh0 (by decide)
     (by decide) (by decide) (by decide)⟩

/-- A successful `extend(feature)` updates exactly the feature list, by one
`featAcc` step. -/
theorem extendFeat_ok_st (st : FGState) (f : Feat)
    (hok : (extendFeat st f).val = .ok ()) :
    (extendFeat st f).st = { st with feats := featAcc st.feats f } := by
  unfold extendFeat at hok ⊢
  unfold featAcc
  by_cases h1 : f ∈ st.feats
  · simp only [if_pos h1]
    rfl
  · simp only [if_neg h1] at hok ⊢
    by_cases h2 : (!f.hasAttach) = true
    · simp only [if_pos h2]
      rfl
    · simp only [if_neg h2] at hok ⊢
      revert hok
      cases hab : f.attachB with
      | attachOk => intro _; rfl
      | already => intro _; rfl
      | raises =>
        intro hok
        dsimp only [Res.err] at hok
        cases hok

/-- A successful run of the constructor's `extend` loop folds `featAcc` over
the supplied features and changes nothing else. -/
theorem extendAll_ok_st (fs : List Feat) :
    ∀ st : FGState, (extendAll st fs).val = .ok () →
      (extendAll st fs).st = { st with feats := List.foldl featAcc st.feats fs } := by
  induction fs with
  | nil => intro st _; rfl
  | cons f rest ih =>
    intro st hok
    unfold extendAll at hok ⊢
    obtain ⟨a, hf, hrest, hst⟩ := Res.seq_inv hok
    rw [hst]
    try dsimp only at hrest
    try dsimp only
    rw [extendFeat_ok_st st f hf] at hrest ⊢
    rw [ih _ hrest]
    rfl

/-- A fresh feature whose `on_attach` registers normally is appended. -/
theorem featAcc_fresh_ok (acc : List Feat) (f : Feat) (h1 : f ∉ acc)
    (h2 : f.attachB = .attachOk) : featAcc acc f = acc ++ [f] := by
  unfold featAcc
  rw [if_neg h1]
  by_cases hb : (!f.hasAttach) = true
  · rw [if_pos hb]
  · rw [if_neg hb, h2]

theorem setupR_feats (st : FGState) (r : Nat) : (setupR st r).st.feats = st.feats := by
  unfold setupR
  split_ifs <;> rfl

/-- The constructor's input loop does not touch the feature list. -/
theorem initInputs_feats (env : Env) (l : List Nat) (st : FGState) :
    (initInputs env st l).st.feats = st.feats := by
  induction l generalizing st with
  | nil => rfl
  | cons v rest ih =>
    unfold initInputs
    split_ifs
    · rfl
    · exact Res.seq_pres_prop (fun s => s.feats = st.feats) _ _ (setupR_feats st v)
        (fun a s hs => (ih _).trans hs)

/-- The constructor's output-client loop does not touch the feature list. -/
theorem appendOutputClients_feats (vs : List Nat) :
    ∀ (st : FGState) (i : Nat), (appendOutputClients st vs i).feats = st.feats := by
  induction vs with
  | nil => intro st i; rfl
  | cons v rest ih =>
    intro st i
    unfold appendOutputClients
    exact ih _ (i + 1)

/-- C9, amended: after a successful construction, the observer list is the
supplied features folded through `extend`'s skip rules — a feature already
registered (for example a duplicate) and a feature whose `on_attach` raises
`AlreadyThere` are dropped — followed by the automatically created
`ReplaceValidate` observer; with duplicate-free, fresh features this is the
supplied list in order plus the `ReplaceValidate` observer. -/
theorem feature_list_after_construction (env : Env) (inputs outputs : List Nat)
    (fs : List Feat) (rv : Feat)
    (hfresh : rv ∉ List.foldl featAcc [] fs) (hrv : rv.attachB = .attachOk)
    (hok : (mkFG env inputs outputs fs rv).val = .ok ()) :
    (mkFG env inputs outputs fs rv).st.feats = List.foldl featAcc [] fs ++ [rv] := by
  unfold mkFG at hok ⊢
  simp only at hok ⊢
  obtain ⟨a1, h1, hok2, hs1⟩ := Res.seq_inv hok
  rw [hs1]
  try dsimp only at hok2
  try dsimp only
  obtain ⟨a2, h2, hok3, hs2⟩ := Res.seq_inv hok2
  rw [hs2]
  try dsimp only at hok3
  try dsimp only
  obtain ⟨a3, h3, hok4, hs3⟩ := Res.seq_inv hok3
  rw [hs3]
  try dsimp only at hok4
  try dsimp only
  obtain ⟨a4, h4, hok5, hs4⟩ := Res.seq_inv hok4
  rw [hs4]
  try dsimp only at hok5
  try dsimp only
  dsimp only [Res.ok0]
  rw [appendOutputClients_feats outputs _ 0]
  rw [(importVars_impPres env _ outputs).2.2.2.1]
  rw [initInputs_feats env inputs _]
  cases a2
  rw [extendFeat_ok_st _ rv h2]
  cases a1
  rw [extendAll_ok_st fs _ h1]
  dsimp only
  exact featAcc_fresh_ok _ rv hfresh hrv

theorem feature_list_after_construction_witness :
    (replaceValidateFeat 90 ∉ List.foldl featAcc [] [exFeatA, exFeatA] ∧
      (replaceValidateFeat 90).attachB = .attachOk ∧
      (mkFG exEnv1 [0] [0] [exFeatA, exFeatA] (replaceValidateFeat 90)).val = .ok ()) ∧
    (mkFG exEnv1 [0] [0] [exFeatA, exFeatA] (replaceValidateFeat 90)).st.feats
      = List.foldl featAcc [] [exFeatA, exFeatA] ++ [replaceValidateFeat 90] :=
  ⟨by decide,
   feature_list_after_construction exEnv1 [0] [0] [exFeatA, exFeatA] (replaceValidateFeat 90)
     (by decide) (by decide) (by decide)⟩

/-- Rank coherence of the dynamic input wiring: along every consumer edge the
owner of an input variable ranks strictly below the consuming node.  This is
the shape of the acyclicity invariant the spec assumes of a well-formed
graph, phrased against the current `node.inputs` map. -/
def RankStrong (env : Env) (nrank : Nat → Nat) (ni : Nat → List Nat) : Prop :=
  ∀ n v m, v ∈ ni n → env.owner v = some m → nrank m < nrank n

/-- A client entry protected from a prune cascade bounded by `B`: output
entries always, node entries when the node ranks at least `B`. -/
def EntryHigh (nrank : Nat → Nat) (B : Nat) (e : Site) : Prop :=
  ∀ n j, e = (Cons.node n, j) → B ≤ nrank n

/-- The prune family call shapes reachable from a cascade whose every node
ranks below `B`. -/
def CallBelow (env : Env) (nrank : Nat → Nat) (B : Nat) : PCall → Prop
  | .rmc r es _ =>
    (∀ m, env.owner r = some m → nrank m < B) ∧
    ∀ e ∈ es, ∃ n j, e = (Cons.node n, j) ∧ nrank n < B
  | .prr vs => ∀ v ∈ vs, ∀ m, env.owner v = some m → nrank m < B
  | .prOwn ms => ∀ m ∈ ms, nrank m < B
  | .prNode n => nrank n < B
  | .prIns n vs _ =>
    nrank n < B ∧ ∀ v ∈ vs, ∀ m, env.owner v = some m → nrank m < B

/-- What a bounded cascade preserves: protected client entries, variables
holding a protected entry, and nodes with an output holding a protected
entry. -/
def Protect (nrank : Nat → Nat) (B : Nat) (env : Env) (st st' : FGState) : Prop :=
  (∀ w e, e ∈ st.clients w → EntryHigh nrank B e → e ∈ st'.clients w) ∧
  (∀ v, v ∈ st.vars → (∃ e, e ∈ st.clients v ∧ EntryHigh nrank B e) → v ∈ st'.vars) ∧
  (∀ m, m ∈ st.nodes →
    (∃ w, w ∈ env.nOutputs m ∧ ∃ e, e ∈ st.clients w ∧ EntryHigh nrank B e) → m ∈ st'.nodes)

theorem Protect_refl (nrank : Nat → Nat) (B : Nat) (env : Env) (st : FGState) :
    Protect nrank B env st st :=
  ⟨fun _ _ he _ => he, fun _ hv _ => hv, fun _ hm _ => hm⟩

theorem Protect_trans {nrank : Nat → Nat} {B : Nat} {env : Env} {s1 s2 s3 : FGState}
    (h12 : Protect nrank B env s1 s2) (h23 : Protect nrank B env s2 s3) :
    Protect nrank B env s1 s3 := by
  refine ⟨fun w e he hh => h23.1 w e (h12.1 w e he hh) hh, ?_, ?_⟩
  · intro v hv ⟨e, he, hh⟩
    exact h23.2.1 v (h12.2.1 v hv ⟨e, he, hh⟩) ⟨e, h12.1 v e he hh, hh⟩
  · intro m hm ⟨w, hw, e, he, hh⟩
    exact h23.2.2 m (h12.2.2 m hm ⟨w, hw, e, he, hh⟩) ⟨w, hw, e, h12.1 w e he hh, hh⟩

/-- `removeEntries` keeps any entry distinct from every removed one. -/
theorem removeEntries_keeps (es : List Site) :
    ∀ (st : FGState) (r w : Nat) (e0 : Site), (∀ f ∈ es, e0 ≠ f) →
      e0 ∈ st.clients w → e0 ∈ (removeEntries st r es).st.clients w := by
  induction es with
  | nil => intro st r w e0 _ he; exact he
  | cons f rest ih =>
    intro st r w e0 hne he
    have hne0 : e0 ≠ f := hne f (List.mem_cons_self f rest)
    have hkeep : e0 ∈ (upd st.clients r ((st.clients r).erase f)) w := by
      by_cases hw : w = r
      · subst hw
        rw [upd_same]
        exact (List.mem_erase_of_ne hne0).mpr he
      · rw [upd_other _ _ _ _ hw]
        exact he
    unfold removeEntries
    by_cases h1 : f ∈ st.clients r
    · rw [if_pos h1]
      by_cases h2 : f ∈ (st.clients r).erase f
      · rw [if_pos h2]
        exact hkeep
      · rw [if_neg h2]
        exact ih _ r w e0 (fun g hg => hne g (List.mem_cons_of_mem f hg)) hkeep
    · rw [if_neg h1]
      exact he

/-- `removeEntries` with low-ranked entries protects everything. -/
theorem removeEntries_protect (nrank : Nat → Nat) (B : Nat) (env : Env) (es : List Site)
    (st : FGState) (r : Nat)
    (hlow : ∀ f ∈ es, ∃ n j, f = (Cons.node n, j) ∧ nrank n < B) :
    Protect nrank B env st (removeEntries st r es).st := by
  refine ⟨?_, ?_, ?_⟩
  · intro w e0 he hh
    refine removeEntries_keeps es st r w e0 ?_ he
    intro f hf heq
    obtain ⟨n, j, rfl, hlt⟩ := hlow f hf
    exact absurd (hh n j heq) (Nat.not_le_of_lt hlt)
  · intro v hv _
    rw [removeEntries_vars]
    exact hv
  · intro m hm _
    rw [removeEntries_nodes]
    exact hm

/-- `pruneRVars` keeps a variable whose client list is nonempty. -/
theorem pruneRVars_vars_keep (vs : List Nat) :
    ∀ (st : FGState) (v : Nat), v ∈ st.vars → st.clients v ≠ [] →
      v ∈ (pruneRVars st vs).vars := by
  induction vs with
  | nil => intro st v hv _; exact hv
  | cons w rest ih =>
    intro st v hv hcv
    unfold pruneRVars
    by_cases hcond : st.clients w = [] ∧ w ∈ st.vars
    · rw [if_pos hcond]
      have hvw : v ≠ w := fun hh => hcv (hh ▸ hcond.1)
      exact ih _ v (mem_setRemove.mpr ⟨hv, hvw⟩) hcv
    · rw [if_neg hcond]
      exact ih _ v hv hcv

/-- `pruneRVars` protects everything. -/
theorem pruneRVars_protect (nrank : Nat → Nat) (B : Nat) (env : Env) (vs : List Nat)
    (st : FGState) : Protect nrank B env st (pruneRVars st vs) := by
  refine ⟨?_, ?_, ?_⟩
  · intro w e0 he _
    rw [pruneRVars_clients]
    exact he
  · intro v hv ⟨e, he, _⟩
    exact pruneRVars_vars_keep vs st v hv (List.ne_nil_of_mem he)
  · intro m hm _
    rw [pruneRVars_nodes]
    exact hm

/-- Membership in the owner set computed by `__prune_r__`'s first loop. -/
theorem mem_ownersOf {env : Env} {vs : List Nat} {m : Nat} (h : m ∈ ownersOf env vs) :
    ∃ v ∈ vs, env.owner v = some m := by
  unfold ownersOf at h
  rw [List.mem_dedup] at h
  obtain ⟨v, hv, hm⟩ := List.mem_filterMap.mp h
  exact ⟨v, hv, hm⟩

/-- Master protection lemma for the prune family: a cascade whose calls stay
below rank `B` (under rank coherence of the wiring) keeps every protected
client entry, every variable holding one, and every node one of whose
outputs holds one. -/
theorem pruneFam_protect (env : Env) (nrank : Nat → Nat) (B : Nat) :
    ∀ fuel st pc, RankStrong env nrank st.nInputs → CallBelow env nrank B pc →
      Protect nrank B env st (pruneFam env fuel st pc).st := by
  intro fuel
  induction fuel with
  | zero => intro st pc _ _; exact Protect_refl nrank B env st
  | succ fuel ih =>
    intro st pc hrk hcb
    cases pc with
    | rmc r entries pr =>
      obtain ⟨hr, hes⟩ := hcb
      have hre : Protect nrank B env st (removeEntries st r entries).st :=
        removeEntries_protect nrank B env entries st r hes
      have hrk1 : RankStrong env nrank (removeEntries st r entries).st.nInputs := by
        rw [removeEntries_nInputs]; exact hrk
      show Protect nrank B env st (Res.seq (removeEntries st r entries) _).st
      rcases Res.seq_st_cases (removeEntries st r entries) _ with h | ⟨a, ha, h⟩
      · rw [h]; exact hre
      · rw [h]
        refine Protect_trans hre ?_
        split_ifs
        · rw [Res.seq_okv_st]
          exact ih _ (.prr [r]) hrk1
            (fun v hv m hm => by rw [List.mem_singleton] at hv; exact hr m (hv ▸ hm))
        · exact Protect_refl nrank B env _
        · exact Protect_refl nrank B env _
    | prr vs =>
      have hcbo : CallBelow env nrank B (.prOwn (ownersOf env vs)) := by
        intro m hm
        obtain ⟨v, hv, ho⟩ := mem_ownersOf hm
        exact hcb v hv m ho
      show Protect nrank B env st
        (Res.seq (pruneFam env fuel st (.prOwn (ownersOf env vs))) _).st
      rcases Res.seq_st_cases (pruneFam env fuel st (.prOwn (ownersOf env vs))) _
        with h | ⟨a, ha, h⟩
      · rw [h]; exact ih _ _ hrk hcbo
      · rw [h]
        exact Protect_trans (ih _ _ hrk hcbo) (pruneRVars_protect nrank B env vs _)
    | prOwn ms =>
      cases ms with
      | nil => exact Protect_refl nrank B env st
      | cons m rest =>
        have hcb1 : CallBelow env nrank B (.prNode m) := hcb m (List.mem_cons_self m rest)
        have hcb2 : CallBelow env nrank B (.prOwn rest) :=
          fun m2 hm2 => hcb m2 (List.mem_cons_of_mem m hm2)
        have hrk1 : RankStrong env nrank (pruneFam env fuel st (.prNode m)).st.nInputs := by
          rw [(pruneFam_shrinks env fuel st (.prNode m)).2.2.2.1]; exact hrk
        show Protect nrank B env st (Res.seq (pruneFam env fuel st (.prNode m)) _).st
        rcases Res.seq_st_cases (pruneFam env fuel st (.prNode m)) _ with h | ⟨a, ha, h⟩
        · rw [h]; exact ih _ _ hrk hcb1
        · rw [h]; exact Protect_trans (ih _ _ hrk hcb1) (ih _ _ hrk1 hcb2)
    | prNode n =>
      show Protect nrank B env st (pruneFam env (fuel + 1) st (.prNode n)).st
      unfold pruneFam
      by_cases h1 : n ∉ st.nodes
      · rw [if_pos h1]; exact Protect_refl nrank B env st
      · rw [if_neg h1]
        by_cases h2 : st.nFg n ≠ .mine
        · rw [if_pos h2]; exact Protect_refl nrank B env st
        · rw [if_neg h2]
          by_cases h3 : ((env.nOutputs n).any fun w =>
              !(st.clients w).isEmpty || st.outputs.contains w) = true
          · rw [if_pos h3]; exact Protect_refl nrank B env st
          · rw [if_neg h3]
            have hdead : ∀ w ∈ env.nOutputs n, st.clients w = [] ∧ w ∉ st.outputs := by
              intro w hw
              by_contra hcon
              apply h3
              rw [prune_guard_iff]
              refine ⟨w, hw, ?_⟩
              by_cases hcw : st.clients w = []
              · right
                by_contra hout
                exact hcon ⟨hcw, hout⟩
              · exact Or.inl hcw
            have hstep : Protect nrank B env st
                { st with nodes := setRemove st.nodes n,
                          vars := st.vars.filter fun v => !(env.nOutputs n).contains v } := by
              refine ⟨fun w e he _ => he, ?_, ?_⟩
              · intro v hv ⟨e, he, _⟩
                have hvn : v ∉ env.nOutputs n :=
                  fun hIn => List.ne_nil_of_mem he (hdead v hIn).1
                exact List.mem_filter.mpr ⟨hv, by simpa using hvn⟩
              · intro m hm ⟨w, hw, e, he, _⟩
                have hmn : m ≠ n := by
                  intro hh
                  subst hh
                  exact List.ne_nil_of_mem he (hdead w hw).1
                exact mem_setRemove.mpr ⟨hm, hmn⟩
            rcases Res.seq_st_cases (Res.emit _ (Event.onPrune n)) _ with h | ⟨a, ha, h⟩
            · rw [h]; exact hstep
            · rw [h]
              refine Protect_trans hstep (ih _ _ hrk ?_)
              refine ⟨hcb, ?_⟩
              intro v hv m' hm'
              exact Nat.lt_trans (hrk n v m' hv hm') hcb
    | prIns n vs i =>
      cases vs with
      | nil => exact Protect_refl nrank B env st
      | cons v rest =>
        obtain ⟨hn, hvs⟩ := hcb
        have hcb1 : CallBelow env nrank B (.rmc v [(Cons.node n, i)] true) := by
          refine ⟨hvs v (List.mem_cons_self v rest), ?_⟩
          intro e he
          rw [List.mem_singleton] at he
          exact ⟨n, i, he, hn⟩
        have hcb2 : CallBelow env nrank B (.prIns n rest (i + 1)) :=
          ⟨hn, fun v2 hv2 => hvs v2 (List.mem_cons_of_mem v hv2)⟩
        have hrk1 : RankStrong env nrank
            (pruneFam env fuel st (.rmc v [(Cons.node n, i)] true)).st.nInputs := by
          rw [(pruneFam_shrinks env fuel st (.rmc v [(Cons.node n, i)] true)).2.2.2.1]
          exact hrk
        show Protect nrank B env st
          (Res.seq (pruneFam env fuel st (.rmc v [(Cons.node n, i)] true)) _).st
        rcases Res.seq_st_cases (pruneFam env fuel st (.rmc v [(Cons.node n, i)] true)) _
          with h | ⟨a, ha, h⟩
        · rw [h]; exact ih _ _ hrk hcb1
        · rw [h]; exact Protect_trans (ih _ _ hrk hcb1) (ih _ _ hrk1 hcb2)

/-- Monotonicity and emission of the traversal: the seen set and the
accumulator only grow, and every node seen at the end was already seen at
entry or was emitted. -/
theorem topoGo_mono_emit (env : Env) :
    ∀ (fuel : Nat) (st : FGState) (tc : TCall) (seen acc seen1 acc1 : List Nat),
      topoGo env fuel st tc seen acc = some (seen1, acc1) →
      (∀ m ∈ seen, m ∈ seen1) ∧ (∀ m ∈ acc, m ∈ acc1) ∧
      (∀ m ∈ seen1, m ∈ seen ∨ m ∈ acc1) := by
  intro fuel
  induction fuel with
  | zero => intro st tc seen acc s1 a1 h; cases h
  | succ fuel ih =>
    intro st tc seen acc s1 a1 h
    cases tc with
    | visit v =>
      unfold topoGo at h
      by_cases h1 : v ∈ st.vars
      · rw [if_pos h1] at h
        simp only [Option.some.injEq, Prod.mk.injEq] at h
        obtain ⟨rfl, rfl⟩ := h
        exact ⟨fun m hm => hm, fun m hm => hm, fun m hm => Or.inl hm⟩
      · rw [if_neg h1] at h
        revert h
        cases ho : env.owner v with
        | none =>
          intro h
          dsimp only at h
          simp only [Option.some.injEq, Prod.mk.injEq] at h
          obtain ⟨rfl, rfl⟩ := h
          exact ⟨fun m hm => hm, fun m hm => hm, fun m hm => Or.inl hm⟩
        | some m0 =>
          intro h
          dsimp only at h
          by_cases h2 : m0 ∈ seen
          · rw [if_pos h2] at h
            simp only [Option.some.injEq, Prod.mk.injEq] at h
            obtain ⟨rfl, rfl⟩ := h
            exact ⟨fun m hm => hm, fun m hm => hm, fun m hm => Or.inl hm⟩
          · rw [if_neg h2] at h
            revert h
            cases hin : topoGo env fuel st (.visitL (st.nInputs m0)) (m0 :: seen) acc with
            | none => intro h; cases h
            | some p =>
              obtain ⟨sIn, aIn⟩ := p
              intro h
              simp only [Option.some.injEq, Prod.mk.injEq] at h
              obtain ⟨rfl, rfl⟩ := h
              obtain ⟨hm1, hm2, hm3⟩ := ih st (.visitL (st.nInputs m0)) (m0 :: seen) acc sIn aIn hin
              refine ⟨?_, ?_, ?_⟩
              · intro m hm; exact hm1 m (List.mem_cons_of_mem _ hm)
              · intro m hm; exact List.mem_append_left _ (hm2 m hm)
              · intro m hm
                rcases hm3 m hm with hmm | hmm
                · rcases List.mem_cons.mp hmm with rfl | hmm2
                  · exact Or.inr (List.mem_append_right _ (List.mem_singleton.mpr rfl))
                  · exact Or.inl hmm2
                · exact Or.inr (List.mem_append_left _ hmm)
    | visitL vs =>
      cases vs with
      | nil =>
        unfold topoGo at h
        simp only [Option.some.injEq, Prod.mk.injEq] at h
        obtain ⟨rfl, rfl⟩ := h
        exact ⟨fun m hm => hm, fun m hm => hm, fun m hm => Or.inl hm⟩
      | cons v rest =>
        unfold topoGo at h
        revert h
        cases h1 : topoGo env fuel st (.visit v) seen acc with
        | none => intro h; cases h
        | some p =>
          obtain ⟨sMid, aMid⟩ := p
          intro h
          obtain ⟨hA1, hA2, hA3⟩ := ih st (.visit v) seen acc sMid aMid h1
          obtain ⟨hB1, hB2, hB3⟩ := ih st (.visitL rest) sMid aMid s1 a1 h
          refine ⟨fun m hm => hB1 m (hA1 m hm), fun m hm => hB2 m (hA2 m hm), ?_⟩
          intro m hm
          rcases hB3 m hm with hmm | hmm
          · rcases hA3 m hmm with h2 | h2
            · exact Or.inl h2
            · exact Or.inr (hB2 m h2)
          · exact Or.inr hmm

/-- Visiting a non-frontier variable with an owner forces that owner into the
seen set. -/
theorem topoGo_forces (env : Env) :
    ∀ (fuel : Nat) (st : FGState) (tc : TCall) (seen acc seen1 acc1 : List Nat),
      topoGo env fuel st tc seen acc = some (seen1, acc1) →
      ∀ v m, env.owner v = some m → v ∉ st.vars →
        (match tc with
         | .visit w => w = v
         | .visitL vs => v ∈ vs) →
        m ∈ seen1 := by
  intro fuel
  induction fuel with
  | zero => intro st tc seen acc s1 a1 h; cases h
  | succ fuel ih =>
    intro st tc seen acc s1 a1 h v m hom hnv hmatch
    cases tc with
    | visit w =>
      have hw : w = v := hmatch
      subst hw
      unfold topoGo at h
      rw [if_neg hnv, hom] at h
      dsimp only at h
      by_cases h2 : m ∈ seen
      · rw [if_pos h2] at h
        simp only [Option.some.injEq, Prod.mk.injEq] at h
        obtain ⟨rfl, rfl⟩ := h
        exact h2
      · rw [if_neg h2] at h
        revert h
        cases hin : topoGo env fuel st (.visitL (st.nInputs m)) (m :: seen) acc with
        | none => intro h; cases h
        | some p =>
          obtain ⟨sIn, aIn⟩ := p
          intro h
          simp only [Option.some.injEq, Prod.mk.injEq] at h
          obtain ⟨rfl, rfl⟩ := h
          exact (topoGo_mono_emit env fuel st (.visitL (st.nInputs m)) (m :: seen) acc
            sIn aIn hin).1 m (List.mem_cons_self m seen)
    | visitL vs =>
      cases vs with
      | nil => cases hmatch
      | cons w rest =>
        unfold topoGo at h
        revert h
        cases h1 : topoGo env fuel st (.visit w) seen acc with
        | none => intro h; cases h
        | some p =>
          obtain ⟨sMid, aMid⟩ := p
          intro h
          rcases List.mem_cons.mp hmatch with rfl | hrest
          · exact (topoGo_mono_emit env fuel st (.visitL rest) sMid aMid s1 a1 h).1 m
              (ih st (.visit v) seen acc sMid aMid h1 v m hom hnv rfl)
          · exact ih st (.visitL rest) sMid aMid s1 a1 h v m hom hnv hrest

/-- If the traversal succeeds from a frontier containing a non-known variable
with an owner, that owner is among the emitted new nodes. -/
theorem ioToposort_owner_mem (env : Env) (st : FGState) (outs : List Nat) (y m : Nat)
    (newNodes : List Nat) (h : ioToposort env st outs = some newNodes)
    (hy : y ∈ outs) (hynv : y ∉ st.vars) (hom : env.owner y = some m) :
    m ∈ newNodes := by
  unfold ioToposort at h
  revert h
  cases ht : topoGo env env.fuel st (.visitL outs) [] [] with
  | none => intro h; cases h
  | some p =>
    obtain ⟨s1, a1⟩ := p
    intro h
    simp only [Option.map, Option.some.injEq] at h
    have hm1 : m ∈ s1 :=
      topoGo_forces env env.fuel st (.visitL outs) [] [] s1 a1 ht y m hom hynv hy
    rcases (topoGo_mono_emit env env.fuel st (.visitL outs) [] [] s1 a1 ht).2.2 m hm1
      with h2 | h2
    · cases h2
    · rw [← h]
      exact h2

/-- A successfully installed node is in the node set afterwards. -/
theorem installNode_self_mem (env : Env) (st : FGState) (nd : Nat)
    (hok : (installNode env st nd).val = .ok ()) :
    nd ∈ (installNode env st nd).st.nodes := by
  unfold installNode at hok ⊢
  by_cases h1 : nd ∈ st.nodes
  · rw [if_pos h1] at hok
    dsimp only [Res.err] at hok
    cases hok
  · rw [if_neg h1] at hok ⊢
    obtain ⟨a1, hSN, hok2, hs1⟩ := Res.seq_inv hok
    rw [hs1]
    try dsimp only at hok2
    try dsimp only
    obtain ⟨a2, hIO, hok3, hs2⟩ := Res.seq_inv hok2
    rw [hs2]
    try dsimp only at hok3
    try dsimp only
    obtain ⟨a3, hII, hok4, hs3⟩ := Res.seq_inv hok3
    rw [hs3]
    try dsimp only at hok4
    try dsimp only
    have hfin : ∀ s : FGState,
        (if s.nFg nd ≠ FgRef.mine then Res.err s PyErr.assertFail
         else Res.emit s (Event.onImport nd)).st = s := by
      intro s
      split_ifs <;> rfl
    rw [hfin]
    exact (installInputs_impPres _ _ _ _).2.2.2.2.1 nd
      ((installOutputs_impPres _ _).2.2.2.2.1 nd (mem_addUniq_self _ nd))

/-- Every node of a successfully installed batch is in the node set
afterwards. -/
theorem installAll_mem (env : Env) (ns : List Nat) :
    ∀ st : FGState, (installAll env st ns).val = .ok () →
      ∀ m ∈ ns, m ∈ (installAll env st ns).st.nodes := by
  induction ns with
  | nil => intro st _ m hm; cases hm
  | cons nd rest ih =>
    intro st hok m hm
    unfold installAll at hok ⊢
    obtain ⟨a1, hIN, hrest, hst⟩ := Res.seq_inv hok
    rw [hst]
    try dsimp only at hrest
    try dsimp only
    cases a1
    rcases List.mem_cons.mp hm with rfl | hm2
    · exact (installAll_impPres env rest _).2.2.2.2.1 m (installNode_self_mem env st m hIN)
    · exact ih _ hrest m hm2

/-- `__import__(m)` lands `m` in the node set when one of `m`'s outputs is a
variable the graph does not yet know. -/
theorem importApply_owner_mem (env : Env) (st : FGState) (m y : Nat)
    (hy : y ∈ env.nOutputs m) (hynv : y ∉ st.vars) (hom : env.owner y = some m)
    (hok : (importApply env st m).val = .ok ()) :
    m ∈ (importApply env st m).st.nodes := by
  unfold importApply at hok ⊢
  revert hok
  cases ht : ioToposort env st (env.nOutputs m) with
  | none => intro hok; dsimp only [Res.err] at hok; cases hok
  | some ns =>
    intro hok
    dsimp only at hok ⊢
    revert hok
    cases hc : importCheckAll env st ns with
    | some e => intro hok; dsimp only [Res.err] at hok; cases hok
    | none =>
      intro hok
      dsimp only at hok ⊢
      exact installAll_mem env ns st hok m
        (ioToposort_owner_mem env st (env.nOutputs m) y m ns ht hy hynv hom)

/-- The owner loop of `__import_r__([y])` lands `y`'s owner in the node
set. -/
theorem importOwners_self_nodes (env : Env) (st : FGState) (y m : Nat)
    (hom : env.owner y = some m) (hy : y ∈ env.nOutputs m) (hynv : y ∉ st.vars)
    (hok : (importOwners env st st.nodes [y]).val = .ok ()) :
    m ∈ (importOwners env st st.nodes [y]).st.nodes := by
  unfold importOwners at hok ⊢
  rw [hom] at hok ⊢
  dsimp only at hok ⊢
  by_cases hdone : m ∈ st.nodes
  · rw [if_pos hdone] at hok ⊢
    exact hdone
  · rw [if_neg hdone] at hok ⊢
    obtain ⟨a1, hIA, hrest, hst⟩ := Res.seq_inv hok
    rw [hst]
    try dsimp only at hrest
    try dsimp only
    exact importApply_owner_mem env st m y hy hynv hom hIA

/-- The second loop of `__import_r__([y])` puts `y` in the variable set with
this graph's mark, and keeps every node. -/
theorem importVarsFinish_self (env : Env) (st : FGState) (y : Nat)
    (hok : (importVarsFinish env st [y]).val = .ok ()) :
    y ∈ (importVarsFinish env st [y]).st.vars ∧
    (importVarsFinish env st [y]).st.vFg y = .mine := by
  have hnil : ∀ s : FGState, (importVarsFinish env s []).st = s := fun s => rfl
  unfold importVarsFinish at hok ⊢
  by_cases hm : isMissing env st y = true
  · rw [if_pos hm] at hok
    dsimp only [Res.err] at hok
    cases hok
  · rw [if_neg hm] at hok ⊢
    by_cases hvm : st.vFg y = .mine
    · rw [if_pos hvm] at hok ⊢
      obtain ⟨a1, hsr, hrest, hst⟩ := Res.seq_inv hok
      rw [hst]
      try dsimp only at hrest
      try dsimp only
      dsimp only [Res.ok0]
      rw [hnil]
      exact ⟨mem_addUniq_self _ y, hvm⟩
    · rw [if_neg hvm] at hok ⊢
      obtain ⟨a1, hsr, hrest, hst⟩ := Res.seq_inv hok
      rw [hst]
      try dsimp only at hrest
      try dsimp only
      unfold setupR at hsr ⊢
      by_cases hfo : st.vFg y = .foreign
      · rw [if_pos hfo] at hsr
        dsimp only [Res.err] at hsr
        cases hsr
      · rw [if_neg hfo]
        dsimp only [Res.ok0]
        rw [hnil]
        exact ⟨mem_addUniq_self _ y, upd_same _ _ _⟩

/-- `__import_r__([y])` leaves `y` guarded when `y` was unknown: it marks `y`
as this graph's, adds it to the variable set, and (when `y` has an owner that
produces it) lands that owner in the node set. -/
theorem importVars_self_guard (env : Env) (st : FGState) (y : Nat)
    (hONy : ∀ m, env.owner y = some m → y ∈ env.nOutputs m)
    (hynv : y ∉ st.vars)
    (hok : (importVars env st [y]).val = .ok ()) :
    GuardP env (importVars env st [y]).st y := by
  unfold importVars at hok ⊢
  obtain ⟨a1, hIO, hFin, hst⟩ := Res.seq_inv hok
  rw [hst]
  try dsimp only at hFin
  try dsimp only
  obtain ⟨hv, hf⟩ := importVarsFinish_self env _ y hFin
  refine ⟨hf, hv, ?_⟩
  intro m hom
  exact (importVarsFinish_impPres env [y] _).2.2.2.2.1 m
    (importOwners_self_nodes env st y m hom (hONy m hom) hynv hIO)

theorem list_getq_set_ne {α : Type} (l : List α) :
    ∀ (i j : Nat), i ≠ j → ∀ a : α, (l.set i a)[j]? = l[j]? := by
  induction l with
  | nil => intro i j _ a; rfl
  | cons x xs ih =>
    intro i j hne a
    cases i with
    | zero =>
      cases j with
      | zero => exact absurd rfl hne
      | succ j2 => simp
    | succ i2 =>
      cases j with
      | zero => simp
      | succ j2 =>
        have h2 : (x :: xs).set (i2 + 1) a = x :: xs.set i2 a := rfl
        rw [h2, List.getElem?_cons_succ, List.getElem?_cons_succ]
        exact ih i2 j2 (fun hh => hne (by rw [hh])) a

theorem list_getq_set_self {α : Type} (l : List α) :
    ∀ (i : Nat) (a b : α), l[i]? = some b → (l.set i a)[i]? = some a := by
  induction l with
  | nil => intro i a b h; simp at h
  | cons x xs ih =>
    intro i a b h
    cases i with
    | zero => simp
    | succ i2 =>
      have h2 : (x :: xs).set (i2 + 1) a = x :: xs.set i2 a := rfl
      rw [h2, List.getElem?_cons_succ]
      exact ih i2 a b (by simpa using h)

/-- Reading a slot only depends on the output list and the input map. -/
theorem slotGet_congr (st st' : FGState) (ho : st'.outputs = st.outputs)
    (hni : st'.nInputs = st.nInputs) (c : Cons) (i : Nat) :
    slotGet st' c i = slotGet st c i := by
  cases c <;> simp [slotGet, ho, hni]

/-- A successfully added client entry is in the list afterwards. -/
theorem addClients_mem_self (st : FGState) (w : Nat) (cs : List Site) (e : Site)
    (he : e ∈ cs) (hok : (addClients st w cs).val = .ok ()) :
    e ∈ (addClients st w cs).st.clients w := by
  unfold addClients at hok ⊢
  split_ifs at hok ⊢ with h
  · dsimp only [Res.err] at hok
    cases hok
  · dsimp only [Res.ok0]
    rw [upd_same]
    exact List.mem_append_right _ he

/-- `change_input`'s tail, seen from the replacement variable `y`: the edited
site's entry lands in `y`'s client list, previously migrated protected
entries stay there, `y` stays guarded, and the slots are untouched — also
across the deferred bounded prune cascade. -/
theorem changeInputTail_migrate (env : Env) (st1 : FGState) (c : Cons) (i : Nat)
    (x y : Nat) (nrank : Nat → Nat) (B : Nat)
    (hxy : x ≠ y)
    (hONy : ∀ m, env.owner y = some m → y ∈ env.nOutputs m)
    (hgy1 : GuardP env st1 y)
    (M1 : List Site) (hM1 : ∀ e ∈ M1, e ∈ st1.clients y)
    (hM1h : ∀ e ∈ M1, EntryHigh nrank B e)
    (hch : EntryHigh nrank B (c, i))
    (hrk1 : RankStrong env nrank st1.nInputs)
    (hcasc : ∀ m, env.owner x = some m → nrank m < B)
    (hok : (changeInputTail env st1 c i x y).val = .ok ()) :
    (∀ e ∈ (c, i) :: M1, e ∈ (changeInputTail env st1 c i x y).st.clients y) ∧
    GuardP env (changeInputTail env st1 c i x y).st y ∧
    (changeInputTail env st1 c i x y).st.outputs = st1.outputs ∧
    (changeInputTail env st1 c i x y).st.nInputs = st1.nInputs := by
  have hyx : y ≠ x := fun hh => hxy hh.symm
  unfold changeInputTail at hok ⊢
  obtain ⟨a1, hAdd, hok2, hst2⟩ := Res.seq_inv hok
  rw [hst2]
  try dsimp only at hok2
  try dsimp only
  obtain ⟨k, hk⟩ := pruneFuel_succ1 (addClients st1 y [(c, i)]).st
  rw [hk] at hok2 ⊢
  obtain ⟨pr, hRmc, hok3, hst3⟩ := Res.seq_inv hok2
  rw [hst3]
  try dsimp only at hok3
  try dsimp only
  rw [Res.seq_emit] at hok3 ⊢
  try dsimp only at hok3
  try dsimp only
  cases a1
  have hgA2 : GuardP env (addClients st1 y [(c, i)]).st y :=
    guard_transfer hgy1 (addClients_impPres st1 y [(c, i)])
  have hMA2 : ∀ e ∈ (c, i) :: M1, e ∈ (addClients st1 y [(c, i)]).st.clients y := by
    intro e he
    rcases List.mem_cons.mp he with rfl | he2
    · exact addClients_mem_self st1 y [(c, i)] (c, i) (List.mem_singleton.mpr rfl) hAdd
    · exact addClients_vkeep st1 y y [(c, i)] e (hM1 e he2)
  have hMh : ∀ e ∈ (c, i) :: M1, EntryHigh nrank B e := by
    intro e he
    rcases List.mem_cons.mp he with rfl | he2
    · exact hch
    · exact hM1h e he2
  have hrkA2 : RankStrong env nrank (addClients st1 y [(c, i)]).st.nInputs := by
    rw [(addClients_impPres st1 y [(c, i)]).1]
    exact hrk1
  obtain ⟨hmemA, hR3eq, hprIff⟩ :=
    removeClients_false_single env k (addClients st1 y [(c, i)]).st x (c, i) pr hRmc
  have hMR3 : ∀ e ∈ (c, i) :: M1,
      e ∈ (removeClients env (k + 1) (addClients st1 y [(c, i)]).st x
        [(c, i)] false).st.clients y := by
    intro e he
    rw [hR3eq]
    dsimp only
    rw [upd_other _ _ _ _ hyx]
    exact hMA2 e he
  have hgR3 : GuardP env
      (removeClients env (k + 1) (addClients st1 y [(c, i)]).st x [(c, i)] false).st y := by
    rw [hR3eq]
    exact hgA2
  have hrkR3 : RankStrong env nrank
      (removeClients env (k + 1) (addClients st1 y [(c, i)]).st x [(c, i)] false).st.nInputs := by
    rw [hR3eq]
    exact hrkA2
  have hoR3 : (removeClients env (k + 1) (addClients st1 y [(c, i)]).st x
      [(c, i)] false).st.outputs = st1.outputs := by
    rw [hR3eq]
    exact (addClients_impPres st1 y [(c, i)]).2.1
  have hniR3 : (removeClients env (k + 1) (addClients st1 y [(c, i)]).st x
      [(c, i)] false).st.nInputs = st1.nInputs := by
    rw [hR3eq]
    exact (addClients_impPres st1 y [(c, i)]).1
  cases pr with
  | false =>
    rw [if_neg Bool.false_ne_true]
    exact ⟨hMR3, hgR3, hoR3, hniR3⟩
  | true =>
    rw [if_pos rfl]
    obtain ⟨k2, hk2⟩ :=
      pruneFuel_succ2
        (removeClients env (k + 1) (addClients st1 y [(c, i)]).st x [(c, i)] false).st
    rw [hk2]
    have hTst : ∀ F s, (pruneR env F s [x]).st = (pruneFam env F s (.prr [x])).st :=
      fun F s => rfl
    rw [hTst]
    have hcb : CallBelow env nrank B (.prr [x]) := by
      intro v hv m hm
      rw [List.mem_singleton] at hv
      exact hcasc m (hv ▸ hm)
    have hPro := pruneFam_protect env nrank B (k2 + 2)
      (removeClients env (k + 1) (addClients st1 y [(c, i)]).st x [(c, i)] false).st
      (.prr [x]) hrkR3 hcb
    have hshr := pruneFam_shrinks env (k2 + 2)
      (removeClients env (k + 1) (addClients st1 y [(c, i)]).st x [(c, i)] false).st
      (.prr [x])
    refine ⟨?_, ⟨?_, ?_, ?_⟩, ?_, ?_⟩
    · intro e he
      exact hPro.1 y e (hMR3 e he) (hMh e he)
    · rw [hshr.2.2.2.2.2.1]
      exact hgR3.1
    · exact hPro.2.1 y hgR3.2.1 ⟨(c, i), hMR3 (c, i) (List.mem_cons_self _ _), hch⟩
    · intro m hom
      exact hPro.2.2 m (hgR3.2.2 m hom)
        ⟨y, hONy m hom, (c, i), hMR3 (c, i) (List.mem_cons_self _ _), hch⟩
    · rw [hshr.2.2.2.2.1]
      exact hoR3
    · rw [hshr.2.2.2.1]
      exact hniR3

/-- One successful `change_input` of `replace`'s loop, seen from `y`: the
edited site's entry migrates to `y`'s client list, already migrated protected
entries stay, `y` ends guarded, the edited slot holds `y` while every other
slot is untouched, and rank coherence of the wiring is preserved. -/
theorem change_input_migrate_step (env : Env) (st : FGState) (c : Cons) (i : Nat)
    (x y : Nat) (nrank : Nat → Nat) (B : Nat)
    (hxy : x ≠ y)
    (hONy : ∀ m, env.owner y = some m → y ∈ env.nOutputs m)
    (hcoy : EnvCoh env y)
    (hslot : slotGet st c i = some x)
    (M : List Site)
    (hyg : (y ∉ st.vars ∧ M = []) ∨ GuardP env st y)
    (hM : ∀ e ∈ M, e ∈ st.clients y)
    (hMh : ∀ e ∈ M, EntryHigh nrank B e)
    (hch : EntryHigh nrank B (c, i))
    (hrk : RankStrong env nrank st.nInputs)
    (hcasc : ∀ m, env.owner x = some m → nrank m < B)
    (hyrnk : ∀ n, c = Cons.node n → ∀ m, env.owner y = some m → nrank m < nrank n)
    (hok : (change_input env st c i y).val = .ok ()) :
    (∀ e ∈ (c, i) :: M, e ∈ (change_input env st c i y).st.clients y) ∧
    GuardP env (change_input env st c i y).st y ∧
    slotGet (change_input env st c i y).st c i = some y ∧
    (∀ c2 j, (c2, j) ≠ (c, i) →
      slotGet (change_input env st c i y).st c2 j = slotGet st c2 j) ∧
    RankStrong env nrank (change_input env st c i y).st.nInputs := by
  obtain ⟨r, stW, hsw, hty, hEq, hclW, hvarsW, hvFgW, hnFgW, hnodesW, hinpW, hfeatsW,
    houtW, hnodeW⟩ := change_input_inv env st c i y hok
  have hrx : x = r := (Option.some.inj (hsw.symm.trans hslot)).symm
  subst hrx
  have hWself : slotGet stW c i = some y := by
    cases c with
    | out =>
      obtain ⟨ho, _⟩ := houtW rfl
      have hsl : st.outputs[i]? = some x := hslot
      show stW.outputs[i]? = some y
      rw [ho]
      exact list_getq_set_self st.outputs i y x hsl
    | node n =>
      obtain ⟨_, hni⟩ := hnodeW n rfl
      have hsl : (st.nInputs n)[i]? = some x := hslot
      show (stW.nInputs n)[i]? = some y
      rw [hni, upd_same]
      exact list_getq_set_self (st.nInputs n) i y x hsl
  have hWother : ∀ c2 j, (c2, j) ≠ (c, i) → slotGet stW c2 j = slotGet st c2 j := by
    cases c with
    | out =>
      obtain ⟨ho, hni⟩ := houtW rfl
      intro c2 j hne
      cases c2 with
      | out =>
        have hji : i ≠ j := fun hh => hne (by rw [hh])
        show stW.outputs[j]? = st.outputs[j]?
        rw [ho]
        exact list_getq_set_ne st.outputs i j hji y
      | node n2 =>
        show (stW.nInputs n2)[j]? = (st.nInputs n2)[j]?
        rw [hni]
    | node n =>
      obtain ⟨ho, hni⟩ := hnodeW n rfl
      intro c2 j hne
      cases c2 with
      | out =>
        show stW.outputs[j]? = st.outputs[j]?
        rw [ho]
      | node n2 =>
        show (stW.nInputs n2)[j]? = (st.nInputs n2)[j]?
        rw [hni]
        by_cases hn2 : n2 = n
        · subst hn2
          rw [upd_same]
          have hji : i ≠ j := fun hh => hne (by rw [hh])
          exact list_getq_set_ne (st.nInputs n2) i j hji y
        · rw [upd_other _ _ _ _ hn2]
  have hWrank : RankStrong env nrank stW.nInputs := by
    cases c with
    | out =>
      obtain ⟨_, hni⟩ := houtW rfl
      rw [hni]
      exact hrk
    | node n =>
      obtain ⟨_, hni⟩ := hnodeW n rfl
      rw [hni]
      intro n2 v m hv hm
      by_cases hn2 : n2 = n
      · subst hn2
        rw [upd_same] at hv
        rcases List.mem_or_eq_of_mem_set hv with hv2 | rfl
        · exact hrk n2 v m hv2 hm
        · exact hyrnk n2 rfl m hm
      · rw [upd_other _ _ _ _ hn2] at hv
        exact hrk n2 v m hv hm
  rw [hEq] at hok ⊢
  unfold changeInputCore at hok ⊢
  rw [if_neg hxy] at hok ⊢
  obtain ⟨a1, hImp, hTail, hstT⟩ := Res.seq_inv hok
  rw [hstT]
  try dsimp only at hTail
  try dsimp only
  cases a1
  have hgy1 : GuardP env (importVars env stW [y]).st y := by
    rcases hyg with ⟨hynv, _⟩ | hgy
    · refine importVars_self_guard env stW y hONy ?_ hImp
      rw [hvarsW]
      exact hynv
    · have hgyW : GuardP env stW y := by
        refine ⟨?_, ?_, ?_⟩
        · rw [hvFgW]; exact hgy.1
        · rw [hvarsW]; exact hgy.2.1
        · intro m hm
          rw [hnodesW]
          exact hgy.2.2 m hm
      exact guard_transfer hgyW (importVars_impPres env stW [y])
  have hM1 : ∀ e ∈ M, e ∈ (importVars env stW [y]).st.clients y := by
    rcases hyg with ⟨_, hMnil⟩ | hgy
    · intro e he
      rw [hMnil] at he
      cases he
    · intro e he
      have hgyW : GuardP env stW y := by
        refine ⟨?_, ?_, ?_⟩
        · rw [hvFgW]; exact hgy.1
        · rw [hvarsW]; exact hgy.2.1
        · intro m hm
          rw [hnodesW]
          exact hgy.2.2 m hm
      exact (vg_importVars env [y] y e hcoy stW ⟨hgyW, by rw [hclW]; exact hM e he⟩).2
  have hrk1 : RankStrong env nrank (importVars env stW [y]).st.nInputs := by
    rw [(importVars_impPres env stW [y]).1]
    exact hWrank
  obtain ⟨hC, hD, hO, hNI⟩ := changeInputTail_migrate env (importVars env stW [y]).st c i
    x y nrank B hxy hONy hgy1 M hM1 hMh hch hrk1 hcasc hTail
  have hoT : (changeInputTail env (importVars env stW [y]).st c i x y).st.outputs
      = stW.outputs := by
    rw [hO]
    exact (importVars_impPres env stW [y]).2.1
  have hniT : (changeInputTail env (importVars env stW [y]).st c i x y).st.nInputs
      = stW.nInputs := by
    rw [hNI]
    exact (importVars_impPres env stW [y]).1
  refine ⟨hC, hD, ?_, ?_, ?_⟩
  · rw [slotGet_congr stW _ hoT hniT]
    exact hWself
  · intro c2 j hne
    rw [slotGet_congr stW _ hoT hniT]
    exact hWother c2 j hne
  · rw [hniT]
    exact hWrank

/-- `change_input`'s tail, seen from the replaced variable `x`, without any
assumption on `x`'s owner: other entries survive, and either `x`'s client
list stays nonempty with the guard intact or it is empty afterwards. -/
theorem changeInputTail_xside (env : Env) (st1 : FGState) (c : Cons) (i : Nat) (x y : Nat)
    (hxy : x ≠ y) (hg1 : GuardP env st1 x)
    (hok : (changeInputTail env st1 c i x y).val = .ok ()) :
    (∀ e, e ∈ st1.clients x → e ≠ (c, i) →
      e ∈ (changeInputTail env st1 c i x y).st.clients x) ∧
    (((changeInputTail env st1 c i x y).st.clients x ≠ [] ∧
        GuardP env (changeInputTail env st1 c i x y).st x) ∨
      (changeInputTail env st1 c i x y).st.clients x = []) := by
  unfold changeInputTail at hok ⊢
  obtain ⟨a1, hAdd, hok2, hst2⟩ := Res.seq_inv hok
  rw [hst2]
  try dsimp only at hok2
  try dsimp only
  obtain ⟨k, hk⟩ := pruneFuel_succ1 (addClients st1 y [(c, i)]).st
  rw [hk] at hok2 ⊢
  obtain ⟨pr, hRmc, hok3, hst3⟩ := Res.seq_inv hok2
  rw [hst3]
  try dsimp only at hok3
  try dsimp only
  rw [Res.seq_emit] at hok3 ⊢
  try dsimp only at hok3
  try dsimp only
  have hgA : GuardP env (addClients st1 y [(c, i)]).st x :=
    guard_transfer hg1 (addClients_impPres st1 y [(c, i)])
  have hclA : (addClients st1 y [(c, i)]).st.clients x = st1.clients x :=
    addClients_clients_other st1 y x [(c, i)] hxy
  obtain ⟨hmemA, hR3eq, hprIff⟩ :=
    removeClients_false_single env k (addClients st1 y [(c, i)]).st x (c, i) pr hRmc
  have hclR3 :
      (removeClients env (k + 1) (addClients st1 y [(c, i)]).st x [(c, i)] false).st.clients x
        = (st1.clients x).erase (c, i) := by
    rw [hR3eq]
    dsimp only
    rw [upd_same, hclA]
  have hgR3 : GuardP env
      (removeClients env (k + 1) (addClients st1 y [(c, i)]).st x [(c, i)] false).st x := by
    rw [hR3eq]; exact hgA
  cases pr with
  | false =>
    rw [if_neg Bool.false_ne_true]
    have hne : (st1.clients x).erase (c, i) ≠ [] := by
      intro hh
      have h0 : ((addClients st1 y [(c, i)]).st.clients x).erase (c, i) = [] := by
        rw [hclA]; exact hh
      exact Bool.false_ne_true (hprIff.mpr h0)
    have hne3 :
        (removeClients env (k + 1) (addClients st1 y [(c, i)]).st x [(c, i)] false).st.clients x
          ≠ [] := by
      rw [hclR3]; exact hne
    refine ⟨?_, Or.inl ⟨hne3, hgR3⟩⟩
    intro e he hne'
    have hmem2 :
        e ∈ (removeClients env (k + 1) (addClients st1 y [(c, i)]).st x
          [(c, i)] false).st.clients x := by
      rw [hclR3]; exact (List.mem_erase_of_ne hne').mpr he
    exact hmem2
  | true =>
    rw [if_pos rfl]
    have hclR3' :
        (removeClients env (k + 1) (addClients st1 y [(c, i)]).st x
          [(c, i)] false).st.clients x = [] := by
      have h0 : ((addClients st1 y [(c, i)]).st.clients x).erase (c, i) = [] := hprIff.mp rfl
      rw [hclA] at h0
      rw [hclR3]; exact h0
    have hAvac : ∀ e, e ∈ st1.clients x → e ≠ (c, i) → False := by
      intro e he hne'
      have h1 : e ∈ (st1.clients x).erase (c, i) := (List.mem_erase_of_ne hne').mpr he
      have h0 : (st1.clients x).erase (c, i) = [] := by rw [← hclR3]; exact hclR3'
      rw [h0] at h1
      exact List.not_mem_nil e h1
    have hTst : ∀ F s, (pruneR env F s [x]).st = (pruneFam env F s (.prr [x])).st :=
      fun F s => rfl
    rw [hTst]
    have hshr := pruneFam_shrinks env
      (pruneFuel
        (removeClients env (k + 1) (addClients st1 y [(c, i)]).st x [(c, i)] false).st)
      (removeClients env (k + 1) (addClients st1 y [(c, i)]).st x [(c, i)] false).st
      (.prr [x])
    have hempty : (pruneFam env
        (pruneFuel
          (removeClients env (k + 1) (addClients st1 y [(c, i)]).st x [(c, i)] false).st)
        (removeClients env (k + 1) (addClients st1 y [(c, i)]).st x [(c, i)] false).st
        (.prr [x])).st.clients x = [] := by
      rw [List.eq_nil_iff_forall_not_mem]
      intro e he
      have h2 := hshr.1 x e he
      rw [hclR3'] at h2
      exact List.not_mem_nil e h2
    exact ⟨fun e he hne' => (hAvac e he hne').elim, Or.inr hempty⟩

/-- One successful `change_input` step, seen from the replaced variable `x`,
without any assumption on `x`'s owner. -/
theorem change_input_xside (env : Env) (st : FGState) (c : Cons) (i : Nat) (x y : Nat)
    (hxy : x ≠ y) (hco : EnvCoh env x)
    (hslot : slotGet st c i = some x) (hg : GuardP env st x)
    (hok : (change_input env st c i y).val = .ok ()) :
    (∀ e, e ∈ st.clients x → e ≠ (c, i) → e ∈ (change_input env st c i y).st.clients x) ∧
    (((change_input env st c i y).st.clients x ≠ [] ∧
        GuardP env (change_input env st c i y).st x) ∨
      (change_input env st c i y).st.clients x = []) := by
  obtain ⟨r, stW, hsw, hty, hEq, hclW, hvarsW, hvFgW, hnFgW, hnodesW, hinpW, hfeatsW,
    houtW, hnodeW⟩ := change_input_inv env st c i y hok
  have hrx : x = r := (Option.some.inj (hsw.symm.trans hslot)).symm
  subst hrx
  rw [hEq] at hok ⊢
  unfold changeInputCore at hok ⊢
  rw [if_neg hxy] at hok ⊢
  obtain ⟨a1, hImp, hTail, hstT⟩ := Res.seq_inv hok
  rw [hstT]
  try dsimp only at hTail
  try dsimp only
  have hgW : GuardP env stW x := by
    refine ⟨?_, ?_, ?_⟩
    · rw [hvFgW]; exact hg.1
    · rw [hvarsW]; exact hg.2.1
    · intro m hm
      rw [hnodesW]
      exact hg.2.2 m hm
  have hg1 : GuardP env (importVars env stW [y]).st x :=
    guard_transfer hgW (importVars_impPres env stW [y])
  have hkeep : ∀ e, e ∈ st.clients x → e ∈ (importVars env stW [y]).st.clients x := by
    intro e he
    exact (vg_importVars env [y] x e hco stW ⟨hgW, by rw [hclW]; exact he⟩).2
  obtain ⟨hA, hB⟩ :=
    changeInputTail_xside env (importVars env stW [y]).st c i x y hxy hg1 hTail
  exact ⟨fun e he hne => hA e (hkeep e he) hne, hB⟩

/-- The client loop of a successful `replace(x, y)` migrates every site of
the duplicate-free snapshot, and keeps every previously migrated protected
site: afterwards each such site is in `y`'s client list and its slot holds
`y`. -/
theorem replaceLoop_migrate (env : Env) (x y : Nat) (nrank : Nat → Nat) (B : Nat)
    (hxy : x ≠ y) (hcox : EnvCoh env x) (hcoy : EnvCoh env y)
    (hONy : ∀ m, env.owner y = some m → y ∈ env.nOutputs m)
    (hcasc : ∀ m, env.owner x = some m → nrank m < B) :
    ∀ (S : List Site) (st : FGState) (M : List Site),
      S.Nodup →
      GuardP env st x →
      (∀ e ∈ S, e ∈ st.clients x) →
      ((y ∉ st.vars ∧ M = []) ∨ GuardP env st y) →
      (∀ e ∈ M, e ∈ st.clients y) →
      (∀ e ∈ M, ∀ c2 j, e = (c2, j) → slotGet st c2 j = some y) →
      (∀ e ∈ M, EntryHigh nrank B e) →
      (∀ e ∈ S, EntryHigh nrank B e) →
      (∀ e ∈ S, ∀ n j, e = (Cons.node n, j) → ∀ m, env.owner y = some m →
        nrank m < nrank n) →
      RankStrong env nrank st.nInputs →
      (replaceLoop env st x y S).val = .ok () →
      ∀ e ∈ M ++ S, ∀ c2 j, e = (c2, j) →
        e ∈ (replaceLoop env st x y S).st.clients y ∧
        slotGet (replaceLoop env st x y S).st c2 j = some y := by
  intro S
  induction S with
  | nil =>
    intro st M _ _ _ _ hM hMs _ _ _ _ _ e he c2 j hej
    rw [List.append_nil] at he
    exact ⟨hM e he, hMs e he c2 j hej⟩
  | cons hd S' ih =>
    obtain ⟨c, i⟩ := hd
    intro st M hnd hgx hSx hyg hM hMs hMh hSh hSyr hrk hok
    unfold replaceLoop at hok ⊢
    by_cases hs : slotGet st c i = some x
    · rw [if_pos hs] at hok ⊢
      obtain ⟨a1, hCI, hLoop, hstL⟩ := Res.seq_inv hok
      rw [hstL]
      try dsimp only at hLoop
      try dsimp only
      cases a1
      have hchd : EntryHigh nrank B (c, i) := hSh (c, i) (List.mem_cons_self _ _)
      have hyrnk : ∀ n, c = Cons.node n → ∀ m, env.owner y = some m → nrank m < nrank n := by
        intro n hcn m hm
        exact hSyr (c, i) (List.mem_cons_self _ _) n i (by rw [hcn]) m hm
      obtain ⟨hC, hD, hSelf, hOther, hRk1⟩ := change_input_migrate_step env st c i x y
        nrank B hxy hONy hcoy hs M hyg hM hMh hchd hrk hcasc hyrnk hCI
      obtain ⟨hA, hB⟩ := change_input_xside env st c i x y hxy hcox hs hgx hCI
      have hMne : ∀ e ∈ M, e ≠ ((c, i) : Site) := by
        intro e he heq
        obtain ⟨c2, j⟩ := e
        have h1 : slotGet st c2 j = some y := hMs (c2, j) he c2 j rfl
        injection heq with hc2 hj
        subst hc2
        subst hj
        rw [hs] at h1
        exact hxy (Option.some.inj h1)
      have hM1slots : ∀ e ∈ (c, i) :: M, ∀ c2 j, e = (c2, j) →
          slotGet (change_input env st c i y).st c2 j = some y := by
        intro e he c2 j hej
        rcases List.mem_cons.mp he with rfl | he2
        · cases hej
          exact hSelf
        · subst hej
          rw [hOther c2 j (fun hh => hMne (c2, j) he2 hh)]
          exact hMs (c2, j) he2 c2 j rfl
      rcases hB with ⟨hne1, hgx1⟩ | hcl1
      · have hS'x : ∀ e ∈ S', e ∈ (change_input env st c i y).st.clients x := by
          intro e2 he2
          have hne2 : e2 ≠ (c, i) := by
            intro hh
            exact (List.nodup_cons.mp hnd).1 (hh ▸ he2)
          exact hA e2 (hSx e2 (List.mem_cons_of_mem _ he2)) hne2
        have hrest := ih (change_input env st c i y).st ((c, i) :: M)
          (List.nodup_cons.mp hnd).2 hgx1 hS'x (Or.inr hD) hC hM1slots
          (fun e he => by
            rcases List.mem_cons.mp he with rfl | he2
            · exact hchd
            · exact hMh e he2)
          (fun e he => hSh e (List.mem_cons_of_mem _ he))
          (fun e he => hSyr e (List.mem_cons_of_mem _ he))
          hRk1 hLoop
        intro e he c2 j hej
        refine hrest e ?_ c2 j hej
        rw [List.mem_append] at he ⊢
        rcases he with he | he
        · exact Or.inl (List.mem_cons_of_mem _ he)
        · rcases List.mem_cons.mp he with rfl | he2
          · exact Or.inl (List.mem_cons_self _ _)
          · exact Or.inr he2
      · cases S' with
        | nil =>
          intro e he c2 j hej
          have he' : e ∈ ((c, i) : Site) :: M := by
            rw [List.mem_append] at he
            rcases he with he | he
            · exact List.mem_cons_of_mem _ he
            · rcases List.mem_cons.mp he with rfl | he2
              · exact List.mem_cons_self _ _
              · cases he2
          exact ⟨hC e he', hM1slots e he' c2 j hej⟩
        | cons e2 S'' =>
          exfalso
          have hne2 : e2 ≠ (c, i) := by
            intro hh
            exact (List.nodup_cons.mp hnd).1 (hh ▸ List.mem_cons_self e2 S'')
          have he2q : e2 ∈ (change_input env st c i y).st.clients x :=
            hA e2 (hSx e2 (List.mem_cons_of_mem _ (List.mem_cons_self e2 S''))) hne2
          rw [hcl1] at he2q
          exact List.not_mem_nil e2 he2q
    · rw [if_neg hs] at hok
      dsimp only [Res.err] at hok
      cases hok

/-- C1, amended: for a successful `replace(r, new_r)` on a graph whose
invariants hold (with `new_r` distinct from `r` and either fresh or already
guarded, duplicate-free client bookkeeping, and an acyclicity rank on the
wiring), every site that was in `r`'s client list before the call ends with
its slot pointing at `new_r` and appears in `new_r`'s client list.  The
original claim's stronger clauses — that no site references `r` afterwards
and that `new_r`'s clients are exactly the prior sites — are refuted by the
counterexample: importing `new_r`'s subgraph can add fresh consumers of
`r`. -/
theorem replace_migrates_clients (env : Env) (st : FGState) (x y : Nat)
    (nrank : Nat → Nat) (B : Nat)
    (hxy : x ≠ y)
    (hcox : EnvCoh env x) (hcoy : EnvCoh env y)
    (hONy : ∀ m, env.owner y = some m → y ∈ env.nOutputs m)
    (hx : x ∈ st.vars)
    (hxo : ∀ m, env.owner x = some m → m ∈ st.nodes)
    (hyg : y ∉ st.vars ∨ GuardP env st y)
    (hnd : (st.clients x).Nodup)
    (hSh : ∀ n j, (Cons.node n, j) ∈ st.clients x → B ≤ nrank n)
    (hcasc : ∀ m, env.owner x = some m → nrank m < B)
    (hSyr : ∀ n j, (Cons.node n, j) ∈ st.clients x → ∀ m, env.owner y = some m →
      nrank m < nrank n)
    (hrk : RankStrong env nrank st.nInputs)
    (hok : (replace env st x y).val = .ok ()) :
    ∀ c i, (c, i) ∈ st.clients x →
      (c, i) ∈ (replace env st x y).st.clients y ∧
      slotGet (replace env st x y).st c i = some y := by
  unfold replace at hok ⊢
  by_cases h1 : st.vFg x ≠ .mine
  · rw [if_pos h1] at hok
    dsimp only [Res.err] at hok
    cases hok
  · rw [if_neg h1] at hok ⊢
    by_cases h2 : env.vtype x ≠ env.vtype y
    · rw [if_pos h2] at hok
      dsimp only [Res.err] at hok
      cases hok
    · rw [if_neg h2] at hok ⊢
      rw [if_neg (not_not_intro hx)] at hok ⊢
      push_neg at h1
      intro c i hci
      refine replaceLoop_migrate env x y nrank B hxy hcox hcoy hONy hcasc
        (st.clients x) st [] hnd ⟨h1, hx, hxo⟩ (fun e he => he)
        ?_ (fun e he => by cases he) (fun e he => by cases he) (fun e he => by cases he)
        ?_ ?_ hrk hok (c, i) (by rw [List.nil_append]; exact hci) c i rfl
      · rcases hyg with hynv | hgy
        · exact Or.inl ⟨hynv, rfl⟩
        · exact Or.inr hgy
      · intro e he n j hej
        exact hSh n j (hej ▸ he)
      · intro e he n j hej m hm
        exact hSyr n j (hej ▸ he) m hm

/-- A small concrete graph for the replacement theorems: one declared input
`0` that is also the sole output and has the single client site
`('output', 0)`. -/
def exStD : FGState :=
  { inputs := [0], outputs := [0], nodes := [], vars := [0],
    clients := fun v => if v = 0 then [(Cons.out, 0)] else [],
    nInputs := exEnv1.nInputsInit,
    vFg := fun v => if v = 0 then .mine else .unset,
    nFg := fun _ => .unset, feats := [] }

theorem exOwner0 : exEnv1.owner 0 = none := by decide

theorem exOwner5 : exEnv1.owner 5 = none := by decide

/-- Variable `5` of the example environment is produced by no node. -/
theorem exEnvCoh5 : EnvCoh exEnv1 5 := by
  intro m hm
  exfalso
  revert hm
  show 5 ∈ (if m = 10 then [2] else if m = 11 then [3] else if m = 12 then [4]
    else ([] : List Nat)) → False
  split_ifs <;> decide

/-- No client site of `0` in the example graph is a node site. -/
theorem exStD_nodesite (n j : Nat) (h : (Cons.node n, j) ∈ exStD.clients 0) : False := by
  have h' : (Cons.node n, j) ∈ [((Cons.out, 0) : Site)] := h
  simp at h'

/-- The example wiring carries the trivial rank. -/
theorem exStD_rank : RankStrong exEnv1 (fun _ => 0) exStD.nInputs := by
  intro n v m hv hm
  exfalso
  have hv' : v ∈ (if n = 10 then [0, 1] else if n = 11 then [0, 1] else
    if n = 12 then [0] else ([] : List Nat)) := hv
  revert hv'
  split_ifs <;> intro hv'
  · rcases (by simpa using hv' : v = 0 ∨ v = 1) with rfl | rfl <;> simp [exEnv1] at hm
  · rcases (by simpa using hv' : v = 0 ∨ v = 1) with rfl | rfl <;> simp [exEnv1] at hm
  · have hv0 : v = 0 := by simpa using hv'
    subst hv0
    simp [exEnv1] at hm
  · simp at hv'

theorem replace_migrates_clients_witness :
    ((0 : Nat) ≠ 5 ∧ 0 ∈ exStD.vars ∧ (5 : Nat) ∉ exStD.vars ∧
      (exStD.clients 0).Nodup ∧ (Cons.out, 0) ∈ exStD.clients 0 ∧
      (replace exEnv1 exStD 0 5).val = .ok ()) ∧
    ((Cons.out, 0) ∈ (replace exEnv1 exStD 0 5).st.clients 5 ∧
      slotGet (replace exEnv1 exStD 0 5).st Cons.out 0 = some 5) :=
  ⟨by decide,
   replace_migrates_clients exEnv1 exStD 0 5 (fun _ => 0) 0 (by decide) exEnvCoh0 exEnvCoh5
     (fun m hm => by rw [exOwner5] at hm; cases hm)
     (by decide)
     (fun m hm => by rw [exOwner0] at hm; cases hm)
     (Or.inl (by decide))
     (by decide)
     (fun n j h => (exStD_nodesite n j h).elim)
     (fun m hm => by rw [exOwner0] at hm; cases hm)
     (fun n j h => (exStD_nodesite n j h).elim)
     exStD_rank
     (by decide)
     Cons.out 0 (by decide)⟩
